import Mathlib

/-!
# gosproto encoder: a shallow embedding of `encode.go`

The definitions below follow `encode.go` function by function.

* A byte buffer is a `List Nat`; a Go `[]byte` that may be `nil` is an `Option Bytes`.
* A Go panic (index out of range, reflect call on the wrong kind, nil dereference) is the
  outer `none` of an `Option`.
* Machine integers are `Nat`/`Int` with the explicit conversions `uint8` ... `uint64`.
  Go `int` is taken to be 64 bits wide: the arithmetic on tags wraps through `wrapInt`;
  buffer sizes and offsets are below `2^63` and are kept as `Nat`.
* `reflect.Value` is the inductive type `Value`.
-/

namespace Sproto

/-- A byte buffer, one `Nat` below 256 per byte. -/
abbrev Bytes := List Nat

/-! ## Constants (`encode.go` lines 10-16) -/

def EncodeBufferSize : Nat := 4096
def MaxEmbeddedInt : Nat := 0x7fff - 1
def MaxInt32 : Nat := 0x7fffffff
def MinInt32 : Int := -0x80000000
def DOUBLE_SZ : Nat := 8

/-! ## Integer conversions -/

/-- Go conversion `uint8(x)` of an unsigned value. -/
def uint8 (x : Nat) : Nat := x % 2 ^ 8
/-- Go conversion `uint16(x)` of an unsigned value. -/
def uint16 (x : Nat) : Nat := x % 2 ^ 16
/-- Go conversion `uint32(x)` of an unsigned value. -/
def uint32 (x : Nat) : Nat := x % 2 ^ 32
/-- Go conversion `uint64(x)` of an unsigned value. -/
def uint64 (x : Nat) : Nat := x % 2 ^ 64
/-- Go conversion `uint16(x)` of a signed `int`. -/
def uint16OfInt (x : Int) : Nat := (x % 2 ^ 16).toNat
/-- Go conversion `uint64(x)` of a signed integer (two's complement). -/
def uint64OfInt (x : Int) : Nat := (x % 2 ^ 64).toNat
/-- The `int` that a Go operation on `int`s yields when its mathematical result is `x`:
`x` wrapped to 64-bit two's complement. -/
def wrapInt (x : Int) : Int := (x + 2 ^ 63) % 2 ^ 64 - 2 ^ 63

/-! ## Buffers -/

/-- Assignment `buf[i] = b`; panics when `i` is out of range. -/
def setByte (buf : Bytes) (i : Nat) (b : Nat) : Option Bytes :=
  if i < buf.length then some (buf.set i b) else none

/-- The call `f(buf[off:])` for a callee that writes through the slice: the bytes before
`off` are untouched, the callee sees and updates the rest. Slicing panics when `off`
exceeds the length. -/
def atOffset (buf : Bytes) (off : Nat) (f : Bytes → Option Bytes) : Option Bytes :=
  if off ≤ buf.length then (f (buf.drop off)).map (fun t => buf.take off ++ t) else none

/-- Go builtin `copy(dst, src)`: overwrites the first `min (len dst) (len src)` bytes of
`dst`. Returns the updated `dst`. -/
def copy (dst src : Bytes) : Bytes :=
  src.take dst.length ++ dst.drop src.length

/-- Go builtin `make([]byte, n)`. -/
def make (n : Nat) : Bytes := List.replicate n 0

/-- Modelled from the spec: `Append(dst, src)`, the buffer append helper of the byte
primitives (its source file is not part of the available sources); it returns `dst`
followed by `src`. -/
def Append (dst src : Bytes) : Bytes := dst ++ src

/-! ## Little-endian writers (`encode.go` lines 18-41) -/

def writeUint16 (buf : Bytes) (v : Nat) : Option Bytes := do
  let buf ← setByte buf 0 (uint8 (v &&& 0xff))
  let buf ← setByte buf 1 (uint8 (v >>> 8))
  pure buf

def writeUint32 (buf : Bytes) (v : Nat) : Option Bytes := do
  let buf ← setByte buf 0 (uint8 (v &&& 0xff))
  let buf ← setByte buf 1 (uint8 ((v >>> 8) &&& 0xff))
  let buf ← setByte buf 2 (uint8 ((v >>> 16) &&& 0xff))
  let buf ← setByte buf 3 (uint8 ((v >>> 24) &&& 0xff))
  pure buf

def writeUint64 (buf : Bytes) (v : Nat) : Option Bytes := do
  let buf ← setByte buf 0 (uint8 (v &&& 0xff))
  let buf ← setByte buf 1 (uint8 ((v >>> 8) &&& 0xff))
  let buf ← setByte buf 2 (uint8 ((v >>> 16) &&& 0xff))
  let buf ← setByte buf 3 (uint8 ((v >>> 24) &&& 0xff))
  let buf ← setByte buf 4 (uint8 ((v >>> 32) &&& 0xff))
  let buf ← setByte buf 5 (uint8 ((v >>> 40) &&& 0xff))
  let buf ← setByte buf 6 (uint8 ((v >>> 48) &&& 0xff))
  let buf ← setByte buf 7 (uint8 ((v >>> 56) &&& 0xff))
  pure buf

/-! ## Host values -/

/-- The `reflect.Kind` of a host integer. -/
inductive Kind where
  | Int8 | Int16 | Int32 | Int64 | Int
  | Uint8 | Uint16 | Uint32 | Uint64 | Uint
deriving DecidableEq, Repr

/-- The values a host integer of the given kind can hold (`int` and `uint` are 64 bits). -/
def inRange : Kind → Int → Prop
  | .Int8, x => -2 ^ 7 ≤ x ∧ x < 2 ^ 7
  | .Int16, x => -2 ^ 15 ≤ x ∧ x < 2 ^ 15
  | .Int32, x => -2 ^ 31 ≤ x ∧ x < 2 ^ 31
  | .Int64, x => -2 ^ 63 ≤ x ∧ x < 2 ^ 63
  | .Int, x => -2 ^ 63 ≤ x ∧ x < 2 ^ 63
  | .Uint8, x => 0 ≤ x ∧ x < 2 ^ 8
  | .Uint16, x => 0 ≤ x ∧ x < 2 ^ 16
  | .Uint32, x => 0 ≤ x ∧ x < 2 ^ 32
  | .Uint64, x => 0 ≤ x ∧ x < 2 ^ 64
  | .Uint, x => 0 ≤ x ∧ x < 2 ^ 64

instance (k : Kind) (x : Int) : Decidable (inRange k x) := by
  cases k <;> unfold inRange <;> infer_instance

/-- The `reflect.Value` of a field slot (after `encodeMessage` has taken the address of a
plain scalar), of a record, or of a struct-array element.

* `nil`: a nil pointer, nil slice or nil map.
* `ptrBool`, `ptrInt`, `ptrDouble`, `ptrString`, `ptrStruct`: a non-nil pointer to a
  scalar. An integer carries its host kind and its mathematical value; a double carries
  `math.Float64bits` of the number; a struct carries its host fields by index.
* `bytes`: a non-nil `[]byte`.
* `boolSlice` ... `structSlice`: a non-nil slice, elements in index order. A struct
  slice holds pointers (`nil` or `ptrStruct`).
* `map`: a non-nil map, given by its entries in the order `MapRange` yields them: the
  `i`-th entry has the key `keys[i]` and the value `vals[i]`, and both lists have the
  length of the map. A key or value that is a plain scalar is given as the pointer that
  `setValue` stores for it in a field of the element struct. -/
inductive Value where
  | nil
  | ptrBool (b : Bool)
  | ptrInt (k : Kind) (x : Int)
  | ptrDouble (bits : Nat)
  | ptrString (s : Bytes)
  | ptrStruct (fields : List Value)
  | bytes (bs : Bytes)
  | boolSlice (xs : List Bool)
  | intSlice (k : Kind) (xs : List Int)
  | doubleSlice (xs : List Nat)
  | stringSlice (xs : List Bytes)
  | bytesSlice (xs : List Bytes)
  | structSlice (xs : List Value)
  | map (keys : List Value) (vals : List Value)

/-- The test `v.IsNil()` of the header encoders, on a pointer, slice or map. -/
def Value.IsNil : Value → Bool
  | .nil => true
  | _ => false

/-- Modelled from the spec: the Go type of a host field, as far as the zero value of the
host struct depends on it: a pointer, slice or map (`nilable`), or a plain scalar, of which
`encodeMessage` takes the address. -/
inductive FieldType where
  | nilable
  | bool
  | int (k : Kind)
  | double
  | string
deriving DecidableEq, Repr

/-- The zero value of a host field in the form the loop of `encodeMessage` reads it: nil,
or the address of the zero scalar. -/
def FieldType.zero : FieldType → Value
  | .nilable => .nil
  | .bool => .ptrBool false
  | .int k => .ptrInt k 0
  | .double => .ptrDouble 0
  | .string => .ptrString []

/-! ## Header encoders (`encode.go` lines 43-95)

The result is the pair `(header, isNil)`. A field slot read from a record is always a
valid `reflect.Value`, so the branch `!v.IsValid()` is not taken. The descriptor argument
`sf` is not read by the header encoders and is left out. -/

def headerEncodeDefault (v : Value) : Option (Nat × Bool) :=
  if v.IsNil then some (0, true) else some (0, false)

def headerEncodeBool (v : Value) : Option (Nat × Bool) :=
  if v.IsNil then some (0, true) else
  match v with
  | .ptrBool b =>
    let n : Nat := if b then 1 else 0
    some (uint16 (2 * (n + 1)), false)
  | _ => none

def headerEncodeInt (v : Value) : Option (Nat × Bool) :=
  if v.IsNil then some (0, true) else
  match v with
  | .ptrInt k x =>
    let n : Nat :=
      match k with
      | .Int8 | .Int16 | .Int32 | .Int64 | .Int => uint64OfInt x
      | .Uint8 | .Uint16 | .Uint32 | .Uint64 | .Uint => uint64OfInt x
    if n ≤ MaxEmbeddedInt then some (uint16 (uint64 (2 * (n + 1))), false) else some (0, false)
  | .ptrBool _ | .ptrDouble _ | .ptrString _ | .ptrStruct _ =>
    -- `v.Elem()` is not an integer: no case of the switch applies and `n` stays 0
    some (uint16 (uint64 (2 * (0 + 1))), false)
  | _ => none

/-! ## Scalar encoders (`encode.go` lines 97-162)

The result is `some (some bytes)`, `some none` for a nil slice, or `none` for a call that
reflect does not allow on the value. The descriptor argument `sf` is read by
`encodeStruct`, `encodeStructSlice` and `encodeMap` only and is left out elsewhere. -/

/-- `extractInt` on an integer of kind `k` and value `x`: the pair `(n, sz)`. In the
`default` case the source declares a new local with `n := v.Uint()`; the result `n` is not
assigned there and keeps its zero value. -/
def extractInt (k : Kind) (x : Int) : Nat × Nat :=
  match k with
  | .Int8 | .Int16 | .Int32 => (uint64OfInt x, 4)
  | .Int | .Int64 =>
    let n1 := x
    (uint64OfInt n1, if n1 ≥ -0x80000000 ∧ n1 ≤ 0x7fffffff then 4 else 8)
  | .Uint8 | .Uint16 => (uint64OfInt x, 4)
  | _ =>
    let n := uint64OfInt x
    (0, if n ≤ MaxInt32 then 4 else 8)

def encodeInt (v : Value) : Option (Option Bytes) :=
  match v with
  | .ptrInt k x =>
    let (n, sz) := extractInt k x
    if n ≤ MaxEmbeddedInt then some none else
    let buf := make sz
    if sz = 4 then (writeUint32 buf (uint32 n)).map some
    else (writeUint64 buf n).map some
  | _ => none

def encodeDouble (v : Value) : Option (Option Bytes) :=
  match v with
  | .ptrDouble n =>
    let buf := make DOUBLE_SZ
    (writeUint64 buf n).map some
  | _ => none

def encodeString (v : Value) : Option (Option Bytes) :=
  match v with
  | .ptrString str =>
    let buf := make str.length
    some (some (copy buf str))
  | _ => none

def encodeBytes (v : Value) : Option (Option Bytes) :=
  match v with
  | .bytes bytes =>
    let buf := make bytes.length
    some (some (copy buf bytes))
  | _ => none

/-! ## Array encoders (`encode.go` lines 164-249) -/

/-- One iteration of the loop of `encodeBoolSlice`; the state is `(buf, i)`. -/
def encodeBoolSliceStep (offset : Nat) (s : Bytes × Nat) (x : Bool) : Option (Bytes × Nat) := do
  let (buf, i) := s
  let buf ← if x then setByte buf (offset + i) 1 else setByte buf (offset + i) 0
  pure (buf, i + 1)

def encodeBoolSlice (v : Value) : Option (Option Bytes) :=
  match v with
  | .boolSlice xs =>
    let sz := xs.length
    let buf := make sz
    let offset := 0
    (xs.foldlM (encodeBoolSliceStep offset) (buf, 0)).map (fun s => some s.1)
  | _ => none

/-- One iteration of the second loop of `encodeBytesSlice` and of `encodeStringSlice` (the
two bodies are the same on bytes); the state is `(buf, offset)`. -/
def encodeBytesSliceStep (s : Bytes × Nat) (bs : Bytes) : Option (Bytes × Nat) := do
  let (buf, offset) := s
  let strLen := bs.length
  let buf ← atOffset buf offset (fun b => writeUint32 b (uint32 strLen))
  let buf ← atOffset buf (offset + 4) (fun b => some (copy b bs))
  pure (buf, offset + (4 + strLen))

/-- The second loop of `encodeBytesSlice`/`encodeStringSlice` on the fresh buffer: the
final buffer and the final offset. -/
def encodeBytesSliceLoop (xs : List Bytes) : Option (Bytes × Nat) :=
  let sz := xs.foldl (fun sz bs => sz + (4 + bs.length)) 0
  let buf := make sz
  xs.foldlM encodeBytesSliceStep (buf, 0)

def encodeBytesSlice (v : Value) : Option (Option Bytes) :=
  match v with
  | .bytesSlice xs => (encodeBytesSliceLoop xs).map (fun s => some s.1)
  | _ => none

def encodeStringSlice (v : Value) : Option (Option Bytes) :=
  match v with
  | .stringSlice xs => (encodeBytesSliceLoop xs).map (fun s => some s.1)
  | _ => none

/-- One iteration of the first loop of `encodeIntSlice`; the state is `(intLen, vals)`, and
`vals[i] = n` fills `vals` in index order. -/
def encodeIntSliceScanStep (k : Kind) (s : Nat × List Nat) (x : Int) : Nat × List Nat :=
  let (intLen, vals) := s
  let (n, tmp) := extractInt k x
  let intLen := if tmp > intLen then tmp else intLen
  (intLen, vals ++ [n])

/-- One iteration of the second loop of `encodeIntSlice`; the state is `(buf, offset)`. -/
def encodeIntSliceStep (intLen : Nat) (s : Bytes × Nat) (val : Nat) : Option (Bytes × Nat) := do
  let (buf, offset) := s
  let buf ←
    if intLen = 4 then atOffset buf offset (fun b => writeUint32 b (uint32 val))
    else atOffset buf offset (fun b => writeUint64 b val)
  pure (buf, offset + intLen)

def encodeIntSlice (v : Value) : Option (Option Bytes) :=
  match v with
  | .intSlice k xs =>
    let (intLen, vals) := xs.foldl (encodeIntSliceScanStep k) (4, [])
    let buf := make (1 + intLen * xs.length)
    (setByte buf 0 (uint8 intLen)).bind fun buf =>
    (vals.foldlM (encodeIntSliceStep intLen) (buf, 1)).map (fun s => some s.1)
  | _ => none

/-- One iteration of the loop of `encodeDoubleSlice`; the state is `(buf, offset)`. -/
def encodeDoubleSliceStep (s : Bytes × Nat) (dv : Nat) : Option (Bytes × Nat) := do
  let (buf, offset) := s
  let buf ← atOffset buf offset (fun b => writeUint64 b dv)
  pure (buf, offset + DOUBLE_SZ)

def encodeDoubleSlice (v : Value) : Option (Option Bytes) :=
  match v with
  | .doubleSlice xs =>
    let buf := make (1 + DOUBLE_SZ * xs.length)
    (setByte buf 0 (uint8 DOUBLE_SZ)).bind fun buf =>
    (xs.foldlM encodeDoubleSliceStep (buf, 1)).map (fun s => some s.1)
  | _ => none

/-- One iteration of the second loop of `encodeStructSlice`, over the encoded elements; the
state is `(buf, offset)`. -/
def encodeStructSliceStep (s : Bytes × Nat) (val : Bytes) : Option (Bytes × Nat) := do
  let (buf, offset) := s
  let valLen := val.length
  let buf ← atOffset buf offset (fun b => writeUint32 b (uint32 valLen))
  let buf ← atOffset buf (offset + 4) (fun b => some (copy b val))
  pure (buf, offset + (valLen + 4))

/-- The part of `encodeStructSlice` after the first loop has filled `vals` (the encoded
elements) and summed `sz`. -/
def encodeStructSliceBuf (vals : List Bytes) : Option Bytes :=
  let sz := vals.foldl (fun sz val => sz + (val.length + 4)) 0
  let buf := make sz
  (vals.foldlM encodeStructSliceStep (buf, 0)).map (fun s => s.1)

/-! ## Headers (`encode.go` lines 298-316) -/

/-- `skipTag(tag, nextTag)`; every operation on the `int`s wraps. -/
def skipTag (tag nextTag : Int) : Nat :=
  if nextTag > wrapInt (tag + 1) then
    let span := wrapInt (wrapInt (nextTag - tag) - 1)
    uint16OfInt (wrapInt (wrapInt (wrapInt (span - 1) * 2) + 1))
  else 0

/-- One iteration of the loop of `encodeHeaders`; the state is `(buf, i)`. -/
def encodeHeadersStep (s : Bytes × Nat) (v : Nat) : Option (Bytes × Nat) := do
  let (buf, i) := s
  let buf ← atOffset buf i (fun b => writeUint16 b v)
  pure (buf, i + 2)

def encodeHeaders (headers : List Nat) (reserved : Nat) : Option Bytes := do
  let buf := make ((headers.length + 1) * 2 + reserved)
  let i := 0
  let buf ← writeUint16 buf (uint16 headers.length)
  let i := i + 2
  let (buf, i) ← headers.foldlM encodeHeadersStep (buf, i)
  if i ≤ buf.length then pure (buf.take i) else none

/-! ## Descriptor table -/

/-- The header encoders a descriptor can point to. -/
inductive HeaderEncFn where
  | headerEncodeDefault | headerEncodeBool | headerEncodeInt
deriving DecidableEq, Repr

/-- The encoders a descriptor can point to. -/
inductive EncFn where
  | encodeInt | encodeDouble | encodeString | encodeBytes | encodeStruct
  | encodeBoolSlice | encodeBytesSlice | encodeStringSlice | encodeIntSlice
  | encodeDoubleSlice | encodeStructSlice | encodeMap
deriving DecidableEq, Repr

/-- Modelled from the spec: the field descriptor `SprotoField` (declared in a source file
that is not available), with the members `encode.go` reads: the tag, the map key and value
tags, the nested descriptor table `st` (a pointer, here the position of the table in the
list of all tables), the binding `field` (the index of the host field, `sf.field.Index`)
with the host integer kind of that field (`sf.field.Type`, read for integer fields and
integer arrays), and the two routines chosen when the table is built (`enc` may be nil). -/
structure SprotoField where
  Tag : Int
  KeyTag : Int
  ValueTag : Int
  st : Nat
  field : Nat
  hostKind : Kind
  headerEnc : HeaderEncFn
  enc : Option EncFn
deriving DecidableEq, Repr

/-- Modelled from the spec: the descriptor table `SprotoType` (declared in a source file
that is not available): the field descriptors, the order index over them, and the member
`Type`, the host struct type, given by the types of its fields in index order (`encodeMap`
reads it for `reflect.New(st.Type)`). -/
structure SprotoType where
  Fields : List SprotoField
  order : List Nat
  goType : List FieldType
deriving DecidableEq, Repr

/-- The call `sf.headerEnc(sf, v)`. -/
def callHeaderEnc (sf : SprotoField) (v : Value) : Option (Nat × Bool) :=
  match sf.headerEnc with
  | .headerEncodeDefault => headerEncodeDefault v
  | .headerEncodeBool => headerEncodeBool v
  | .headerEncodeInt => headerEncodeInt v

/-! ## Messages (`encode.go` lines 251-296 and 318-359) -/

/-- The local variables of `encodeMessage` that the loop updates. -/
structure EncState where
  headers : List Nat
  offset : Nat
  tag : Int
  buffer : Bytes
  dataLen : Bytes
deriving DecidableEq, Repr

/-- Assignment `headers[i] = h`; panics when `i` is out of range. -/
def setHeader (headers : List Nat) (i : Nat) (h : Nat) : Option (List Nat) :=
  if i < headers.length then some (headers.set i h) else none

/-- The state of `encodeMessage` before the loop (lines 319-323). -/
def encodeMessageInit (st : SprotoType) : EncState :=
  { headers := List.replicate (st.Fields.length * 2) 0
    offset := 0
    tag := -1
    buffer := (make EncodeBufferSize).take 0
    dataLen := make 4 }

/-- One iteration of the loop of `encodeMessage` (lines 326-355) for the index `i` taken
from `st.order`, on the record with host fields `fs`. `tab` holds, for every host field,
the call `sf.enc(sf, v1)` on that field as a function of the descriptor. -/
def encodeMessageStep (st : SprotoType) (fs : List Value)
    (tab : List (SprotoField → Option (Option Bytes))) (s : EncState) (i : Nat) :
    Option EncState := do
  let sf ← st.Fields[i]?
  let v1 ← fs[sf.field]?
  let nextTag := sf.Tag
  if nextTag < 0 then pure s else
  let (header, isNil) ← callHeaderEnc sf v1
  if isNil then pure s else
  let skip := skipTag s.tag nextTag
  let (headers, offset) ←
    if skip > 0 then (setHeader s.headers s.offset skip).map (fun h => (h, s.offset + 1))
    else some (s.headers, s.offset)
  let headers ← setHeader headers offset header
  let offset := offset + 1
  let tag := nextTag
  match sf.enc with
  | none => pure { s with headers := headers, offset := offset, tag := tag }
  | some _ =>
    let call ← tab[sf.field]?
    let data ← call sf
    match data with
    | none => pure { s with headers := headers, offset := offset, tag := tag }
    | some data =>
      let dataLen ← writeUint32 s.dataLen (uint32 data.length)
      let buffer := Append s.buffer dataLen
      let buffer := Append buffer data
      pure { headers := headers, offset := offset, tag := tag, buffer := buffer,
             dataLen := dataLen }

/-- The return statement of `encodeMessage` (line 358). -/
def encodeMessageEnd (s : EncState) : Option Bytes :=
  if s.offset ≤ s.headers.length then
    (encodeHeaders (s.headers.take s.offset) s.buffer.length).map (fun h => Append h s.buffer)
  else none

/-- The loop of `encodeMessage` over `st.order`. -/
def encodeMessageLoop (st : SprotoType) (fs : List Value)
    (tab : List (SprotoField → Option (Option Bytes))) : Option EncState :=
  st.order.foldlM (encodeMessageStep st fs tab) (encodeMessageInit st)

/-- Modelled from the spec: `st.FieldByTag(tag)`, the descriptor of `st` with the given
tag, nil when there is none (the method is declared in a source file that is not available;
the table builder rejects a map whose key or value tag names no field of the element
struct). -/
def FieldByTag (st : SprotoType) (tag : Int) : Option SprotoField :=
  st.Fields.find? (fun sf => decide (sf.Tag = tag))

/-- Modelled from the spec: `setValue(elem.FieldByIndex(index), x)`, which copies the key
or the value of a map entry into a host field of the element struct (spec section 4.2, map
lowering); a plain scalar is stored as a pointer to it, which is the form a `Value` has.
It panics when the struct has no such field. The content of a field is of any type `α`,
so that a struct can also be given by what is known of each field. -/
def setValue {α : Type} (elem : List α) (index : Nat) (x : α) : Option (List α) :=
  if index < elem.length then some (elem.set index x) else none

/-- The body of the loop of `encodeMap` for one entry of a simple map (lines 284-293): the
fields of the element struct. The struct starts as `zero`, the zero value of the host
struct (`reflect.New(st.Type)`), then the entry's key and value are copied into the fields
of the descriptors with the tags `sf.KeyTag` and `sf.ValueTag`. A tag without descriptor
is a nil dereference. -/
def encodeMapElem {α : Type} (st : SprotoType) (sf : SprotoField) (zero : List α)
    (key val : α) : Option (List α) := do
  let keySprotoField ← FieldByTag st sf.KeyTag
  let valueSprotoField ← FieldByTag st sf.ValueTag
  let elem := zero
  let elem ← setValue elem keySprotoField.field key
  let elem ← setValue elem valueSprotoField.field val
  pure elem

/-- The loop of `encodeMap` over the entries of a simple map (lines 278-294), in iteration
order: the fields of the elements appended to `vals`. -/
def encodeMapElems {α : Type} (st : SprotoType) (sf : SprotoField) (zero : List α) :
    List α → List α → Option (List (List α))
  | key :: keys, val :: vals =>
    (encodeMapElem st sf zero key val).bind fun elem =>
    (encodeMapElems st sf zero keys vals).map fun rest => elem :: rest
  | _, _ => some []

/-- The zero value of the host struct of `st`: `reflect.New(st.Type).Elem()`, field by
field. -/
def zeroStruct (st : SprotoType) : List Value := st.goType.map FieldType.zero

/-- The first loop of `encodeStructSlice` on the slice that `encodeMap` builds from a
simple map: `encodeMessage(st, elem)` for the element of every entry. Every key and value
comes with the call `sf.enc(sf, v)` on it as a function of the descriptor (`keyCalls`,
`valCalls`, and `zeroCall v` for a field `v` of the zero struct), and the loop of
`encodeMessage` runs on the fields of the element with the calls of those fields. -/
def encodeSimpleMapVals (st : SprotoType) (sf : SprotoField)
    (zeroCall : Value → SprotoField → Option (Option Bytes)) (keys vals : List Value)
    (keyCalls valCalls : List (SprotoField → Option (Option Bytes))) : Option (List Bytes) :=
  (encodeMapElems st sf ((zeroStruct st).map fun v => (v, zeroCall v)) (keys.zip keyCalls)
      (vals.zip valCalls)).bind
    fun elems => elems.mapM fun elem =>
      (encodeMessageLoop st (elem.map Prod.fst) (elem.map Prod.snd)).bind encodeMessageEnd

/-- The call `sf.enc(sf, v)` through a non-nil `sf.enc`, with the calls back into
`encodeMessage` passed in: `message st` is `encodeMessage(st, v)`, `elems st` is the first
loop of `encodeStructSlice` over the elements of `v` (`vals[i] =
encodeMessage(st, v.Index(i))`), and `entries st` is that loop over the elements that
`encodeMap` builds from the entries of a simple map. For a map, `encodeMap` first collects
a slice in iteration order and hands it to `encodeStructSlice`: the values of a normal map
(`sf.ValueTag == -1`), one element per entry of a simple map. -/
def callEncWith (types : List SprotoType) (sf : SprotoField) (v : Value)
    (message : SprotoType → Option Bytes) (elems : SprotoType → Option (List Bytes))
    (entries : SprotoType → Option (List Bytes)) :
    Option (Option Bytes) :=
  match sf.enc with
  | none => none
  | some .encodeInt => encodeInt v
  | some .encodeDouble => encodeDouble v
  | some .encodeString => encodeString v
  | some .encodeBytes => encodeBytes v
  | some .encodeBoolSlice => encodeBoolSlice v
  | some .encodeBytesSlice => encodeBytesSlice v
  | some .encodeStringSlice => encodeStringSlice v
  | some .encodeIntSlice => encodeIntSlice v
  | some .encodeDoubleSlice => encodeDoubleSlice v
  | some .encodeStruct =>
    match types[sf.st]? with
    | none => none
    | some st => (message st).map some
  | some .encodeStructSlice =>
    match types[sf.st]?, v with
    | some st, .structSlice _ =>
      (elems st).bind fun vals => (encodeStructSliceBuf vals).map some
    | _, _ => none
  | some .encodeMap =>
    match types[sf.st]?, v with
    | some st, .map _ _ =>
      if sf.ValueTag = -1 then
        (elems st).bind fun vals => (encodeStructSliceBuf vals).map some
      else
        (entries st).bind fun vals => (encodeStructSliceBuf vals).map some
    | _, _ => none

/-- The call `sf.enc(sf, v)` on a field `v` of a zero struct, nil or a pointer to a scalar,
as a function of the descriptor: `encodeMessage(st, v)` is the empty message for nil and a
panic for a scalar, and `v` has no elements. -/
def zeroCall (types : List SprotoType) (v : Value) (sf : SprotoField) :
    Option (Option Bytes) :=
  callEncWith types sf v
    (fun st =>
      match v with
      | .nil => encodeMessageEnd (encodeMessageInit st)
      | _ => none)
    (fun _ => none) (fun _ => none)

mutual
/-- `encodeMessage(st, v)`, with `types` the list of all descriptor tables. The encoders
that call back into `encodeMessage` (`encodeStruct`, `encodeStructSlice`, `encodeMap`) are
part of the same recursion, through `encodeFieldValues`. -/
def encodeMessage (types : List SprotoType) (st : SprotoType) : Value → Option Bytes
  | .nil => encodeMessageEnd (encodeMessageInit st)
  | .ptrStruct fs =>
    (encodeMessageLoop st fs (encodeFieldValues types fs)).bind encodeMessageEnd
  | _ => none
/-- For every host field `v1` of a record, the call `sf.enc(sf, v1)` as a function of the
descriptor `sf`. The loop of `encodeMessage` makes the call for the descriptors it
visits. -/
def encodeFieldValues (types : List SprotoType) :
    List Value → List (SprotoField → Option (Option Bytes))
  | [] => []
  | v1 :: vs =>
    (fun sf => callEncWith types sf v1 (fun st => encodeMessage types st v1)
      (fun st => encodeElems types st v1) (fun st => encodeEntries types sf st v1)) ::
      encodeFieldValues types vs
/-- The first loop of `encodeStructSlice` over the elements of the slice `v`, or over the
values of the normal map `v` that `encodeMap` collected. -/
def encodeElems (types : List SprotoType) (st : SprotoType) : Value → Option (List Bytes)
  | .structSlice xs => encodeStructSliceVals types st xs
  | .map _ vals => encodeStructSliceVals types st vals
  | _ => none
/-- The first loop of `encodeStructSlice` over the elements that `encodeMap` built from
the entries of the simple map `v`. -/
def encodeEntries (types : List SprotoType) (sf : SprotoField) (st : SprotoType) :
    Value → Option (List Bytes)
  | .map keys vals =>
    encodeSimpleMapVals st sf (zeroCall types) keys vals (encodeFieldValues types keys)
      (encodeFieldValues types vals)
  | _ => none
/-- The first loop of `encodeStructSlice`: `vals[i] = encodeMessage(sf.st, v.Index(i))`. -/
def encodeStructSliceVals (types : List SprotoType) (st : SprotoType) :
    List Value → Option (List Bytes)
  | [] => some []
  | x :: xs =>
    (encodeMessage types st x).bind fun val =>
    (encodeStructSliceVals types st xs).map fun rest => val :: rest
end

/-- `encodeStruct(sf, v)`. -/
def encodeStruct (types : List SprotoType) (sf : SprotoField) (v : Value) :
    Option (Option Bytes) :=
  match types[sf.st]? with
  | none => none
  | some st => (encodeMessage types st v).map some

/-- `encodeStructSlice(sf, v)`. -/
def encodeStructSlice (types : List SprotoType) (sf : SprotoField) (v : Value) :
    Option (Option Bytes) :=
  match types[sf.st]?, v with
  | some st, .structSlice xs =>
    (encodeStructSliceVals types st xs).bind fun vals =>
    (encodeStructSliceBuf vals).map some
  | _, _ => none

/-- `encodeMap(sf, v)`: the loop collects the slice `vals` in iteration order, the values
of a normal map (`sf.ValueTag == -1`, a test that does not change during the loop) or one
element struct per entry of a simple map, and the slice goes to `encodeStructSlice`. -/
def encodeMap (types : List SprotoType) (sf : SprotoField) (v : Value) :
    Option (Option Bytes) :=
  match types[sf.st]?, v with
  | some st, .map keys vals =>
    (if sf.ValueTag = -1 then some vals
     else (encodeMapElems st sf (zeroStruct st) keys vals).map
       (List.map Value.ptrStruct)).bind
      fun vals => encodeStructSlice types sf (.structSlice vals)
  | _, _ => none

/-- The call `sf.enc(sf, v)` through a non-nil `sf.enc`. -/
def callEnc (types : List SprotoType) (sf : SprotoField) (v : Value) :
    Option (Option Bytes) :=
  match sf.enc with
  | none => none
  | some .encodeInt => encodeInt v
  | some .encodeDouble => encodeDouble v
  | some .encodeString => encodeString v
  | some .encodeBytes => encodeBytes v
  | some .encodeBoolSlice => encodeBoolSlice v
  | some .encodeBytesSlice => encodeBytesSlice v
  | some .encodeStringSlice => encodeStringSlice v
  | some .encodeIntSlice => encodeIntSlice v
  | some .encodeDoubleSlice => encodeDoubleSlice v
  | some .encodeStruct => encodeStruct types sf v
  | some .encodeStructSlice => encodeStructSlice types sf v
  | some .encodeMap => encodeMap types sf v

/-! ## Specification vocabulary -/

/-- The `w`-byte little-endian representation of `v` (of `v mod 256^w`). -/
def littleEndian : Nat → Nat → Bytes
  | 0, _ => []
  | w + 1, v => v % 256 :: littleEndian w (v / 256)

/-- The `w`-byte two's-complement representation of the integer `x`, as an unsigned value. -/
def twosComplement (w : Nat) (x : Int) : Nat := (x % 2 ^ (8 * w)).toNat

/-- The decoder's walk over header slots (spec, decoder algorithm), from the running tag
`t`: an odd slot `v` adds `((v - 1) >> 1) + 1` to `t`; any other slot adds 1 to `t` and
denotes the field at the new `t`. The result lists the denoted tags. -/
def decoderTags : Int → List Nat → List Int
  | _, [] => []
  | t, v :: vs =>
    if v % 2 = 1 then decoderTags (t + (((v - 1) >>> 1 : Nat) + 1)) vs
    else (t + 1) :: decoderTags (t + 1) vs

/-- The concatenation, in order, of each element's length as a 32-bit little-endian integer
followed by the element's bytes. -/
def lengthPrefixed (xs : List Bytes) : Bytes :=
  xs.flatMap (fun e => littleEndian 4 (uint32 e.length) ++ e)

/-- The integer `x` fits a signed 32-bit integer. -/
def fitsInt32 (x : Int) : Prop := -0x80000000 ≤ x ∧ x ≤ 0x7fffffff

instance (x : Int) : Decidable (fitsInt32 x) := by unfold fitsInt32; infer_instance

/-- The host kinds that `extractInt` handles in its `default` case. -/
def inDefaultCase : Kind → Bool
  | .Uint32 | .Uint64 | .Uint => true
  | _ => false

/-- The width byte of an integer array: 4 if every element fits a signed 32-bit integer,
8 otherwise. -/
def intSliceWidth (xs : List Int) : Nat := if ∀ x ∈ xs, fitsInt32 x then 4 else 8

/-! ## Well-formed tables and records -/

/-- The tag of the descriptor at index `i` of `st.Fields` (-1 when there is none). -/
def tagAt (st : SprotoType) (i : Nat) : Int :=
  match st.Fields[i]? with
  | some sf => sf.Tag
  | none => -1

/-- The order index is a duplicate-free list of valid indices into `Fields`. -/
def indexOk (st : SprotoType) : Prop :=
  st.order.Nodup ∧ ∀ i ∈ st.order, i < st.Fields.length

instance (st : SprotoType) : Decidable (indexOk st) := by unfold indexOk; infer_instance

/-- The order index lists valid indices into `Fields` in strictly ascending order of their
tags, and every listed tag is in `[0, 0x7FFF]`. -/
def tagsOk (st : SprotoType) : Prop :=
  (∀ i ∈ st.order, i < st.Fields.length) ∧
  (st.order.map (tagAt st)).Pairwise (fun a b => a < b) ∧
  ∀ i ∈ st.order, 0 ≤ tagAt st i ∧ tagAt st i ≤ 0x7FFF

instance (st : SprotoType) : Decidable (tagsOk st) := by unfold tagsOk; infer_instance

/-- A host field `v1` is a valid value for the descriptor `sf`: it is absent, or it has
the shape that the routines of `sf` read (with integers in the range of the host kind the
descriptor records, doubles 64-bit patterns, bytes below 256). `message st`, `elems st`
and `entries st` say whether `v1`, respectively every element of `v1`, respectively the
element that `encodeMap` builds from every entry of the simple map `v1`, is a valid record
of type `st`. -/
def validFieldWith (types : List SprotoType) (sf : SprotoField) (v1 : Value)
    (message : SprotoType → Bool) (elems : SprotoType → Bool)
    (entries : SprotoType → Bool) : Bool :=
  match sf.headerEnc, sf.enc, v1 with
  | _, _, .nil => true
  | .headerEncodeBool, none, .ptrBool _ => true
  | .headerEncodeInt, some .encodeInt, .ptrInt k x => decide (k = sf.hostKind ∧ inRange k x)
  | .headerEncodeDefault, some .encodeDouble, .ptrDouble bits => decide (bits < 2 ^ 64)
  | .headerEncodeDefault, some .encodeString, .ptrString s => s.all (fun b => decide (b < 256))
  | .headerEncodeDefault, some .encodeBytes, .bytes s => s.all (fun b => decide (b < 256))
  | .headerEncodeDefault, some .encodeBoolSlice, .boolSlice _ => true
  | .headerEncodeDefault, some .encodeIntSlice, .intSlice k xs =>
    decide (k = sf.hostKind) && xs.all (fun x => decide (inRange k x))
  | .headerEncodeDefault, some .encodeDoubleSlice, .doubleSlice xs =>
    xs.all (fun x => decide (x < 2 ^ 64))
  | .headerEncodeDefault, some .encodeStringSlice, .stringSlice xs =>
    xs.all (fun s => s.all (fun b => decide (b < 256)))
  | .headerEncodeDefault, some .encodeBytesSlice, .bytesSlice xs =>
    xs.all (fun s => s.all (fun b => decide (b < 256)))
  | .headerEncodeDefault, some .encodeStruct, .ptrStruct _ =>
    match types[sf.st]? with
    | some st => message st
    | none => false
  | .headerEncodeDefault, some .encodeStructSlice, .structSlice _ =>
    match types[sf.st]? with
    | some st => elems st
    | none => false
  | .headerEncodeDefault, some .encodeMap, .map _ _ =>
    match types[sf.st]? with
    | some st => if sf.ValueTag = -1 then elems st else entries st
    | none => false
  | _, _, _ => false

/-- Whether a field `v` of a zero struct, nil or a pointer to a scalar, is a valid value
for the descriptor `sf`. -/
def zeroOk (types : List SprotoType) (v : Value) (sf : SprotoField) : Bool :=
  validFieldWith types sf v (fun _ => false) (fun _ => false) (fun _ => false)

/-- The elements that `encodeMap` builds from the entries of a simple map are valid records
of type `st`: the key and value tags have descriptors, and every descriptor of `st` finds
its host field in the element and accepts it. `zeroOks`, `keyOks` and `valOks` say of
every field of the zero struct, of every key and of every value for which descriptors it
is a valid field. -/
def validSimpleMap (st : SprotoType) (sf : SprotoField)
    (zeroOks keyOks valOks : List (SprotoField → Bool)) : Bool :=
  match encodeMapElems st sf zeroOks keyOks valOks with
  | some elems =>
    elems.all fun oks =>
      st.Fields.all fun sf1 =>
        match oks[sf1.field]? with
        | some ok => ok sf1
        | none => false
  | none => false

mutual
/-- A record (or struct-array element) of the record type `st`: nil, or a struct in which
every described field is bound to a host field that is valid for the descriptor. -/
def validMsg (types : List SprotoType) (st : SprotoType) : Value → Bool
  | .nil => true
  | .ptrStruct fs =>
    st.Fields.all fun sf =>
      match (validFields types fs)[sf.field]? with
      | some ok => ok sf
      | none => false
  | _ => false
/-- For every host field of a record, whether it is a valid value for a descriptor. -/
def validFields (types : List SprotoType) : List Value → List (SprotoField → Bool)
  | [] => []
  | v1 :: vs =>
    (fun sf => validFieldWith types sf v1 (fun st => validMsg types st v1)
      (fun st => validElemsOf types st v1) (fun st => validEntriesOf types sf st v1)) ::
      validFields types vs
/-- Every element of the struct array (or normal map) `v` is a valid record of type `st`. -/
def validElemsOf (types : List SprotoType) (st : SprotoType) : Value → Bool
  | .structSlice xs => validElems types st xs
  | .map _ vals => validElems types st vals
  | _ => false
/-- The element that `encodeMap` builds from every entry of the simple map `v` is a valid
record of type `st`. -/
def validEntriesOf (types : List SprotoType) (sf : SprotoField) (st : SprotoType) :
    Value → Bool
  | .map keys vals =>
    validSimpleMap st sf ((zeroStruct st).map (zeroOk types)) (validFields types keys)
      (validFields types vals)
  | _ => false
/-- Every element of the list is a valid record of type `st`. -/
def validElems (types : List SprotoType) (st : SprotoType) : List Value → Bool
  | [] => true
  | x :: xs => validMsg types st x && validElems types st xs
end

/-- A host field `v1` is a valid value for the descriptor `sf`. -/
def validField (types : List SprotoType) (sf : SprotoField) (v1 : Value) : Bool :=
  validFieldWith types sf v1 (fun st => validMsg types st v1)
    (fun st => validElemsOf types st v1) (fun st => validEntriesOf types sf st v1)

/-- The field at index `i` of `st.Fields` is present in the record with host fields `fs`:
its bound host field is not nil. -/
def present (st : SprotoType) (fs : List Value) (i : Nat) : Bool :=
  match st.Fields[i]? with
  | some sf =>
    match fs[sf.field]? with
    | some v1 => !v1.IsNil
    | none => false
  | none => false

/-! ## The loop of `encodeMessage`, field by field -/

/-- What one emitted field contributes: its tag, its header slot and its data, if any. -/
abbrev Item := Int × Nat × Option Bytes

/-- What the loop body of `encodeMessage` computes for index `i` before it touches the
buffers: a panic (outer `none`), nothing to emit (a negative tag or an absent value), or
the tag, header slot and data of the field. -/
def fieldItem (types : List SprotoType) (st : SprotoType) (fs : List Value) (i : Nat) :
    Option (Option Item) := do
  let sf ← st.Fields[i]?
  let v1 ← fs[sf.field]?
  if sf.Tag < 0 then pure none else
  let (header, isNil) ← callHeaderEnc sf v1
  if isNil then pure none else
  match sf.enc with
  | none => pure (some (sf.Tag, header, none))
  | some _ =>
    let data ← callEnc types sf v1
    pure (some (sf.Tag, header, data))

/-- What the loop body of `encodeMessage` writes for a field with the given tag, header
slot and data (lines 341-354). -/
def emitItem (s : EncState) (it : Item) : Option EncState := do
  let skip := skipTag s.tag it.1
  let (headers, offset) ←
    if skip > 0 then (setHeader s.headers s.offset skip).map (fun h => (h, s.offset + 1))
    else some (s.headers, s.offset)
  let headers ← setHeader headers offset it.2.1
  let offset := offset + 1
  match it.2.2 with
  | none => pure { s with headers := headers, offset := offset, tag := it.1 }
  | some data =>
    let dataLen ← writeUint32 s.dataLen (uint32 data.length)
    pure { headers := headers, offset := offset, tag := it.1,
           buffer := Append (Append s.buffer dataLen) data, dataLen := dataLen }

/-- The emitted fields of a record, in the order of `st.order`; `none` if the loop body
panics on a field. -/
def collectItems (types : List SprotoType) (st : SprotoType) (fs : List Value) :
    List Nat → Option (List Item)
  | [] => some []
  | i :: rest =>
    match fieldItem types st fs i with
    | none => none
    | some none => collectItems types st fs rest
    | some (some it) => (collectItems types st fs rest).map (fun l => it :: l)

/-- The header slots of a sequence of emitted fields, `prev` being the last emitted tag:
a skip slot where `skipTag` is positive, then the field's slot. -/
def headerSlots : Int → List Item → List Nat
  | _, [] => []
  | prev, it :: rest =>
    (if skipTag prev it.1 > 0 then [skipTag prev it.1] else []) ++ [it.2.1] ++
      headerSlots it.1 rest

/-- The data segment of a sequence of emitted fields: for each field with data, the length
as a 32-bit little-endian integer and the data. -/
def dataSegment : List Item → Bytes
  | [] => []
  | it :: rest =>
    (match it.2.2 with
     | none => []
     | some d => littleEndian 4 (uint32 d.length) ++ d) ++ dataSegment rest

/-- The bytes of a message with the given emitted fields: header count, header slots, data
segment. -/
def messageBytes (items : List Item) : Bytes :=
  littleEndian 2 (uint16 (headerSlots (-1) items).length) ++
    (headerSlots (-1) items).flatMap (littleEndian 2) ++ dataSegment items

/-! ## Records that the wire format tells apart -/

/-- A table that describes its records completely: the order index lists the fields in
strictly ascending order of tags in `[0, 0x7FFF]`, it lists every descriptor, and the
descriptor at index `i` is bound to host field `i`. -/
def tableOk (st : SprotoType) : Prop :=
  tagsOk st ∧ (∀ i < st.Fields.length, i ∈ st.order) ∧
  ∀ i < st.Fields.length, st.Fields[i]?.map (fun sf => sf.field) = some i

instance (st : SprotoType) : Decidable (tableOk st) := by unfold tableOk; infer_instance

/-- The data payload of the field, if it has one, is shorter than `2^32` bytes, so that
its 32-bit length holds its length. An absent field and a field without encoder have no
payload. -/
def payloadFits (types : List SprotoType) (sf : SprotoField) (v1 : Value) : Bool :=
  v1.IsNil || sf.enc.isNone ||
  match callEnc types sf v1 with
  | some (some d) => decide (d.length < 2 ^ 32)
  | some none => true
  | none => false

/-- A non-nil struct with at least one host field that is not nil. -/
def hasPresentField : Value → Bool
  | .ptrStruct fs => fs.any (fun f => !f.IsNil)
  | _ => false

/-- The shape conditions of `strictField`: as `validFieldWith`, with three restrictions:
maps are excluded, an integer or integer array has a host kind that `extractInt` handles
outside its `default` case, and nothing is required of the bytes of a string. -/
def strictFieldWith (types : List SprotoType) (sf : SprotoField) (v1 : Value)
    (message : SprotoType → Bool) (elems : SprotoType → Bool) : Bool :=
  match sf.headerEnc, sf.enc, v1 with
  | _, _, .nil => true
  | .headerEncodeBool, none, .ptrBool _ => true
  | .headerEncodeInt, some .encodeInt, .ptrInt k x =>
    decide (k = sf.hostKind ∧ inRange k x) && !inDefaultCase k
  | .headerEncodeDefault, some .encodeDouble, .ptrDouble bits => decide (bits < 2 ^ 64)
  | .headerEncodeDefault, some .encodeString, .ptrString _ => true
  | .headerEncodeDefault, some .encodeBytes, .bytes _ => true
  | .headerEncodeDefault, some .encodeBoolSlice, .boolSlice _ => true
  | .headerEncodeDefault, some .encodeIntSlice, .intSlice k xs =>
    decide (k = sf.hostKind) && !inDefaultCase k && xs.all (fun x => decide (inRange k x))
  | .headerEncodeDefault, some .encodeDoubleSlice, .doubleSlice xs =>
    xs.all (fun x => decide (x < 2 ^ 64))
  | .headerEncodeDefault, some .encodeStringSlice, .stringSlice _ => true
  | .headerEncodeDefault, some .encodeBytesSlice, .bytesSlice _ => true
  | .headerEncodeDefault, some .encodeStruct, .ptrStruct _ =>
    match types[sf.st]? with
    | some st => message st
    | none => false
  | .headerEncodeDefault, some .encodeStructSlice, .structSlice _ =>
    match types[sf.st]? with
    | some st => elems st
    | none => false
  | _, _, _ => false

mutual
/-- A non-nil record of type `st` that the wire format determines: it has exactly the
described host fields and each of them is absent or a `strictField` value. -/
def strictMsg (types : List SprotoType) (st : SprotoType) : Value → Bool
  | .ptrStruct fs =>
    decide (fs.length = st.Fields.length) &&
    st.Fields.all fun sf =>
      match (strictFields types fs)[sf.field]? with
      | some ok => ok sf
      | none => false
  | _ => false
/-- For every host field of a record, whether it is a `strictField` value for a
descriptor: the shape conditions hold and the payload fits its 32-bit length. -/
def strictFields (types : List SprotoType) : List Value → List (SprotoField → Bool)
  | [] => []
  | v1 :: vs =>
    (fun sf => strictFieldWith types sf v1 (fun st => strictMsg types st v1)
      (fun st => strictElemsOf types st v1) && payloadFits types sf v1) ::
      strictFields types vs
/-- The elements of the struct array `v` are as `strictElems` requires. -/
def strictElemsOf (types : List SprotoType) (st : SprotoType) : Value → Bool
  | .structSlice xs => strictElems types st xs
  | _ => false
/-- Every element of a struct array is nil or a `strictMsg` record with at least one field
that is not nil. -/
def strictElems (types : List SprotoType) (st : SprotoType) : List Value → Bool
  | [] => true
  | x :: xs =>
    (x.IsNil || (strictMsg types st x && hasPresentField x)) && strictElems types st xs
end

/-- A host field `v1` that the wire format determines, for the descriptor `sf`. -/
def strictField (types : List SprotoType) (sf : SprotoField) (v1 : Value) : Bool :=
  strictFieldWith types sf v1 (fun st => strictMsg types st v1)
    (fun st => strictElemsOf types st v1) && payloadFits types sf v1

/-! ## Records of the test file (`sproto_test.go` lines 9-42) -/

/-- Modelled from the spec: the descriptor of a field annotated `string,tag` on a `*string`
host field (the table builder is not part of the available sources). The map tags and the
host kind are not read for this field. -/
def stringField (tag : Int) (field : Nat) : SprotoField :=
  ⟨tag, -1, -1, 0, field, .Int, .headerEncodeDefault, some .encodeString⟩

/-- Modelled from the spec: the descriptor of a field annotated `string,tag` on a `[]byte`
host field. -/
def bytesField (tag : Int) (field : Nat) : SprotoField :=
  ⟨tag, -1, -1, 0, field, .Int, .headerEncodeDefault, some .encodeBytes⟩

/-- Modelled from the spec: the descriptor of a field annotated `integer,tag` on a pointer
to a host integer of kind `k`. -/
def integerField (tag : Int) (field : Nat) (k : Kind) : SprotoField :=
  ⟨tag, -1, -1, 0, field, k, .headerEncodeInt, some .encodeInt⟩

/-- Modelled from the spec: the descriptor of a field annotated `boolean,tag` on a `*bool`
host field; a boolean has no data encoder. -/
def booleanField (tag : Int) (field : Nat) : SprotoField :=
  ⟨tag, -1, -1, 0, field, .Int, .headerEncodeBool, none⟩

/-- Modelled from the spec: the descriptor of a field annotated `double,tag`. -/
def doubleField (tag : Int) (field : Nat) : SprotoField :=
  ⟨tag, -1, -1, 0, field, .Int, .headerEncodeDefault, some .encodeDouble⟩

/-- Modelled from the spec: the descriptor of an array field (`kind,tag,array`) with the
array encoder `enc`; `st` is the table of the element type of a struct array. -/
def arrayField (tag : Int) (field : Nat) (k : Kind) (enc : EncFn) (st : Nat) : SprotoField :=
  ⟨tag, -1, -1, st, field, k, .headerEncodeDefault, some enc⟩

/-- The table of `PhoneNumber`. -/
def phoneNumberType : SprotoType :=
  ⟨[stringField 0 0, integerField 1 1 .Int], [0, 1], [.nilable, .nilable]⟩

/-- The table of `Person`; `Phone` is an array of `PhoneNumber` (table 0). -/
def personType : SprotoType :=
  ⟨[stringField 0 0, integerField 1 1 .Int, stringField 2 2,
    arrayField 3 3 .Int .encodeStructSlice 0], [0, 1, 2, 3],
    [.nilable, .nilable, .nilable, .nilable]⟩

/-- The table of `AddressBook`; `Person` is an array of `Person` (table 1). -/
def addressBookType : SprotoType :=
  ⟨[arrayField 0 0 .Int .encodeStructSlice 1], [0], [.nilable]⟩

/-- The table of `Human`; `Children` is an array of `Human` (table 3). -/
def humanType : SprotoType :=
  ⟨[stringField 0 0, integerField 1 1 .Int, booleanField 2 2,
    arrayField 3 3 .Int .encodeStructSlice 3], [0, 1, 2, 3],
    [.nilable, .nilable, .nilable, .nilable]⟩

/-- The table of `Data`; there is no field with tag 6. -/
def dataType : SprotoType :=
  ⟨[arrayField 0 0 .Int64 .encodeIntSlice 0, arrayField 1 1 .Int .encodeBoolSlice 0,
    integerField 2 2 .Int, integerField 3 3 .Int64, doubleField 4 4,
    arrayField 5 5 .Int .encodeDoubleSlice 0, arrayField 7 6 .Int .encodeStringSlice 0,
    bytesField 8 7], [0, 1, 2, 3, 4, 5, 6, 7], List.replicate 8 .nilable⟩

/-- All tables of the test file; a descriptor's `st` is a position in this list. -/
def testTypes : List SprotoType :=
  [phoneNumberType, personType, addressBookType, humanType, dataType]

/-- The bytes of an ASCII string. -/
def ascii (s : String) : Bytes := s.toList.map Char.toNat

/-- The record of the `Bytes` test case: `Data{Bytes: []byte{0x28, 0x29, 0x30, 0x31}}`. -/
def dataBytesRecord : List Value :=
  [.nil, .nil, .nil, .nil, .nil, .nil, .nil, .bytes [0x28, 0x29, 0x30, 0x31]]

/-- The record of the `Number` test case:
`Data{Number: Int(100000), BigNumber: Int64(-10000000000)}`. -/
def dataNumberRecord : List Value :=
  [.nil, .nil, .ptrInt .Int 100000, .ptrInt .Int64 (-10000000000), .nil, .nil, .nil, .nil]

/-- The record of the `StructArray` test case: Bob, 40, with the children Alice (13) and
Carol (5). -/
def humanBobRecord : List Value :=
  [.ptrString (ascii "Bob"), .ptrInt .Int 40, .nil,
   .structSlice [
     .ptrStruct [.ptrString (ascii "Alice"), .ptrInt .Int 13, .nil, .nil],
     .ptrStruct [.ptrString (ascii "Carol"), .ptrInt .Int 5, .nil, .nil]]]

/-- The record of the `SimpleStruct` test case without its fields set: `Human{}`. -/
def humanEmptyRecord : List Value := [.nil, .nil, .nil, .nil]

/-- The table of `Human` with the order index cut down to `Name` and `Age`, the fields
present in the children of the `StructArray` test case. -/
def humanNameAgeType : SprotoType := ⟨humanType.Fields, [0, 1], humanType.goType⟩

/-- A `Human` whose only present field is `Children`, holding one nil pointer. -/
def humanNilChild : Value :=
  .ptrStruct [.nil, .nil, .nil, .structSlice [.nil]]

/-- A `Human` whose only present field is `Children`, holding one pointer to a `Human`
with no field set. -/
def humanEmptyChild : Value :=
  .ptrStruct [.nil, .nil, .nil, .structSlice [.ptrStruct [.nil, .nil, .nil, .nil]]]

/-- A record type with one `*uint32` field annotated `integer,0`. -/
def uint32Type : SprotoType := ⟨[integerField 0 0 .Uint32], [0], [.nilable]⟩

/-- Modelled from the spec: the descriptor of a normal map field
(`struct,tag,array,key=keyTag`): the value tag is -1 and the values, records of table `st`,
are the elements. -/
def mapField (tag : Int) (field : Nat) (keyTag : Int) (st : Nat) : SprotoField :=
  ⟨tag, keyTag, -1, st, field, .Int, .headerEncodeDefault, some .encodeMap⟩

/-- A record type whose only field is an array of host integers of kind `k`, annotated
`integer,0,array`. -/
def numbersType (k : Kind) : SprotoType :=
  ⟨[arrayField 0 0 k .encodeIntSlice 0], [0], [.nilable]⟩

/-- The reference value `ab` (`sproto_test.go` lines 68-95): Alice, id 10000, with two
phone numbers, and Bob, id 20000, with one. -/
def abRecord : List Value :=
  [.structSlice [
    .ptrStruct [.ptrString (ascii "Alice"), .ptrInt .Int 10000, .nil,
      .structSlice [
        .ptrStruct [.ptrString (ascii "123456789"), .ptrInt .Int 1],
        .ptrStruct [.ptrString (ascii "87654321"), .ptrInt .Int 2]]],
    .ptrStruct [.ptrString (ascii "Bob"), .ptrInt .Int 20000, .nil,
      .structSlice [
        .ptrStruct [.ptrString (ascii "01234567890"), .ptrInt .Int 3]]]]]

/-- The expected bytes `abData` (`sproto_test.go` lines 50-58). -/
def abData : Bytes := [
  1, 0, 0, 0, 122, 0, 0, 0, 68, 0, 0, 0, 4, 0, 0, 0, 34, 78, 1, 0,
  0, 0, 5, 0, 0, 0, 65, 108, 105, 99, 101, 45, 0, 0, 0, 19, 0, 0, 0,
  2, 0, 0, 0, 4, 0, 9, 0, 0, 0, 49, 50, 51, 52, 53, 54, 55, 56, 57,
  18, 0, 0, 0, 2, 0, 0, 0, 6, 0, 8, 0, 0, 0, 56, 55, 54, 53, 52, 51,
  50, 49, 46, 0, 0, 0, 4, 0, 0, 0, 66, 156, 1, 0, 0, 0, 3, 0, 0, 0,
  66, 111, 98, 25, 0, 0, 0, 21, 0, 0, 0, 2, 0, 0, 0, 8, 0, 11, 0, 0,
  0, 48, 49, 50, 51, 52, 53, 54, 55, 56, 57, 48]

/-- Modelled from the spec: the descriptor of a simple map field
(`struct,tag,array,key=keyTag,value=valueTag`): `encodeMap` builds, for every entry, a
record of table `st` with the key in the field tagged `keyTag` and the value in the field
tagged `valueTag`. -/
def simpleMapField (tag : Int) (field : Nat) (keyTag valueTag : Int) (st : Nat) :
    SprotoField :=
  ⟨tag, keyTag, valueTag, st, field, .Int, .headerEncodeDefault, some .encodeMap⟩

/-- A record type `PhoneBook` with one field, a `map[string]int` annotated
`struct,0,array,key=0,value=1` whose element struct is `PhoneNumber` (table 0). -/
def phoneBookType : SprotoType := ⟨[simpleMapField 0 0 0 1 0], [0], [.nilable]⟩

/-- A record type `Entry{Key string; Value int; Seq int}` with plain scalar fields,
annotated `string,0`, `integer,1` and `integer,2`. -/
def entryType : SprotoType :=
  ⟨[stringField 0 0, integerField 1 1 .Int, integerField 2 2 .Int], [0, 1, 2],
    [.string, .int .Int, .int .Int]⟩

/-- The tables of the test file followed by `Entry` (table 5). -/
def entryTypes : List SprotoType := testTypes ++ [entryType]

/-- A record type with one field, a `map[string]int` annotated
`struct,0,array,key=0,value=1` whose element struct is `Entry` (table 5). -/
def entryBookType : SprotoType := ⟨[simpleMapField 0 0 0 1 5], [0], [.nilable]⟩

/-- A record type of `n` boolean fields: field `i` is annotated `boolean,i`. -/
def flagsType (n : Nat) : SprotoType :=
  ⟨(List.range n).map (fun i : Nat => booleanField (i : Int) i), List.range n,
    List.replicate n .nilable⟩

/-- The record of `flagsType n` with every field set to true. -/
def flagsRecord (n : Nat) : List Value := List.replicate n (.ptrBool true)

/-! ## Theorems -/

/-! ### Bit operations and conversions -/

theorem land_ff (v : Nat) : v &&& 0xff = v % 256 := by
  simpa using Nat.and_pow_two_sub_one_eq_mod v 8

theorem uint64OfInt_nonneg (x : Int) (h0 : 0 ≤ x) (h1 : x < 2 ^ 64) :
    uint64OfInt x = x.toNat := by
  unfold uint64OfInt
  rw [Int.emod_eq_of_lt h0 h1]

theorem uint64OfInt_neg (x : Int) (h0 : x < 0) (h1 : -2 ^ 63 ≤ x) :
    uint64OfInt x = (x + 2 ^ 64).toNat := by
  unfold uint64OfInt
  congr 1
  norm_num at h1 ⊢
  omega

/-! ### C2: embedded header slots -/

/-- C2. A present boolean has header slot `2 * ((b ? 1 : 0) + 1)`. A present integer of
any host kind with value `x` in `[0, 0x7FFE]` has header slot `2 * (x + 1)`, which is even,
non-zero, at most `0xFFFE`, and `(slot >> 1) - 1` gives `x` back. A present integer that is
negative or above `0x7FFE` has header slot 0. -/
theorem headerEncode_embedded (b : Bool) (k : Kind) (x : Int) (hx : inRange k x) :
    headerEncodeBool (.ptrBool b) = some (2 * ((if b then 1 else 0) + 1), false) ∧
    (0 ≤ x ∧ x ≤ 0x7FFE →
      ∃ slot : Nat, headerEncodeInt (.ptrInt k x) = some (slot, false) ∧
        (slot : Int) = 2 * (x + 1) ∧ slot % 2 = 0 ∧ slot ≠ 0 ∧ slot ≤ 0xFFFE ∧
        ((slot >>> 1 : Nat) : Int) - 1 = x) ∧
    (x < 0 ∨ 0x7FFE < x → headerEncodeInt (.ptrInt k x) = some (0, false)) := by
  refine ⟨?_, ?_, ?_⟩
  · cases b <;> simp [headerEncodeBool, Value.IsNil, uint16]
  · rintro ⟨h0, h1⟩
    have hn : uint64OfInt x = x.toNat := uint64OfInt_nonneg x h0 (by omega)
    have hle : x.toNat ≤ MaxEmbeddedInt := by simp [MaxEmbeddedInt]; omega
    refine ⟨2 * (x.toNat + 1), ?_, ?_, ?_, ?_, ?_, ?_⟩
    · have e1 : uint16 (uint64 (2 * (x.toNat + 1))) = 2 * (x.toNat + 1) := by
        simp only [uint16, uint64]; omega
      cases k <;> simp [headerEncodeInt, Value.IsNil, hn, hle, e1]
    · omega
    · omega
    · omega
    · omega
    · rw [Nat.shiftRight_eq_div_pow]; omega
  · intro h
    have hn : ¬ uint64OfInt x ≤ MaxEmbeddedInt := by
      rcases h with h | h
      · have hlo : -2 ^ 63 ≤ x := by
          cases k <;> simp only [inRange] at hx <;> omega
        rw [uint64OfInt_neg x h hlo]
        simp [MaxEmbeddedInt]; omega
      · have hhi : x < 2 ^ 64 := by
          cases k <;> simp only [inRange] at hx <;> omega
        rw [uint64OfInt_nonneg x (by omega) hhi]
        simp [MaxEmbeddedInt]; omega
    cases k <;> simp [headerEncodeInt, Value.IsNil, hn]

/-- C2 at concrete inputs: `true` gives slot 4, the `int` 13 gives slot 28 (`1C 00` in the
SimpleStruct vector), and the `int64` -1 gives slot 0. -/
theorem headerEncode_embedded_witness :
    headerEncodeBool (.ptrBool true) = some (4, false) ∧
    (∃ slot : Nat, headerEncodeInt (.ptrInt .Int 13) = some (slot, false) ∧
        (slot : Int) = 2 * (13 + 1) ∧ slot % 2 = 0 ∧ slot ≠ 0 ∧ slot ≤ 0xFFFE ∧
        ((slot >>> 1 : Nat) : Int) - 1 = 13) ∧
    headerEncodeInt (.ptrInt .Int64 (-1)) = some (0, false) :=
  ⟨(headerEncode_embedded true .Int 13 (by decide)).1,
   (headerEncode_embedded true .Int 13 (by decide)).2.1 (by decide),
   (headerEncode_embedded true .Int64 (-1) (by decide)).2.2 (by decide)⟩

/-! ### Buffers and little-endian writers -/

theorem littleEndian_length (w v : Nat) : (littleEndian w v).length = w := by
  induction w generalizing v with
  | zero => rfl
  | succ w ih => simp [littleEndian, ih]

theorem littleEndian_mod (w v : Nat) : littleEndian w (v % 256 ^ w) = littleEndian w v := by
  induction w generalizing v with
  | zero => rfl
  | succ w ih =>
    simp only [littleEndian]
    have h1 : v % 256 ^ (w + 1) % 256 = v % 256 := by
      rw [pow_succ']
      exact Nat.mod_mul_right_mod v 256 (256 ^ w)
    have h2 : v % 256 ^ (w + 1) / 256 = (v / 256) % 256 ^ w := by
      rw [pow_succ', Nat.mod_mul_right_div_self]
    rw [h1, h2, ih]

theorem make_length (n : Nat) : (make n).length = n := by simp [make]

theorem make_add (a b : Nat) : make (a + b) = make a ++ make b := by
  simp only [make, List.replicate_add]

theorem atOffset_append (acc rest : Bytes) (off : Nat) (f : Bytes → Option Bytes)
    (h : off = acc.length) :
    atOffset (acc ++ rest) off f = (f rest).map (fun t => acc ++ t) := by
  subst h
  simp [atOffset]

theorem copy_prefix (src tail : Bytes) (n : Nat) (h : n = src.length) :
    copy (make n ++ tail) src = src ++ tail := by
  subst h
  simp [copy, make]

theorem writeUint16_cons (a b : Nat) (rest : Bytes) (v : Nat) :
    writeUint16 (a :: b :: rest) v = some (littleEndian 2 v ++ rest) := by
  simp [writeUint16, setByte, littleEndian, uint8, land_ff, Nat.shiftRight_eq_div_pow]

theorem writeUint32_cons (a b c d : Nat) (rest : Bytes) (v : Nat) :
    writeUint32 (a :: b :: c :: d :: rest) v = some (littleEndian 4 v ++ rest) := by
  simp [writeUint32, setByte, littleEndian, uint8, land_ff, Nat.shiftRight_eq_div_pow,
    Nat.div_div_eq_div_mul]

theorem writeUint64_cons (a b c d e f g h : Nat) (rest : Bytes) (v : Nat) :
    writeUint64 (a :: b :: c :: d :: e :: f :: g :: h :: rest) v =
      some (littleEndian 8 v ++ rest) := by
  simp [writeUint64, setByte, littleEndian, uint8, land_ff, Nat.shiftRight_eq_div_pow,
    Nat.div_div_eq_div_mul]

theorem writeUint16_make (n v : Nat) :
    writeUint16 (make 2 ++ make n) v = some (littleEndian 2 v ++ make n) :=
  writeUint16_cons 0 0 (make n) v

theorem writeUint32_make (tail : Bytes) (v : Nat) :
    writeUint32 (make 4 ++ tail) v = some (littleEndian 4 v ++ tail) :=
  writeUint32_cons 0 0 0 0 tail v

theorem writeUint64_make (tail : Bytes) (v : Nat) :
    writeUint64 (make 8 ++ tail) v = some (littleEndian 8 v ++ tail) :=
  writeUint64_cons 0 0 0 0 0 0 0 0 tail v

/-! ### C8: arrays of strings and of byte sequences -/

/-- The payload of an array of strings or byte sequences, as the specification words it:
every element's length as a 32-bit little-endian integer, then the element. -/
theorem encodeBytesSliceStep_spec (acc bs tail : Bytes) :
    encodeBytesSliceStep (acc ++ (make (4 + bs.length) ++ tail), acc.length) bs =
      some (acc ++ (littleEndian 4 (uint32 bs.length) ++ bs) ++ tail,
        acc.length + (4 + bs.length)) := by
  simp only [encodeBytesSliceStep]
  rw [atOffset_append _ _ _ _ rfl, make_add, List.append_assoc, writeUint32_make]
  simp only [Option.map_some', Option.bind_eq_bind, Option.some_bind]
  rw [← List.append_assoc acc, atOffset_append _ _ _ _ (by simp [littleEndian_length]),
    copy_prefix _ _ _ rfl]
  simp

theorem foldl_add_eq_sum {α : Type} (f : α → Nat) (xs : List α) (a : Nat) :
    xs.foldl (fun sz x => sz + f x) a = a + (xs.map f).sum := by
  induction xs generalizing a with
  | nil => simp
  | cons x xs ih => simp [ih, Nat.add_assoc]

theorem lengthPrefixed_length (xs : List Bytes) :
    (lengthPrefixed xs).length = (xs.map (fun e => 4 + e.length)).sum := by
  induction xs with
  | nil => rfl
  | cons x xs ih =>
    simp only [lengthPrefixed, List.flatMap_cons, List.length_append, littleEndian_length,
      List.map_cons, List.sum_cons] at ih ⊢
    rw [ih]

theorem encodeBytesSlice_foldlM (xs : List Bytes) (acc tail : Bytes) :
    xs.foldlM encodeBytesSliceStep
        (acc ++ (make (xs.map (fun e => 4 + e.length)).sum ++ tail), acc.length) =
      some (acc ++ lengthPrefixed xs ++ tail,
        acc.length + (xs.map (fun e => 4 + e.length)).sum) := by
  induction xs generalizing acc with
  | nil => simp [make, lengthPrefixed]
  | cons x xs ih =>
    simp only [List.map_cons, List.sum_cons, List.foldlM_cons]
    rw [make_add, List.append_assoc, encodeBytesSliceStep_spec]
    simp only [Option.bind_eq_bind, Option.some_bind]
    have h := ih (acc ++ (littleEndian 4 (uint32 x.length) ++ x))
    simp only [List.length_append, littleEndian_length] at h
    rw [h]
    simp [lengthPrefixed, Nat.add_assoc]

theorem encodeBytesSliceLoop_eq (xs : List Bytes) :
    encodeBytesSliceLoop xs = some (lengthPrefixed xs, (lengthPrefixed xs).length) := by
  have h := encodeBytesSlice_foldlM xs [] []
  simp only [List.nil_append, List.append_nil, List.length_nil, Nat.zero_add] at h
  simp only [encodeBytesSliceLoop, foldl_add_eq_sum, Nat.zero_add, h, lengthPrefixed_length]

theorem encodeStringSlice_eq (xs : List Bytes) :
    encodeStringSlice (.stringSlice xs) = some (some (lengthPrefixed xs)) := by
  simp [encodeStringSlice, encodeBytesSliceLoop_eq]

theorem encodeBytesSlice_eq (xs : List Bytes) :
    encodeBytesSlice (.bytesSlice xs) = some (some (lengthPrefixed xs)) := by
  simp [encodeBytesSlice, encodeBytesSliceLoop_eq]

/-- C8. For every array of strings and every array of byte sequences the payload is the
concatenation, in input order, of each element's length as a 32-bit little-endian integer
followed by the element's bytes; its length is the sum over the elements of 4 plus the
element length; and the loop ends with that payload in the buffer and the offset at the
end of the buffer, so the buffer is filled exactly. -/
theorem encodeStringSlice_encodeBytesSlice_payload (xs : List Bytes) :
    encodeStringSlice (.stringSlice xs) =
      some (some (xs.flatMap (fun e => littleEndian 4 (uint32 e.length) ++ e))) ∧
    encodeBytesSlice (.bytesSlice xs) =
      some (some (xs.flatMap (fun e => littleEndian 4 (uint32 e.length) ++ e))) ∧
    (xs.flatMap (fun e => littleEndian 4 (uint32 e.length) ++ e)).length =
      (xs.map (fun e => 4 + e.length)).sum ∧
    encodeBytesSliceLoop xs =
      some (xs.flatMap (fun e => littleEndian 4 (uint32 e.length) ++ e),
        (xs.flatMap (fun e => littleEndian 4 (uint32 e.length) ++ e)).length) := by
  refine ⟨?_, ?_, lengthPrefixed_length xs, encodeBytesSliceLoop_eq xs⟩
  · simp [encodeStringSlice, encodeBytesSliceLoop_eq, lengthPrefixed]
  · simp [encodeBytesSlice, encodeBytesSliceLoop_eq, lengthPrefixed]

/-! ### Integers: `extractInt`, `encodeInt`, `encodeIntSlice` -/

theorem inRange_bounds (k : Kind) (x : Int) (h : inRange k x) : -2 ^ 63 ≤ x ∧ x < 2 ^ 64 := by
  cases k <;> simp only [inRange] at h <;> omega

theorem uint64OfInt_eq_twosComplement (x : Int) : uint64OfInt x = twosComplement 8 x := rfl

theorem extractInt_size (k : Kind) (x : Int) (h : inRange k x) :
    (extractInt k x).2 = if fitsInt32 x then 4 else 8 := by
  cases k <;> simp only [inRange] at h <;>
    simp only [extractInt, fitsInt32, MaxInt32, ge_iff_le]
  case Int8 => rw [if_pos (by omega)]
  case Int16 => rw [if_pos (by omega)]
  case Int32 => rw [if_pos (by omega)]
  case Uint8 => rw [if_pos (by omega)]
  case Uint16 => rw [if_pos (by omega)]
  all_goals
    rw [uint64OfInt_nonneg x h.1 (by omega)]
    by_cases hx : x ≤ 0x7fffffff
    · rw [if_pos (by omega), if_pos (by omega)]
    · rw [if_neg (by omega), if_neg (by omega)]

theorem extractInt_value (k : Kind) (x : Int) (hk : inDefaultCase k = false) :
    (extractInt k x).1 = uint64OfInt x := by
  cases k <;> simp_all [extractInt, inDefaultCase]

theorem extractInt_value_default (k : Kind) (x : Int) (hk : inDefaultCase k = true) :
    (extractInt k x).1 = 0 := by
  cases k <;> simp_all [extractInt, inDefaultCase]

theorem littleEndian4_twosComplement (x : Int) :
    littleEndian 4 (uint32 (uint64OfInt x)) = littleEndian 4 (twosComplement 4 x) := by
  have h : uint32 (uint64OfInt x) = twosComplement 4 x := by
    simp only [uint32, uint64OfInt, twosComplement]
    norm_num
    omega
  rw [h]

theorem littleEndian4_uint64OfInt (x : Int) :
    littleEndian 4 (uint64OfInt x) = littleEndian 4 (twosComplement 4 x) := by
  rw [← littleEndian4_twosComplement, uint32, ← littleEndian_mod]
  norm_num

theorem embedded_iff (k : Kind) (x : Int) (h : inRange k x) :
    uint64OfInt x ≤ MaxEmbeddedInt ↔ (0 ≤ x ∧ x ≤ 0x7FFE) := by
  have hb := inRange_bounds k x h
  by_cases h0 : 0 ≤ x
  · rw [uint64OfInt_nonneg x h0 hb.2]
    simp only [MaxEmbeddedInt]
    omega
  · rw [uint64OfInt_neg x (by omega) hb.1]
    simp only [MaxEmbeddedInt]
    omega

/-- The data payload of a present integer whose `extractInt` case assigns `n`: none for an
embedded value, otherwise the 4- or 8-byte little-endian two's complement. -/
theorem encodeInt_spec (k : Kind) (x : Int) (hk : inDefaultCase k = false)
    (h : inRange k x) :
    encodeInt (.ptrInt k x) = some (
      if 0 ≤ x ∧ x ≤ 0x7FFE then none
      else if fitsInt32 x then some (littleEndian 4 (twosComplement 4 x))
      else some (littleEndian 8 (twosComplement 8 x))) := by
  have h1 := extractInt_value k x hk
  have h2 := extractInt_size k x h
  have h3 := embedded_iff k x h
  simp only [encodeInt, h1, h2]
  by_cases hemb : 0 ≤ x ∧ x ≤ 0x7FFE
  · rw [if_pos (h3.2 hemb), if_pos hemb]
  · rw [if_neg (fun hh => hemb (h3.1 hh)), if_neg hemb]
    by_cases hf : fitsInt32 x
    · simp only [hf, if_true]
      rw [show make 4 = make 4 ++ [] from (List.append_nil _).symm, writeUint32_make,
        littleEndian4_twosComplement]
      simp
    · simp only [hf, if_false]
      rw [if_neg (by decide), show make 8 = make 8 ++ [] from (List.append_nil _).symm,
        writeUint64_make]
      simp [uint64OfInt_eq_twosComplement]

/-- In its `default` case (`uint32`, `uint64`, `uint`) `encodeInt` returns nil for every
value: `extractInt` leaves its result `n` at zero. -/
theorem encodeInt_default_nil (k : Kind) (x : Int) (hk : inDefaultCase k = true) :
    encodeInt (.ptrInt k x) = some none := by
  have h1 := extractInt_value_default k x hk
  simp [encodeInt, h1, MaxEmbeddedInt]

/-! ### C3: data payload of an integer scalar -/

/-- C3, at the failing input. The `uint32` value 100000 is outside `[0, 0x7FFE]` and fits
a signed 32-bit integer, so its payload should be the four bytes `A0 86 01 00`; `encodeInt`
returns nil (no payload), while `headerEncodeInt` returns the slot 0 that announces a data
entry. For the `int` of the same value the payload is `A0 86 01 00` (the Number vector). -/
theorem encodeInt_uint32_returns_nil :
    inRange .Uint32 100000 ∧ ¬ (0 ≤ (100000 : Int) ∧ (100000 : Int) ≤ 0x7FFE) ∧
    fitsInt32 100000 ∧
    littleEndian 4 (twosComplement 4 100000) = [0xA0, 0x86, 0x01, 0x00] ∧
    extractInt .Uint32 100000 = (0, 4) ∧
    encodeInt (.ptrInt .Uint32 100000) = some none ∧
    headerEncodeInt (.ptrInt .Uint32 100000) = some (0, false) ∧
    encodeInt (.ptrInt .Int 100000) = some (some [0xA0, 0x86, 0x01, 0x00]) := by
  refine ⟨by decide, by decide, by decide, by decide, by decide, by decide, by decide, by decide⟩

/-! ### Loops that fill a fresh buffer from left to right -/

/-- A loop whose step writes `out x` (of `sz x` bytes) at the offset and advances the
offset by `sz x` turns a zeroed region of the right size into the concatenation of the
`out x`. -/
theorem foldlM_fill {α : Type} (step : Bytes × Nat → α → Option (Bytes × Nat))
    (sz : α → Nat) (out : α → Bytes) (hout : ∀ x, (out x).length = sz x)
    (hstep : ∀ acc tail x, step (acc ++ (make (sz x) ++ tail), acc.length) x =
      some (acc ++ out x ++ tail, acc.length + sz x))
    (xs : List α) (acc tail : Bytes) :
    xs.foldlM step (acc ++ (make (xs.map sz).sum ++ tail), acc.length) =
      some (acc ++ xs.flatMap out ++ tail, acc.length + (xs.map sz).sum) := by
  induction xs generalizing acc with
  | nil => simp [make]
  | cons x xs ih =>
    simp only [List.map_cons, List.sum_cons, List.foldlM_cons]
    rw [make_add, List.append_assoc, hstep]
    simp only [Option.bind_eq_bind, Option.some_bind]
    have h := ih (acc ++ out x)
    simp only [List.length_append, hout] at h
    rw [h]
    simp [Nat.add_assoc]

theorem setByte_append (acc tail : Bytes) (a b : Nat) :
    setByte (acc ++ a :: tail) acc.length b = some (acc ++ b :: tail) := by
  simp [setByte]

theorem sum_map_const {α : Type} (xs : List α) (c : Nat) :
    (xs.map (fun _ => c)).sum = c * xs.length := by
  induction xs with
  | nil => simp
  | cons x xs ih => simp [ih, Nat.mul_succ, Nat.add_comm, Nat.mul_comm]

/-! ### `encodeIntSlice` -/

theorem encodeIntSliceStep_four (acc tail : Bytes) (val : Nat) :
    encodeIntSliceStep 4 (acc ++ (make 4 ++ tail), acc.length) val =
      some (acc ++ littleEndian 4 val ++ tail, acc.length + 4) := by
  simp only [encodeIntSliceStep, if_true]
  rw [atOffset_append _ _ _ _ rfl, writeUint32_make, uint32, ← littleEndian_mod 4 val]
  simp

theorem encodeIntSliceStep_eight (acc tail : Bytes) (val : Nat) :
    encodeIntSliceStep 8 (acc ++ (make 8 ++ tail), acc.length) val =
      some (acc ++ littleEndian 8 val ++ tail, acc.length + 8) := by
  simp only [encodeIntSliceStep]
  rw [if_neg (by decide), atOffset_append _ _ _ _ rfl, writeUint64_make]
  simp

theorem encodeIntSlice_scan_vals (k : Kind) (xs : List Int) (s : Nat × List Nat) :
    (xs.foldl (encodeIntSliceScanStep k) s).2 = s.2 ++ xs.map (fun x => (extractInt k x).1) := by
  induction xs generalizing s with
  | nil => simp
  | cons x xs ih => simp [ih, encodeIntSliceScanStep]

theorem encodeIntSlice_scan_width (k : Kind) (xs : List Int) (h : ∀ x ∈ xs, inRange k x)
    (s : Nat × List Nat) (hs : s.1 = 4 ∨ s.1 = 8) :
    (xs.foldl (encodeIntSliceScanStep k) s).1 =
      if s.1 = 4 ∧ ∀ x ∈ xs, fitsInt32 x then 4 else 8 := by
  induction xs generalizing s with
  | nil => rcases hs with hs | hs <;> simp [hs]
  | cons x xs ih =>
    have hx := extractInt_size k x (h x (List.mem_cons_self _ _))
    have hrest : ∀ y ∈ xs, inRange k y := fun y hy => h y (List.mem_cons_of_mem _ hy)
    simp only [List.foldl_cons]
    by_cases hf : fitsInt32 x
    · rw [if_pos hf] at hx
      have e : encodeIntSliceScanStep k s x = (s.1, s.2 ++ [(extractInt k x).1]) := by
        simp only [encodeIntSliceScanStep, hx]
        rcases hs with hs | hs <;> simp [hs]
      rw [e, ih hrest (s.1, s.2 ++ [(extractInt k x).1]) hs]
      simp [hf]
    · rw [if_neg hf] at hx
      have e : encodeIntSliceScanStep k s x = (8, s.2 ++ [(extractInt k x).1]) := by
        simp only [encodeIntSliceScanStep, hx]
        rcases hs with hs | hs <;> simp [hs]
      rw [e, ih hrest (8, s.2 ++ [(extractInt k x).1]) (Or.inr rfl)]
      simp [hf]

theorem make_one_add (n : Nat) : make (1 + n) = 0 :: make n := by
  simp [make, Nat.add_comm 1 n, List.replicate_succ]

theorem encodeIntSlice_body (w : Nat) (hw : w = 4 ∨ w = 8) (vals : List Nat) :
    ((setByte (make (1 + w * vals.length)) 0 (uint8 w)).bind fun buf =>
      (vals.foldlM (encodeIntSliceStep w) (buf, 1)).map (fun s => some s.1)) =
    some (some (w :: vals.flatMap (littleEndian w))) := by
  have hfill : vals.foldlM (encodeIntSliceStep w) (w :: make (w * vals.length), 1) =
      some (w :: vals.flatMap (littleEndian w), 1 + w * vals.length) := by
    have hstep : ∀ acc tail x, encodeIntSliceStep w (acc ++ (make w ++ tail), acc.length) x =
        some (acc ++ littleEndian w x ++ tail, acc.length + w) := by
      rcases hw with hw | hw <;> subst hw
      · exact encodeIntSliceStep_four
      · exact encodeIntSliceStep_eight
    have := foldlM_fill (encodeIntSliceStep w) (fun _ => w) (littleEndian w)
      (fun x => littleEndian_length w x) hstep vals [w] []
    rw [sum_map_const] at this
    simpa using this
  have hu : uint8 w = w := by rcases hw with hw | hw <;> subst hw <;> rfl
  rw [make_one_add, hu]
  simp only [setByte, List.length_cons, Nat.zero_lt_succ, if_true, List.set_cons_zero,
    Option.bind_eq_bind, Option.some_bind, hfill, Option.map_some']

/-- The bytes `encodeIntSlice` returns, for every host kind: the width byte, then for every
element the little-endian bytes of the `n` that `extractInt` returned for it. -/
theorem encodeIntSlice_eq (k : Kind) (xs : List Int) (h : ∀ x ∈ xs, inRange k x) :
    encodeIntSlice (.intSlice k xs) = some (some (intSliceWidth xs ::
      xs.flatMap (fun x => littleEndian (intSliceWidth xs) (extractInt k x).1))) := by
  have hv := encodeIntSlice_scan_vals k xs (4, [])
  have hw := encodeIntSlice_scan_width k xs h (4, []) (Or.inl rfl)
  simp only [List.nil_append, true_and] at hv hw
  have hw4 : intSliceWidth xs = 4 ∨ intSliceWidth xs = 8 := by
    unfold intSliceWidth; split <;> simp
  have hb := encodeIntSlice_body (intSliceWidth xs) hw4 (xs.map (fun x => (extractInt k x).1))
  rw [List.length_map] at hb
  simp only [encodeIntSlice, hv, hw]
  rw [show (if ∀ x ∈ xs, fitsInt32 x then 4 else 8) = intSliceWidth xs from rfl, hb]
  simp [List.flatMap_map]

/-- The payload of an integer array whose host kind `extractInt` handles outside its
`default` case: the width byte, then every element in little-endian two's complement. -/
theorem encodeIntSlice_spec (k : Kind) (xs : List Int) (hk : inDefaultCase k = false)
    (h : ∀ x ∈ xs, inRange k x) :
    encodeIntSlice (.intSlice k xs) = some (some (intSliceWidth xs ::
      xs.flatMap (fun x => littleEndian (intSliceWidth xs)
        (twosComplement (intSliceWidth xs) x)))) := by
  rw [encodeIntSlice_eq k xs h]
  have hw4 : intSliceWidth xs = 4 ∨ intSliceWidth xs = 8 := by
    unfold intSliceWidth; split <;> simp
  congr 3
  apply List.flatMap_congr
  intro x _
  rw [extractInt_value k x hk]
  rcases hw4 with hw | hw <;> rw [hw]
  · exact littleEndian4_uint64OfInt x
  · rfl

/-! ### C5: integer arrays -/

/-- C5, at the failing input. For the `uint32` array `[1]` the payload should be the width
byte 4 followed by `01 00 00 00`; `encodeIntSlice` returns `04 00 00 00 00`, because
`extractInt` returns `n = 0` for every `uint32`, `uint64` and `uint` element. For the
`int64` array `[1]` the payload is `04 01 00 00 00`. -/
theorem encodeIntSlice_uint32_zeroes :
    (∀ x ∈ [(1 : Int)], inRange .Uint32 x) ∧
    intSliceWidth [1] :: [(1 : Int)].flatMap (fun x => littleEndian (intSliceWidth [1])
        (twosComplement (intSliceWidth [1]) x)) = [4, 1, 0, 0, 0] ∧
    encodeIntSlice (.intSlice .Uint32 [1]) = some (some [4, 0, 0, 0, 0]) ∧
    encodeIntSlice (.intSlice .Int64 [1]) = some (some [4, 1, 0, 0, 0]) := by
  refine ⟨by decide, by decide, by decide, by decide⟩

/-! ### Booleans and doubles -/

theorem encodeBoolSliceStep_spec (acc tail : Bytes) (x : Bool) :
    encodeBoolSliceStep 0 (acc ++ (make 1 ++ tail), acc.length) x =
      some (acc ++ [if x then 1 else 0] ++ tail, acc.length + 1) := by
  have hm : make 1 ++ tail = 0 :: tail := rfl
  cases x <;> simp [encodeBoolSliceStep, hm, setByte_append]

theorem encodeBoolSlice_eq (xs : List Bool) :
    encodeBoolSlice (.boolSlice xs) = some (some (xs.map (fun x => if x then 1 else 0))) := by
  have := foldlM_fill (encodeBoolSliceStep 0) (fun _ => 1) (fun x => [if x then 1 else 0])
    (fun _ => rfl) encodeBoolSliceStep_spec xs [] []
  rw [sum_map_const] at this
  simp only [List.nil_append, List.append_nil, List.length_nil, Nat.one_mul] at this
  simp only [encodeBoolSlice, this, Option.map_some']
  congr 2
  clear this
  induction xs with
  | nil => rfl
  | cons x xs ih => simp [List.flatMap_cons, ih]

theorem encodeDouble_eq (bits : Nat) :
    encodeDouble (.ptrDouble bits) = some (some (littleEndian 8 bits)) := by
  simp only [encodeDouble, DOUBLE_SZ]
  rw [show make 8 = make 8 ++ [] from (List.append_nil _).symm, writeUint64_make]
  simp

theorem encodeDoubleSliceStep_spec (acc tail : Bytes) (dv : Nat) :
    encodeDoubleSliceStep (acc ++ (make 8 ++ tail), acc.length) dv =
      some (acc ++ littleEndian 8 dv ++ tail, acc.length + 8) := by
  simp only [encodeDoubleSliceStep, DOUBLE_SZ]
  rw [atOffset_append _ _ _ _ rfl, writeUint64_make]
  simp

theorem encodeDoubleSlice_eq (xs : List Nat) :
    encodeDoubleSlice (.doubleSlice xs) = some (some (8 :: xs.flatMap (littleEndian 8))) := by
  have := foldlM_fill encodeDoubleSliceStep (fun _ => 8) (littleEndian 8)
    (fun x => littleEndian_length 8 x) encodeDoubleSliceStep_spec xs [8] []
  rw [sum_map_const] at this
  simp only [List.singleton_append, List.append_nil, List.length_singleton] at this
  simp only [encodeDoubleSlice, DOUBLE_SZ]
  rw [make_one_add, show uint8 8 = 8 from rfl]
  simp only [setByte, List.length_cons, Nat.zero_lt_succ, if_true, List.set_cons_zero,
    Option.bind_eq_bind, Option.some_bind, this, Option.map_some']

theorem copy_make (src : Bytes) : copy (make src.length) src = src := by
  have := copy_prefix src [] src.length rfl
  simpa using this

theorem encodeString_eq (s : Bytes) : encodeString (.ptrString s) = some (some s) := by
  simp [encodeString, copy_make]

theorem encodeBytes_eq (s : Bytes) : encodeBytes (.bytes s) = some (some s) := by
  simp [encodeBytes, copy_make]

/-! ### `encodeStructSlice` after its first loop -/

theorem encodeStructSliceStep_eq (s : Bytes × Nat) (val : Bytes) :
    encodeStructSliceStep s val = encodeBytesSliceStep s val := by
  simp only [encodeStructSliceStep, encodeBytesSliceStep, Nat.add_comm val.length 4]

theorem encodeStructSliceBuf_eq (vals : List Bytes) :
    encodeStructSliceBuf vals = some (lengthPrefixed vals) := by
  have h := encodeBytesSliceLoop_eq vals
  simp only [encodeBytesSliceLoop] at h
  have e : encodeStructSliceStep = encodeBytesSliceStep := by
    funext s val; exact encodeStructSliceStep_eq s val
  simp only [encodeStructSliceBuf, e, Nat.add_comm _ 4, h, Option.map_some']

/-! ### `encodeHeaders` -/

theorem flatMap_length_const {α : Type} (f : α → Bytes) (c : Nat) (hf : ∀ x, (f x).length = c)
    (xs : List α) : (xs.flatMap f).length = c * xs.length := by
  induction xs with
  | nil => rfl
  | cons x xs ih =>
    simp only [List.flatMap_cons, List.length_append, hf, ih, List.length_cons, Nat.mul_succ]
    omega

theorem encodeHeadersStep_spec (acc tail : Bytes) (v : Nat) :
    encodeHeadersStep (acc ++ (make 2 ++ tail), acc.length) v =
      some (acc ++ littleEndian 2 v ++ tail, acc.length + 2) := by
  simp only [encodeHeadersStep]
  rw [atOffset_append _ _ _ _ rfl]
  have : make 2 ++ tail = 0 :: 0 :: tail := rfl
  rw [this, writeUint16_cons]
  simp

/-- The bytes `encodeHeaders` returns: the count as a 16-bit little-endian integer, then
every slot as a 16-bit little-endian integer; the reserved bytes are cut off. -/
theorem encodeHeaders_eq (headers : List Nat) (reserved : Nat) :
    encodeHeaders headers reserved =
      some (littleEndian 2 (uint16 headers.length) ++ headers.flatMap (littleEndian 2)) := by
  have hfill := foldlM_fill encodeHeadersStep (fun _ => 2) (littleEndian 2)
    (fun x => littleEndian_length 2 x) encodeHeadersStep_spec headers
    (littleEndian 2 (uint16 headers.length)) (make reserved)
  rw [sum_map_const, littleEndian_length] at hfill
  have hbuf : make ((headers.length + 1) * 2 + reserved) =
      0 :: 0 :: (make (2 * headers.length) ++ make reserved) := by
    rw [show (headers.length + 1) * 2 + reserved = 1 + (1 + (2 * headers.length + reserved)) by
      omega, make_one_add, make_one_add, make_add]
  have hlen := flatMap_length_const (littleEndian 2) 2 (fun x => littleEndian_length 2 x) headers
  simp only [encodeHeaders, hbuf, writeUint16_cons, Option.bind_eq_bind, Option.some_bind,
    Nat.zero_add, hfill]
  rw [if_pos (by simp [littleEndian_length, hlen, make_length])]
  simp only [Option.pure_def, Option.some.injEq]
  exact List.take_left' (by simp [littleEndian_length, hlen])

/-! ### Induction over host values -/

mutual
theorem Value.ind (P : Value → Prop) (hnil : P .nil) (hbool : ∀ b, P (.ptrBool b))
    (hint : ∀ k x, P (.ptrInt k x)) (hdouble : ∀ b, P (.ptrDouble b))
    (hstring : ∀ s, P (.ptrString s)) (hbytes : ∀ s, P (.bytes s))
    (hbools : ∀ xs, P (.boolSlice xs)) (hints : ∀ k xs, P (.intSlice k xs))
    (hdoubles : ∀ xs, P (.doubleSlice xs)) (hstrings : ∀ xs, P (.stringSlice xs))
    (hbytess : ∀ xs, P (.bytesSlice xs))
    (hstruct : ∀ fs, (∀ f ∈ fs, P f) → P (.ptrStruct fs))
    (hslice : ∀ xs, (∀ x ∈ xs, P x) → P (.structSlice xs))
    (hmap : ∀ ks xs, (∀ k ∈ ks, P k) → (∀ x ∈ xs, P x) → P (.map ks xs)) : ∀ v, P v
  | .nil => hnil
  | .ptrBool b => hbool b
  | .ptrInt k x => hint k x
  | .ptrDouble b => hdouble b
  | .ptrString s => hstring s
  | .bytes s => hbytes s
  | .boolSlice xs => hbools xs
  | .intSlice k xs => hints k xs
  | .doubleSlice xs => hdoubles xs
  | .stringSlice xs => hstrings xs
  | .bytesSlice xs => hbytess xs
  | .ptrStruct fs => hstruct fs (Value.ind_list P hnil hbool hint hdouble hstring hbytes hbools
      hints hdoubles hstrings hbytess hstruct hslice hmap fs)
  | .structSlice xs => hslice xs (Value.ind_list P hnil hbool hint hdouble hstring hbytes
      hbools hints hdoubles hstrings hbytess hstruct hslice hmap xs)
  | .map ks xs => hmap ks xs
      (Value.ind_list P hnil hbool hint hdouble hstring hbytes hbools
        hints hdoubles hstrings hbytess hstruct hslice hmap ks)
      (Value.ind_list P hnil hbool hint hdouble hstring hbytes hbools
        hints hdoubles hstrings hbytess hstruct hslice hmap xs)
theorem Value.ind_list (P : Value → Prop) (hnil : P .nil) (hbool : ∀ b, P (.ptrBool b))
    (hint : ∀ k x, P (.ptrInt k x)) (hdouble : ∀ b, P (.ptrDouble b))
    (hstring : ∀ s, P (.ptrString s)) (hbytes : ∀ s, P (.bytes s))
    (hbools : ∀ xs, P (.boolSlice xs)) (hints : ∀ k xs, P (.intSlice k xs))
    (hdoubles : ∀ xs, P (.doubleSlice xs)) (hstrings : ∀ xs, P (.stringSlice xs))
    (hbytess : ∀ xs, P (.bytesSlice xs))
    (hstruct : ∀ fs, (∀ f ∈ fs, P f) → P (.ptrStruct fs))
    (hslice : ∀ xs, (∀ x ∈ xs, P x) → P (.structSlice xs))
    (hmap : ∀ ks xs, (∀ k ∈ ks, P k) → (∀ x ∈ xs, P x) → P (.map ks xs)) :
    ∀ fs : List Value, ∀ f ∈ fs, P f
  | [] => fun f hf => by simp at hf
  | x :: xs => fun f hf => by
    rcases List.mem_cons.1 hf with h | h
    · subst h
      exact Value.ind P hnil hbool hint hdouble hstring hbytes hbools hints hdoubles hstrings
        hbytess hstruct hslice hmap _
    · exact Value.ind_list P hnil hbool hint hdouble hstring hbytes hbools hints hdoubles
        hstrings hbytess hstruct hslice hmap xs f h
end

/-! ### The elements of a simple map -/

theorem setValue_map {α β : Type} (f : α → β) (elem : List α) (index : Nat) (x : α) :
    setValue (elem.map f) index (f x) = (setValue elem index x).map (List.map f) := by
  unfold setValue
  by_cases h : index < elem.length
  · simp [h, List.map_set]
  · simp [h]

theorem setValue_mem {α : Type} (elem elem1 : List α) (index : Nat) (x y : α)
    (h : setValue elem index x = some elem1) (hy : y ∈ elem1) : y ∈ elem ∨ y = x := by
  unfold setValue at h
  split at h
  · simp only [Option.some.injEq] at h
    subst h
    exact List.mem_or_eq_of_mem_set hy
  · simp at h

theorem setValue_length {α : Type} (elem elem1 : List α) (index : Nat) (x : α)
    (h : setValue elem index x = some elem1) : elem1.length = elem.length := by
  unfold setValue at h
  split at h
  · simp only [Option.some.injEq] at h
    subst h
    simp
  · simp at h

theorem encodeMapElem_map {α β : Type} (f : α → β) (st : SprotoType) (sf : SprotoField)
    (zero : List α) (key val : α) :
    encodeMapElem st sf (zero.map f) (f key) (f val) =
      (encodeMapElem st sf zero key val).map (List.map f) := by
  unfold encodeMapElem
  cases FieldByTag st sf.KeyTag with
  | none => rfl
  | some kf =>
    cases FieldByTag st sf.ValueTag with
    | none => rfl
    | some vf =>
      simp only [Option.bind_eq_bind, Option.some_bind, Option.pure_def]
      rw [setValue_map]
      cases h1 : setValue zero kf.field key with
      | none => rfl
      | some e1 =>
        simp only [Option.map_some', Option.some_bind, setValue_map]
        cases h2 : setValue e1 vf.field val <;> rfl

theorem encodeMapElems_map {α β : Type} (f : α → β) (st : SprotoType) (sf : SprotoField)
    (zero keys vals : List α) :
    encodeMapElems st sf (zero.map f) (keys.map f) (vals.map f) =
      (encodeMapElems st sf zero keys vals).map (List.map (List.map f)) := by
  induction keys generalizing vals with
  | nil => simp [encodeMapElems]
  | cons k ks ih =>
    cases vals with
    | nil => simp [encodeMapElems]
    | cons v vs =>
      simp only [List.map_cons, encodeMapElems, encodeMapElem_map, ih]
      cases encodeMapElem st sf zero k v with
      | none => rfl
      | some e =>
        cases encodeMapElems st sf zero ks vs <;> rfl

theorem encodeMapElem_mem {α : Type} (st : SprotoType) (sf : SprotoField) (zero : List α)
    (key val : α) (elem : List α) (h : encodeMapElem st sf zero key val = some elem) :
    ∀ x ∈ elem, x ∈ zero ∨ x = key ∨ x = val := by
  unfold encodeMapElem at h
  cases hk : FieldByTag st sf.KeyTag with
  | none => simp [hk] at h
  | some kf =>
    cases hv : FieldByTag st sf.ValueTag with
    | none => simp [hk, hv] at h
    | some vf =>
      simp only [hk, hv, Option.bind_eq_bind, Option.some_bind, Option.pure_def] at h
      cases h1 : setValue zero kf.field key with
      | none => simp [h1] at h
      | some e1 =>
        simp only [h1, Option.some_bind] at h
        cases h2 : setValue e1 vf.field val with
        | none => simp [h2] at h
        | some e2 =>
          simp only [h2, Option.some_bind, Option.some.injEq] at h
          subst h
          intro x hx
          rcases setValue_mem e1 e2 vf.field val x h2 hx with hx1 | hx1
          · rcases setValue_mem _ e1 kf.field key x h1 hx1 with hx0 | hx0
            · exact Or.inl hx0
            · exact Or.inr (Or.inl hx0)
          · exact Or.inr (Or.inr hx1)

theorem encodeMapElems_mem {α : Type} (st : SprotoType) (sf : SprotoField)
    (zero keys vals : List α) (elems : List (List α))
    (h : encodeMapElems st sf zero keys vals = some elems) :
    ∀ elem ∈ elems, ∀ x ∈ elem, x ∈ zero ∨ x ∈ keys ∨ x ∈ vals := by
  induction keys generalizing vals elems with
  | nil =>
    simp only [encodeMapElems, Option.some.injEq] at h
    subst h
    simp
  | cons k ks ih =>
    cases vals with
    | nil =>
      simp only [encodeMapElems, Option.some.injEq] at h
      subst h
      simp
    | cons v vs =>
      simp only [encodeMapElems] at h
      cases he : encodeMapElem st sf zero k v with
      | none => simp [he] at h
      | some e =>
        cases hr : encodeMapElems st sf zero ks vs with
        | none => simp [he, hr] at h
        | some rest =>
          simp only [he, hr, Option.bind_eq_bind, Option.some_bind, Option.map_some',
            Option.some.injEq] at h
          subst h
          intro elem helem x hx
          rcases List.mem_cons.1 helem with rfl | helem
          · rcases encodeMapElem_mem st sf zero k v _ he x hx with h0 | h0 | h0
            · exact Or.inl h0
            · exact Or.inr (Or.inl (by simp [h0]))
            · exact Or.inr (Or.inr (by simp [h0]))
          · rcases ih vs rest hr elem helem x hx with h0 | h0 | h0
            · exact Or.inl h0
            · exact Or.inr (Or.inl (List.mem_cons_of_mem _ h0))
            · exact Or.inr (Or.inr (List.mem_cons_of_mem _ h0))

theorem mem_zeroStruct (st : SprotoType) (v : Value) (h : v ∈ zeroStruct st) :
    ∃ ft : FieldType, v = ft.zero := by
  simp only [zeroStruct, List.mem_map] at h
  obtain ⟨ft, _, rfl⟩ := h
  exact ⟨ft, rfl⟩

theorem zip_map_self {α β : Type} (f : α → β) (xs : List α) :
    xs.zip (xs.map f) = xs.map (fun x => (x, f x)) := by
  induction xs with
  | nil => rfl
  | cons x xs ih => simp [ih]

/-! ### The recursion of `encodeMessage`, unfolded -/

theorem callEncWith_eq_of (types : List SprotoType) (sf : SprotoField) (v1 : Value)
    (h : ∀ st keys vals, v1 = .map keys vals →
      encodeEntries types sf st v1 =
        (encodeMapElems st sf (zeroStruct st) keys vals).bind fun elems =>
          encodeStructSliceVals types st (elems.map Value.ptrStruct)) :
    callEncWith types sf v1 (fun st => encodeMessage types st v1)
      (fun st => encodeElems types st v1) (fun st => encodeEntries types sf st v1) =
      callEnc types sf v1 := by
  unfold callEncWith callEnc encodeStruct encodeStructSlice encodeMap
  cases sf.enc with
  | none => rfl
  | some e =>
    cases e <;> try rfl
    · cases types[sf.st]? <;> cases v1 <;> simp [encodeElems]
    · cases ht : types[sf.st]? with
      | none => cases v1 <;> simp
      | some st =>
        cases v1 <;> try simp
        rename_i keys vals
        by_cases hvt : sf.ValueTag = -1
        · simp [hvt, encodeElems, ht, encodeStructSlice]
        · simp only [hvt, if_false, h st keys vals rfl]
          cases encodeMapElems st sf (zeroStruct st) keys vals with
          | none => rfl
          | some elems => simp [encodeStructSlice, ht]

theorem encodeFieldValues_eq_of (types : List SprotoType) (fs : List Value)
    (h : ∀ v1 ∈ fs, ∀ sf,
      callEncWith types sf v1 (fun st => encodeMessage types st v1)
        (fun st => encodeElems types st v1) (fun st => encodeEntries types sf st v1) =
        callEnc types sf v1) :
    encodeFieldValues types fs = fs.map (fun v1 sf => callEnc types sf v1) := by
  induction fs with
  | nil => simp [encodeFieldValues]
  | cons v1 vs ih =>
    simp only [encodeFieldValues, List.map_cons,
      ih (fun v hv => h v (List.mem_cons_of_mem _ hv))]
    congr 1
    funext sf
    exact h v1 (List.mem_cons_self _ _) sf

theorem mapM_map_option {α β γ : Type} (g : α → β) (f : β → Option γ) (xs : List α) :
    (xs.map g).mapM f = xs.mapM (fun x => f (g x)) := by
  induction xs with
  | nil => simp only [List.map_nil, List.mapM_nil]
  | cons x xs ih => simp only [List.map_cons, List.mapM_cons, ih]

theorem mapM_encodeMessage (types : List SprotoType) (st : SprotoType)
    (f : List Value → Option Bytes) (elems : List (List Value))
    (h : ∀ e ∈ elems, f e = encodeMessage types st (.ptrStruct e)) :
    elems.mapM f = encodeStructSliceVals types st (elems.map Value.ptrStruct) := by
  induction elems with
  | nil => simp only [List.mapM_nil, List.map_nil, encodeStructSliceVals]; rfl
  | cons e es ih =>
    simp only [List.mapM_cons, List.map_cons, encodeStructSliceVals,
      h e (List.mem_cons_self _ _), ih (fun x hx => h x (List.mem_cons_of_mem _ hx))]
    cases encodeMessage types st (.ptrStruct e) with
    | none => rfl
    | some val =>
      cases encodeStructSliceVals types st (es.map Value.ptrStruct) <;> rfl

theorem zeroCall_eq (types : List SprotoType) (ft : FieldType) (sf : SprotoField) :
    zeroCall types ft.zero sf = callEnc types sf ft.zero := by
  have h := callEncWith_eq_of types sf ft.zero
    (fun st k v e => by cases ft <;> simp [FieldType.zero] at e)
  rw [← h]
  unfold zeroCall
  congr 1
  · funext st
    cases ft <;> simp [FieldType.zero, encodeMessage]
  · funext st
    cases ft <;> simp [FieldType.zero, encodeElems]
  · funext st
    cases ft <;> simp [FieldType.zero, encodeEntries]

/-- The elements of a simple map are encoded as the records that `encodeMap` builds. -/
theorem encodeEntries_eq_of (types : List SprotoType) (sf : SprotoField) (st : SprotoType)
    (keys vals : List Value)
    (h : ∀ v1, v1 ∈ keys ∨ v1 ∈ vals → ∀ sf,
      callEncWith types sf v1 (fun st => encodeMessage types st v1)
        (fun st => encodeElems types st v1) (fun st => encodeEntries types sf st v1) =
        callEnc types sf v1) :
    encodeEntries types sf st (.map keys vals) =
      (encodeMapElems st sf (zeroStruct st) keys vals).bind fun elems =>
        encodeStructSliceVals types st (elems.map Value.ptrStruct) := by
  have hk := encodeFieldValues_eq_of types keys (fun v hv => h v (Or.inl hv))
  have hv := encodeFieldValues_eq_of types vals (fun v hv => h v (Or.inr hv))
  have hzero : (zeroStruct st).map (fun v => (v, zeroCall types v)) =
      (zeroStruct st).map (fun v1 : Value => (v1, fun sf => callEnc types sf v1)) := by
    apply List.map_congr_left
    intro v hvin
    obtain ⟨ft, rfl⟩ := mem_zeroStruct st v hvin
    simp only [Prod.mk.injEq, true_and]
    funext sf1
    exact zeroCall_eq types ft sf1
  have key := encodeMapElems_map (fun v1 : Value => (v1, fun sf => callEnc types sf v1))
    st sf (zeroStruct st) keys vals
  beta_reduce at key
  simp only [encodeEntries, encodeSimpleMapVals, hk, hv, zip_map_self, hzero]
  rw [key]
  cases he : encodeMapElems st sf (zeroStruct st) keys vals with
  | none => rfl
  | some elems =>
    simp only [Option.map_some', Option.bind_eq_bind, Option.some_bind, mapM_map_option]
    apply mapM_encodeMessage
    intro e hein
    have hmem := encodeMapElems_mem st sf (zeroStruct st) keys vals elems he e hein
    have := encodeFieldValues_eq_of types e (fun v hv sf1 => by
      rcases hmem v hv with h0 | h0
      · obtain ⟨ft, rfl⟩ := mem_zeroStruct st v h0
        exact callEncWith_eq_of types sf1 ft.zero
          (fun st k v e => by cases ft <;> simp [FieldType.zero] at e)
      · exact h v h0 sf1)
    simp [encodeMessage, this, Function.comp_def]

theorem callEncWith_eq (types : List SprotoType) (sf : SprotoField) (v1 : Value) :
    callEncWith types sf v1 (fun st => encodeMessage types st v1)
      (fun st => encodeElems types st v1) (fun st => encodeEntries types sf st v1) =
      callEnc types sf v1 := by
  revert sf
  induction v1 using Value.ind with
  | hmap keys vals ihk ihv =>
    intro sf
    apply callEncWith_eq_of
    intro st keys1 vals1 e
    simp only [Value.map.injEq] at e
    obtain ⟨rfl, rfl⟩ := e
    apply encodeEntries_eq_of
    intro v1 hv1
    rcases hv1 with hv1 | hv1
    · exact ihk v1 hv1
    · exact ihv v1 hv1
  | _ =>
    intro sf
    exact callEncWith_eq_of types sf _ (fun st k v e => by simp at e)

theorem encodeFieldValues_eq (types : List SprotoType) (fs : List Value) :
    encodeFieldValues types fs = fs.map (fun v1 sf => callEnc types sf v1) :=
  encodeFieldValues_eq_of types fs (fun v1 _ sf => callEncWith_eq types sf v1)

theorem encodeEntries_eq (types : List SprotoType) (sf : SprotoField) (st : SprotoType)
    (keys vals : List Value) :
    encodeEntries types sf st (.map keys vals) =
      (encodeMapElems st sf (zeroStruct st) keys vals).bind fun elems =>
        encodeStructSliceVals types st (elems.map Value.ptrStruct) :=
  encodeEntries_eq_of types sf st keys vals (fun v1 _ sf => callEncWith_eq types sf v1)

theorem encodeMessage_nil (types : List SprotoType) (st : SprotoType) :
    encodeMessage types st .nil = encodeMessageEnd (encodeMessageInit st) := by
  simp [encodeMessage]

theorem encodeMessage_ptrStruct (types : List SprotoType) (st : SprotoType) (fs : List Value) :
    encodeMessage types st (.ptrStruct fs) =
      (encodeMessageLoop st fs (fs.map (fun v1 sf => callEnc types sf v1))).bind
        encodeMessageEnd := by
  simp [encodeMessage, encodeFieldValues_eq]

theorem encodeStructSliceVals_nil (types : List SprotoType) (st : SprotoType) :
    encodeStructSliceVals types st [] = some [] := by
  simp [encodeStructSliceVals]

theorem encodeStructSliceVals_cons (types : List SprotoType) (st : SprotoType) (x : Value)
    (xs : List Value) :
    encodeStructSliceVals types st (x :: xs) =
      (encodeMessage types st x).bind fun val =>
        (encodeStructSliceVals types st xs).map fun rest => val :: rest := by
  simp [encodeStructSliceVals]

/-! ### The loop of `encodeMessage` in terms of emitted fields -/

theorem encodeMessageStep_eq (types : List SprotoType) (st : SprotoType) (fs : List Value)
    (s : EncState) (i : Nat) :
    encodeMessageStep st fs (fs.map (fun v1 sf => callEnc types sf v1)) s i =
      (fieldItem types st fs i).bind fun r =>
        match r with
        | none => some s
        | some it => emitItem s it := by
  unfold encodeMessageStep fieldItem
  cases hsf : st.Fields[i]? with
  | none => simp
  | some sf =>
    simp only [Option.bind_eq_bind, Option.some_bind, Option.pure_def]
    cases hv : fs[sf.field]? with
    | none => simp
    | some v1 =>
      simp only [Option.some_bind]
      by_cases ht : sf.Tag < 0
      · simp [ht]
      · simp only [ht, if_false]
        cases hh : callHeaderEnc sf v1 with
        | none => simp
        | some hp =>
          obtain ⟨header, isNil⟩ := hp
          simp only [Option.some_bind]
          cases isNil with
          | true => simp
          | false =>
            simp only [Bool.false_eq_true, if_false]
            cases henc : sf.enc with
            | none => simp [emitItem]
            | some e =>
              simp only [List.getElem?_map, hv, Option.map_some', Option.some_bind]
              cases hd : callEnc types sf v1 with
              | none => simp [emitItem]
              | some d =>
                cases d with
                | none => simp [emitItem]
                | some d => simp [emitItem]

theorem encodeMessageLoop_fold (types : List SprotoType) (st : SprotoType) (fs : List Value)
    (order : List Nat) (s : EncState) :
    order.foldlM (encodeMessageStep st fs (fs.map (fun v1 sf => callEnc types sf v1))) s =
      (collectItems types st fs order).bind fun items => items.foldlM emitItem s := by
  induction order generalizing s with
  | nil => simp [collectItems]
  | cons i rest ih =>
    simp only [List.foldlM_cons, encodeMessageStep_eq, collectItems]
    cases hi : fieldItem types st fs i with
    | none => simp
    | some r =>
      cases r with
      | none => simp [ih]
      | some it =>
        simp only [Option.bind_eq_bind, Option.some_bind]
        cases hc : collectItems types st fs rest with
        | none =>
          cases he : emitItem s it with
          | none => simp
          | some s1 => simp [ih, hc]
        | some items =>
          cases he : emitItem s it with
          | none => simp [he]
          | some s1 => simp [ih, hc, he]

theorem collectItems_length (types : List SprotoType) (st : SprotoType) (fs : List Value)
    (order : List Nat) (items : List Item)
    (h : collectItems types st fs order = some items) : items.length ≤ order.length := by
  induction order generalizing items with
  | nil => simp [collectItems] at h; subst h; simp
  | cons i rest ih =>
    simp only [collectItems] at h
    cases hi : fieldItem types st fs i with
    | none => simp [hi] at h
    | some r =>
      cases r with
      | none =>
        simp only [hi] at h
        have := ih items h
        simp only [List.length_cons]; omega
      | some it =>
        simp only [hi] at h
        cases hc : collectItems types st fs rest with
        | none => simp [hc] at h
        | some l =>
          simp only [hc, Option.map_some', Option.some.injEq] at h
          subst h
          have := ih l hc
          simp only [List.length_cons]; omega

theorem setHeader_append (hs : List Nat) (n : Nat) (x : Nat) :
    setHeader (hs ++ List.replicate (n + 1) 0) hs.length x =
      some ((hs ++ [x]) ++ List.replicate n 0) := by
  simp [setHeader, List.replicate_succ]

theorem writeUint32_four (buf : Bytes) (h : buf.length = 4) (v : Nat) :
    writeUint32 buf v = some (littleEndian 4 v) := by
  match buf, h with
  | [a, b, c, d], _ => simpa using writeUint32_cons a b c d [] v

theorem headerSlots_cons (prev : Int) (it : Item) (rest : List Item) :
    headerSlots prev (it :: rest) = headerSlots prev [it] ++ headerSlots it.1 rest := by
  simp [headerSlots]

theorem headerSlots_single_length (prev : Int) (it : Item) :
    (headerSlots prev [it]).length ≤ 2 := by
  simp only [headerSlots]
  split <;> simp

/-- One emitted field: the slots of the field go to the first free header positions and
its data entry to the end of the buffer. -/
theorem emitItem_spec (hs : List Nat) (n : Nat) (tag : Int) (buffer dataLen : Bytes)
    (it : Item) (hd : dataLen.length = 4) (hn : 2 ≤ n) :
    ∃ dataLen1 : Bytes, dataLen1.length = 4 ∧
      emitItem ⟨hs ++ List.replicate n 0, hs.length, tag, buffer, dataLen⟩ it =
        some ⟨(hs ++ headerSlots tag [it]) ++
            List.replicate (n - (headerSlots tag [it]).length) 0,
          (hs ++ headerSlots tag [it]).length, it.1, buffer ++ dataSegment [it], dataLen1⟩ := by
  obtain ⟨m, rfl⟩ : ∃ m, n = m + 2 := ⟨n - 2, by omega⟩
  obtain ⟨t, h, d⟩ := it
  by_cases hskip : skipTag tag t > 0
  · have e1 := setHeader_append hs (m + 1) (skipTag tag t)
    have e2 := setHeader_append (hs ++ [skipTag tag t]) m h
    simp only [List.length_append, List.length_singleton, List.append_assoc,
      List.singleton_append] at e1 e2
    cases d with
    | none =>
      refine ⟨dataLen, hd, ?_⟩
      simp [emitItem, hskip, e1, e2, headerSlots, dataSegment]
    | some d =>
      refine ⟨littleEndian 4 (uint32 d.length), littleEndian_length _ _, ?_⟩
      simp [emitItem, hskip, e1, e2, headerSlots, dataSegment, writeUint32_four dataLen hd,
        Append]
  · have e2 := setHeader_append hs (m + 1) h
    simp only [List.append_assoc, List.singleton_append] at e2
    cases d with
    | none =>
      refine ⟨dataLen, hd, ?_⟩
      simp [emitItem, hskip, e2, headerSlots, dataSegment]
    | some d =>
      refine ⟨littleEndian 4 (uint32 d.length), littleEndian_length _ _, ?_⟩
      simp [emitItem, hskip, e2, headerSlots, dataSegment, writeUint32_four dataLen hd,
        Append]

theorem headerSlots_length_le (prev : Int) (items : List Item) :
    (headerSlots prev items).length ≤ 2 * items.length := by
  induction items generalizing prev with
  | nil => simp [headerSlots]
  | cons it rest ih =>
    rw [headerSlots_cons, List.length_append]
    have h1 := headerSlots_single_length prev it
    have h2 := ih it.1
    simp only [List.length_cons]
    omega

theorem dataSegment_cons (it : Item) (rest : List Item) :
    dataSegment (it :: rest) = dataSegment [it] ++ dataSegment rest := by
  simp [dataSegment]

/-- The loop over the emitted fields, from a state whose header array has the slots `hs`
written and `n` free positions. -/
theorem emitItems_spec (items : List Item) (hs : List Nat) (n : Nat) (tag : Int)
    (buffer dataLen : Bytes) (hd : dataLen.length = 4) (hn : 2 * items.length ≤ n) :
    ∃ (tag1 : Int) (dataLen1 : Bytes), dataLen1.length = 4 ∧
      items.foldlM emitItem ⟨hs ++ List.replicate n 0, hs.length, tag, buffer, dataLen⟩ =
        some ⟨(hs ++ headerSlots tag items) ++
            List.replicate (n - (headerSlots tag items).length) 0,
          (hs ++ headerSlots tag items).length, tag1, buffer ++ dataSegment items, dataLen1⟩ := by
  induction items generalizing hs n tag buffer dataLen with
  | nil => exact ⟨tag, dataLen, hd, by simp [headerSlots, dataSegment]⟩
  | cons it rest ih =>
    simp only [List.length_cons] at hn
    obtain ⟨d1, hd1, he⟩ := emitItem_spec hs n tag buffer dataLen it hd (by omega)
    have hk := headerSlots_single_length tag it
    obtain ⟨tag1, d2, hd2, hr⟩ := ih (hs ++ headerSlots tag [it])
      (n - (headerSlots tag [it]).length) it.1 (buffer ++ dataSegment [it]) d1 hd1 (by omega)
    refine ⟨tag1, d2, hd2, ?_⟩
    simp only [List.foldlM_cons, he, Option.bind_eq_bind, Option.some_bind, hr]
    rw [headerSlots_cons tag it rest, dataSegment_cons it rest]
    simp only [List.append_assoc, List.length_append, Nat.sub_sub]

theorem encodeMessageEnd_spec (slots : List Nat) (n : Nat) (tag : Int) (buffer dataLen : Bytes) :
    encodeMessageEnd ⟨slots ++ List.replicate n 0, slots.length, tag, buffer, dataLen⟩ =
      some (littleEndian 2 (uint16 slots.length) ++ slots.flatMap (littleEndian 2) ++ buffer) := by
  simp [encodeMessageEnd, encodeHeaders_eq, Append]

/-- The bytes of a non-nil record in terms of its emitted fields. The header array has
room for two slots per descriptor. -/
theorem encodeMessage_of_items (types : List SprotoType) (st : SprotoType) (fs : List Value)
    (items : List Item) (hitems : collectItems types st fs st.order = some items)
    (hcap : items.length ≤ st.Fields.length) :
    encodeMessage types st (.ptrStruct fs) = some (messageBytes items) := by
  rw [encodeMessage_ptrStruct, encodeMessageLoop, encodeMessageLoop_fold, hitems]
  simp only [Option.bind_eq_bind, Option.some_bind, encodeMessageInit]
  obtain ⟨tag1, d1, _, hr⟩ := emitItems_spec items [] (st.Fields.length * 2) (-1) [] (make 4)
    rfl (by omega)
  simp only [List.nil_append, List.length_nil] at hr
  have hb : List.take 0 (make EncodeBufferSize) = [] := rfl
  rw [hb, hr]
  simp only [Option.some_bind]
  rw [encodeMessageEnd_spec]
  simp [messageBytes]

/-- A nil record (a nil element of a struct array) is encoded as the empty message. -/
theorem encodeMessage_nil_eq (types : List SprotoType) (st : SprotoType) :
    encodeMessage types st .nil = some [0, 0] := by
  rw [encodeMessage_nil, encodeMessageInit]
  have hb : List.take 0 (make EncodeBufferSize) = [] := rfl
  have := encodeMessageEnd_spec [] (st.Fields.length * 2) (-1) [] (make 4)
  simp only [List.nil_append, List.length_nil] at this
  rw [hb, this]
  rfl

theorem indexOk_length (st : SprotoType) (h : indexOk st) :
    st.order.length ≤ st.Fields.length := by
  have hsub : st.order ⊆ List.range st.Fields.length := by
    intro i hi
    exact List.mem_range.2 (h.2 i hi)
  have := (List.subperm_of_subset h.1 hsub).length_le
  simpa using this

/-! ### Valid records are encoded without a panic -/

theorem validFields_eq (types : List SprotoType) (fs : List Value) :
    validFields types fs = fs.map (fun v1 sf => validField types sf v1) := by
  induction fs with
  | nil => simp [validFields]
  | cons v1 vs ih => simp only [validFields, List.map_cons, ih, validField]

theorem validMsg_ptrStruct (types : List SprotoType) (st : SprotoType) (fs : List Value) :
    validMsg types st (.ptrStruct fs) = true ↔
      ∀ sf ∈ st.Fields, ∃ v1, fs[sf.field]? = some v1 ∧ validField types sf v1 = true := by
  simp only [validMsg, validFields_eq, List.all_eq_true, List.getElem?_map]
  constructor
  · intro h sf hsf
    have := h sf hsf
    cases hv : fs[sf.field]? with
    | none => simp [hv] at this
    | some v1 => exact ⟨v1, rfl, by simpa [hv] using this⟩
  · intro h sf hsf
    obtain ⟨v1, hv, hok⟩ := h sf hsf
    simp [hv, hok]

theorem validElems_iff (types : List SprotoType) (st : SprotoType) (xs : List Value) :
    validElems types st xs = true ↔ ∀ x ∈ xs, validMsg types st x = true := by
  induction xs with
  | nil => simp [validElems]
  | cons x xs ih => simp [validElems, ih]

theorem callHeaderEnc_of_valid (types : List SprotoType) (sf : SprotoField) (v1 : Value)
    (h : validField types sf v1 = true) :
    ∃ slot, callHeaderEnc sf v1 = some (slot, v1.IsNil) := by
  unfold validField validFieldWith at h
  split at h
  case h_1 =>
    unfold callHeaderEnc
    cases sf.headerEnc <;>
      simp [headerEncodeDefault, headerEncodeBool, headerEncodeInt, Value.IsNil]
  case h_15 => exact absurd h (by simp)
  all_goals
    rename_i hh he
    simp [callHeaderEnc, hh, headerEncodeDefault, headerEncodeBool, headerEncodeInt,
      Value.IsNil]
  all_goals
    split <;> simp

theorem encodeInt_some (k : Kind) (x : Int) (h : inRange k x) :
    ∃ d, encodeInt (.ptrInt k x) = some d := by
  cases hk : inDefaultCase k with
  | false => exact ⟨_, encodeInt_spec k x hk h⟩
  | true => exact ⟨_, encodeInt_default_nil k x hk⟩

theorem zeroOk_eq (types : List SprotoType) (ft : FieldType) (sf : SprotoField) :
    zeroOk types ft.zero sf = validField types sf ft.zero := by
  unfold zeroOk validField validFieldWith
  cases ft <;> simp only [FieldType.zero] <;> split <;> simp_all

/-- A simple map is valid exactly if `encodeMap` can build an element from every entry and
every element is a valid record. -/
theorem validEntriesOf_iff (types : List SprotoType) (sf : SprotoField) (st : SprotoType)
    (keys vals : List Value) :
    validEntriesOf types sf st (.map keys vals) = true ↔
      ∃ elems, encodeMapElems st sf (zeroStruct st) keys vals = some elems ∧
        ∀ e ∈ elems, validMsg types st (.ptrStruct e) = true := by
  have hzero : (zeroStruct st).map (zeroOk types) =
      (zeroStruct st).map (fun (v1 : Value) (sf : SprotoField) => validField types sf v1) := by
    apply List.map_congr_left
    intro v hvin
    obtain ⟨ft, rfl⟩ := mem_zeroStruct st v hvin
    funext sf1
    exact zeroOk_eq types ft sf1
  have key := encodeMapElems_map (fun (v1 : Value) (sf : SprotoField) => validField types sf v1)
    st sf (zeroStruct st) keys vals
  beta_reduce at key
  simp only [validEntriesOf, validSimpleMap, validFields_eq, hzero]
  rw [key]
  cases he : encodeMapElems st sf (zeroStruct st) keys vals with
  | none => simp
  | some elems =>
    simp only [Option.map_some', List.all_map, List.all_eq_true, Option.some.injEq,
      exists_eq_left', Function.comp_apply, validMsg, validFields_eq, List.forall_mem_map]

theorem callEnc_of_valid (types : List SprotoType) (sf : SprotoField) (v1 : Value)
    (h : validField types sf v1 = true) (hnn : v1.IsNil = false)
    (hmsg : ∀ st, types[sf.st]? = some st → validMsg types st v1 = true →
      ∃ out, encodeMessage types st v1 = some out)
    (helems : ∀ st, types[sf.st]? = some st → validElemsOf types st v1 = true →
      ∃ vals, encodeElems types st v1 = some vals)
    (hentries : ∀ st, types[sf.st]? = some st → validEntriesOf types sf st v1 = true →
      ∃ vals, encodeEntries types sf st v1 = some vals) :
    sf.enc = none ∨ ∃ d, callEnc types sf v1 = some d := by
  unfold validField validFieldWith at h
  split at h
  case h_1 => simp [Value.IsNil] at hnn
  case h_2 hh he => exact Or.inl he
  case h_3 hh he =>
    simp only [decide_eq_true_eq] at h
    exact Or.inr (by simpa [callEnc, he] using encodeInt_some _ _ h.2)
  case h_4 hh he => exact Or.inr ⟨_, by simp only [callEnc, he]; exact encodeDouble_eq _⟩
  case h_5 hh he => exact Or.inr ⟨_, by simp only [callEnc, he]; exact encodeString_eq _⟩
  case h_6 hh he => exact Or.inr ⟨_, by simp only [callEnc, he]; exact encodeBytes_eq _⟩
  case h_7 hh he => exact Or.inr ⟨_, by simp only [callEnc, he]; exact encodeBoolSlice_eq _⟩
  case h_8 k xs hh he =>
    simp only [Bool.and_eq_true, decide_eq_true_eq, List.all_eq_true] at h
    exact Or.inr ⟨_, by simp only [callEnc, he]; exact encodeIntSlice_eq k xs h.2⟩
  case h_9 hh he => exact Or.inr ⟨_, by simp only [callEnc, he]; exact encodeDoubleSlice_eq _⟩
  case h_10 hh he =>
    exact Or.inr ⟨_, by simp only [callEnc, he]; exact encodeStringSlice_eq _⟩
  case h_11 hh he =>
    exact Or.inr ⟨_, by simp only [callEnc, he]; exact encodeBytesSlice_eq _⟩
  case h_12 hh he =>
    right
    cases ht : types[sf.st]? with
    | none => simp [ht] at h
    | some st =>
      simp only [ht] at h
      obtain ⟨out, ho⟩ := hmsg st ht h
      exact ⟨some out, by simp [callEnc, he, encodeStruct, ht, ho]⟩
  case h_13 xs hh he =>
    right
    cases ht : types[sf.st]? with
    | none => simp [ht] at h
    | some st =>
      simp only [ht] at h
      obtain ⟨vals, ho⟩ := helems st ht h
      simp only [encodeElems] at ho
      exact ⟨some (lengthPrefixed vals),
        by simp [callEnc, he, encodeStructSlice, ht, ho, encodeStructSliceBuf_eq]⟩
  case h_14 ks xs hh he =>
    right
    cases ht : types[sf.st]? with
    | none => simp [ht] at h
    | some st =>
      simp only [ht] at h
      rw [← callEncWith_eq]
      by_cases hvt : sf.ValueTag = -1
      · simp only [hvt, if_true] at h
        obtain ⟨vals, ho⟩ := helems st ht h
        exact ⟨some (lengthPrefixed vals),
          by simp [callEncWith, he, ht, ho, encodeStructSliceBuf_eq, hvt]⟩
      · simp only [hvt, if_false] at h
        obtain ⟨vals, ho⟩ := hentries st ht h
        exact ⟨some (lengthPrefixed vals),
          by simp [callEncWith, he, ht, ho, encodeStructSliceBuf_eq, hvt]⟩
  case h_15 => exact absurd h (by simp)

theorem collectItems_total (types : List SprotoType) (st : SprotoType) (fs : List Value)
    (order : List Nat) (h : ∀ i ∈ order, ∃ r, fieldItem types st fs i = some r) :
    ∃ items, collectItems types st fs order = some items := by
  induction order with
  | nil => exact ⟨[], rfl⟩
  | cons i rest ih =>
    obtain ⟨r, hr⟩ := h i (List.mem_cons_self _ _)
    obtain ⟨items, hi⟩ := ih (fun j hj => h j (List.mem_cons_of_mem _ hj))
    cases r with
    | none => exact ⟨items, by simp [collectItems, hr, hi]⟩
    | some it => exact ⟨it :: items, by simp [collectItems, hr, hi]⟩

theorem fieldItem_total (types : List SprotoType) (st : SprotoType) (fs : List Value) (i : Nat)
    (sf : SprotoField) (v1 : Value) (hsf : st.Fields[i]? = some sf)
    (hv : fs[sf.field]? = some v1) (hok : validField types sf v1 = true)
    (hmsg : ∀ st, types[sf.st]? = some st → validMsg types st v1 = true →
      ∃ out, encodeMessage types st v1 = some out)
    (helems : ∀ st, types[sf.st]? = some st → validElemsOf types st v1 = true →
      ∃ vals, encodeElems types st v1 = some vals)
    (hentries : ∀ st, types[sf.st]? = some st → validEntriesOf types sf st v1 = true →
      ∃ vals, encodeEntries types sf st v1 = some vals) :
    ∃ r, fieldItem types st fs i = some r := by
  obtain ⟨slot, hh⟩ := callHeaderEnc_of_valid types sf v1 hok
  simp only [fieldItem, hsf, hv, Option.bind_eq_bind, Option.some_bind, hh, Option.pure_def]
  by_cases ht : sf.Tag < 0
  · exact ⟨none, by simp [ht]⟩
  · simp only [ht, if_false]
    cases hn : v1.IsNil with
    | true => exact ⟨none, by simp⟩
    | false =>
      simp only [Bool.false_eq_true, if_false]
      rcases callEnc_of_valid types sf v1 hok hn hmsg helems hentries with he | ⟨d, hd⟩
      · exact ⟨some (sf.Tag, slot, none), by simp [he]⟩
      · cases he : sf.enc with
        | none => exact ⟨some (sf.Tag, slot, none), by simp⟩
        | some e => exact ⟨some (sf.Tag, slot, d), by simp [hd]⟩

theorem encodeStructSliceVals_total (types : List SprotoType) (st : SprotoType)
    (xs : List Value) (h : ∀ x ∈ xs, ∃ out, encodeMessage types st x = some out) :
    ∃ vals, encodeStructSliceVals types st xs = some vals := by
  induction xs with
  | nil => exact ⟨[], encodeStructSliceVals_nil types st⟩
  | cons x xs ih =>
    obtain ⟨out, ho⟩ := h x (List.mem_cons_self _ _)
    obtain ⟨vals, hvs⟩ := ih (fun y hy => h y (List.mem_cons_of_mem _ hy))
    exact ⟨out :: vals, by simp [encodeStructSliceVals_cons, ho, hvs]⟩

/-- A valid struct is encoded if the calls on its host fields return. -/
theorem encodeMessage_total_struct (types : List SprotoType)
    (htypes : ∀ st ∈ types, indexOk st) (fs : List Value)
    (ih : ∀ v1 ∈ fs,
      (∀ st, indexOk st → validMsg types st v1 = true →
        ∃ out, encodeMessage types st v1 = some out) ∧
      (∀ st, indexOk st → validElemsOf types st v1 = true →
        ∃ vals, encodeElems types st v1 = some vals) ∧
      (∀ sf st, indexOk st → validEntriesOf types sf st v1 = true →
        ∃ vals, encodeEntries types sf st v1 = some vals))
    (st : SprotoType) (hst : indexOk st) (hval : validMsg types st (.ptrStruct fs) = true) :
    ∃ out, encodeMessage types st (.ptrStruct fs) = some out := by
  rw [validMsg_ptrStruct] at hval
  have hitems : ∃ items, collectItems types st fs st.order = some items := by
    apply collectItems_total
    intro i hi
    have hlt := hst.2 i hi
    have hsf : st.Fields[i]? = some st.Fields[i] := List.getElem?_eq_getElem hlt
    obtain ⟨v1, hv, hok⟩ := hval st.Fields[i] (List.getElem_mem hlt)
    have hmem : v1 ∈ fs := List.getElem?_mem hv
    refine fieldItem_total types st fs i _ v1 hsf hv hok ?_ ?_ ?_
    · intro st1 ht hvalid
      exact (ih v1 hmem).1 st1 (htypes st1 (List.getElem?_mem ht)) hvalid
    · intro st1 ht hvalid
      exact (ih v1 hmem).2.1 st1 (htypes st1 (List.getElem?_mem ht)) hvalid
    · intro st1 ht hvalid
      exact (ih v1 hmem).2.2 _ st1 (htypes st1 (List.getElem?_mem ht)) hvalid
  obtain ⟨items, hi⟩ := hitems
  have hcap : items.length ≤ st.Fields.length :=
    le_trans (collectItems_length types st fs st.order items hi) (indexOk_length st hst)
  exact ⟨_, encodeMessage_of_items types st fs items hi hcap⟩

/-- Every valid record over tables whose order index is a duplicate-free list of valid
indices is encoded: `encodeMessage` returns bytes, it does not panic. The same holds for
the elements of a valid struct array or normal map, and for the elements built from the
entries of a valid simple map. -/
theorem encodeMessage_total (types : List SprotoType) (htypes : ∀ st ∈ types, indexOk st)
    (v : Value) :
    (∀ st, indexOk st → validMsg types st v = true →
      ∃ out, encodeMessage types st v = some out) ∧
    (∀ st, indexOk st → validElemsOf types st v = true →
      ∃ vals, encodeElems types st v = some vals) ∧
    (∀ sf st, indexOk st → validEntriesOf types sf st v = true →
      ∃ vals, encodeEntries types sf st v = some vals) := by
  have helems : ∀ xs : List Value,
      (∀ x ∈ xs, ∀ st, indexOk st → validMsg types st x = true →
        ∃ out, encodeMessage types st x = some out) →
      ∀ st, indexOk st → validElems types st xs = true →
        ∃ vals, encodeStructSliceVals types st xs = some vals := by
    intro xs hx st hst hval
    rw [validElems_iff] at hval
    exact encodeStructSliceVals_total types st xs (fun x hxin => hx x hxin st hst (hval x hxin))
  induction v using Value.ind with
  | hnil =>
    exact ⟨fun st _ _ => ⟨_, encodeMessage_nil_eq types st⟩,
      fun st _ h => by simp [validElemsOf] at h,
      fun sf st _ h => by simp [validEntriesOf] at h⟩
  | hstruct fs ih =>
    exact ⟨encodeMessage_total_struct types htypes fs ih,
      fun st _ h => by simp [validElemsOf] at h,
      fun sf st _ h => by simp [validEntriesOf] at h⟩
  | hslice xs ih =>
    refine ⟨fun st _ h => by simp [validMsg] at h, ?_,
      fun sf st _ h => by simp [validEntriesOf] at h⟩
    intro st hst hval
    simp only [validElemsOf] at hval
    simpa [encodeElems] using helems xs (fun x hx => (ih x hx).1) st hst hval
  | hmap ks xs ihk ih =>
    refine ⟨fun st _ h => by simp [validMsg] at h, ?_, ?_⟩
    · intro st hst hval
      simp only [validElemsOf] at hval
      simpa [encodeElems] using helems xs (fun x hx => (ih x hx).1) st hst hval
    · intro sf st hst hval
      rw [validEntriesOf_iff] at hval
      obtain ⟨elems, he, hvalid⟩ := hval
      rw [encodeEntries_eq, he]
      simp only [Option.bind_eq_bind, Option.some_bind]
      apply encodeStructSliceVals_total
      intro x hx
      obtain ⟨e, hein, rfl⟩ := List.mem_map.1 hx
      apply encodeMessage_total_struct types htypes e ?_ st hst (hvalid e hein)
      intro v1 hv1
      rcases encodeMapElems_mem st sf (zeroStruct st) ks xs elems he e hein v1 hv1 with
        h1 | h1 | h1
      · obtain ⟨ft, rfl⟩ := mem_zeroStruct st v1 h1
        cases ft
        · exact ⟨fun st _ _ => ⟨_, encodeMessage_nil_eq types st⟩,
            fun st _ h => by simp [FieldType.zero, validElemsOf] at h,
            fun sf st _ h => by simp [FieldType.zero, validEntriesOf] at h⟩
        all_goals
          exact ⟨fun st _ h => by simp [FieldType.zero, validMsg] at h,
            fun st _ h => by simp [FieldType.zero, validElemsOf] at h,
            fun sf st _ h => by simp [FieldType.zero, validEntriesOf] at h⟩
      · exact ihk v1 h1
      · exact ih v1 h1
  | _ =>
    exact ⟨fun st _ h => by simp [validMsg] at h, fun st _ h => by simp [validElemsOf] at h,
      fun sf st _ h => by simp [validEntriesOf] at h⟩

/-! ### Header slots and the decoder's walk -/

theorem callHeaderEnc_inv (sf : SprotoField) (v : Value) (slot : Nat) (b : Bool)
    (h : callHeaderEnc sf v = some (slot, b)) :
    b = v.IsNil ∧ slot % 2 = 0 ∧ slot ≤ 0xFFFE := by
  unfold callHeaderEnc at h
  cases hn : v.IsNil with
  | true =>
    cases hh : sf.headerEnc <;>
      simp only [hh, headerEncodeDefault, headerEncodeBool, headerEncodeInt, hn, if_true,
        Option.some.injEq, Prod.mk.injEq] at h <;>
      (obtain ⟨rfl, rfl⟩ := h; simp)
  | false =>
    cases hh : sf.headerEnc
    · simp only [hh, headerEncodeDefault, hn, Bool.false_eq_true, if_false, Option.some.injEq,
        Prod.mk.injEq] at h
      obtain ⟨rfl, rfl⟩ := h; simp
    · simp only [hh, headerEncodeBool, hn, Bool.false_eq_true, if_false] at h
      cases v <;> simp only [Option.some.injEq, Prod.mk.injEq, reduceCtorEq] at h
      obtain ⟨rfl, rfl⟩ := h
      rename_i b
      cases b <;> simp [uint16]
    · simp only [hh, headerEncodeInt, hn, Bool.false_eq_true, if_false] at h
      cases v <;> simp only [Option.some.injEq, Prod.mk.injEq, reduceCtorEq] at h
      case ptrInt k x =>
        have key : ∀ n : Nat,
            (if n ≤ MaxEmbeddedInt then some (uint16 (uint64 (2 * (n + 1))), false)
              else some (0, false)) = some (slot, b) →
            b = false ∧ slot % 2 = 0 ∧ slot ≤ 0xFFFE := by
          intro n hk
          by_cases hle : n ≤ MaxEmbeddedInt
          · rw [if_pos hle] at hk
            simp only [Option.some.injEq, Prod.mk.injEq] at hk
            obtain ⟨rfl, rfl⟩ := hk
            simp only [MaxEmbeddedInt] at hle
            simp only [uint16, uint64]
            refine ⟨trivial, ?_, ?_⟩ <;> omega
          · rw [if_neg hle] at hk
            simp only [Option.some.injEq, Prod.mk.injEq] at hk
            obtain ⟨rfl, rfl⟩ := hk
            simp
        cases k <;> exact key _ h
      all_goals
        obtain ⟨rfl, rfl⟩ := h
        simp [uint16, uint64]

theorem wrapInt_of_range (x : Int) (h1 : -2 ^ 63 ≤ x) (h2 : x < 2 ^ 63) : wrapInt x = x := by
  unfold wrapInt
  omega

theorem le_wrapInt (x : Int) (h : x < 2 ^ 63) : x ≤ wrapInt x := by
  unfold wrapInt
  omega

/-- The wrapping of the intermediate results of `skipTag` does not show in the 16-bit
slot; only the wrapping of `tag + 1` in the comparison can. -/
theorem skipTag_eq (prev t : Int) :
    skipTag prev t =
      if t > wrapInt (prev + 1) then uint16OfInt ((t - prev - 1 - 1) * 2 + 1) else 0 := by
  unfold skipTag
  split
  · simp only [uint16OfInt, wrapInt]
    congr 1
    omega
  · rfl

theorem skipTag_of_gap (prev t : Int) (h0 : -1 ≤ prev) (h1 : prev + 1 < t) (h2 : t ≤ 0x7FFF) :
    skipTag prev t % 2 = 1 ∧ 0 < skipTag prev t ∧
      (((skipTag prev t - 1) >>> 1 : Nat) : Int) + 1 = t - prev - 1 := by
  have hs : skipTag prev t = (2 * (t - prev - 1) - 1).toNat := by
    rw [skipTag_eq, wrapInt_of_range (prev + 1) (by omega) (by omega)]
    simp only [gt_iff_lt, h1, if_true, uint16OfInt]
    congr 1
    norm_num
    omega
  rw [hs, Nat.shiftRight_eq_div_pow]
  omega

theorem skipTag_eq_zero (prev t : Int) (h : t ≤ prev + 1) (hp : prev + 1 < 2 ^ 63) :
    skipTag prev t = 0 := by
  have := le_wrapInt (prev + 1) hp
  rw [skipTag_eq, if_neg (by omega)]

theorem decoderTags_headerSlots (items : List Item) (prev : Int) (h0 : -1 ≤ prev)
    (hlt : ∀ it ∈ items, prev < it.1 ∧ it.1 ≤ 0x7FFF ∧ it.2.1 % 2 = 0)
    (hsorted : (items.map (fun it => it.1)).Pairwise (fun a b => a < b)) :
    decoderTags prev (headerSlots prev items) = items.map (fun it => it.1) := by
  induction items generalizing prev with
  | nil => simp [headerSlots, decoderTags]
  | cons it rest ih =>
    obtain ⟨hp, hmax, heven⟩ := hlt it (List.mem_cons_self _ _)
    simp only [List.map_cons, List.pairwise_cons, List.mem_map, forall_exists_index,
      and_imp, forall_apply_eq_imp_iff₂] at hsorted
    have hrest := ih it.1 (by omega)
      (fun x hx => ⟨hsorted.1 x hx, (hlt x (List.mem_cons_of_mem _ hx)).2⟩) hsorted.2
    simp only [headerSlots, List.map_cons]
    by_cases hgap : prev + 1 < it.1
    · obtain ⟨hodd, hpos, hspan⟩ := skipTag_of_gap prev it.1 h0 hgap hmax
      have hne : ¬ it.2.1 % 2 = 1 := by omega
      simp only [gt_iff_lt, hpos, if_true, List.singleton_append, List.cons_append,
        decoderTags, hodd, hne, if_false, hspan, hrest]
      have e : prev + (it.1 - prev - 1) + 1 = it.1 := by omega
      simp [e, hrest]
    · have e : it.1 = prev + 1 := by omega
      have hne : ¬ it.2.1 % 2 = 1 := by omega
      have hz : skipTag prev it.1 = 0 := skipTag_eq_zero prev it.1 (by omega) (by omega)
      simp only [hz, gt_iff_lt, Nat.lt_irrefl, if_false, List.nil_append, List.singleton_append,
        decoderTags, hne]
      rw [← e, hrest]

theorem headerSlots_length_bound (items : List Item) (prev : Int) (hprev : prev ≤ 0x7FFF)
    (hlt : ∀ it ∈ items, prev < it.1 ∧ it.1 ≤ 0x7FFF)
    (hsorted : (items.map (fun it => it.1)).Pairwise (fun a b => a < b)) :
    ((headerSlots prev items).length : Int) ≤ 0x7FFF - prev := by
  induction items generalizing prev with
  | nil => simp only [headerSlots, List.length_nil]; omega
  | cons it rest ih =>
    obtain ⟨hp, hmax⟩ := hlt it (List.mem_cons_self _ _)
    simp only [List.map_cons, List.pairwise_cons, List.mem_map, forall_exists_index,
      and_imp, forall_apply_eq_imp_iff₂] at hsorted
    have hrest := ih it.1 hmax
      (fun x hx => ⟨hsorted.1 x hx, (hlt x (List.mem_cons_of_mem _ hx)).2⟩) hsorted.2
    rw [headerSlots_cons, List.length_append]
    have h1 : ((headerSlots prev [it]).length : Int) ≤ it.1 - prev := by
      simp only [headerSlots]
      by_cases hgap : prev + 1 < it.1
      · split <;> simp <;> omega
      · have hz : skipTag prev it.1 = 0 := skipTag_eq_zero prev it.1 (by omega) (by omega)
        simp [hz]; omega
    push_cast
    omega

/-! ### The emitted fields of a record -/

theorem fieldItem_inv (types : List SprotoType) (st : SprotoType) (fs : List Value) (i : Nat)
    (r : Option Item) (h : fieldItem types st fs i = some r) :
    ∃ sf v1, st.Fields[i]? = some sf ∧ fs[sf.field]? = some v1 ∧
      ((sf.Tag < 0 ∧ r = none) ∨
       (0 ≤ sf.Tag ∧ ∃ slot, callHeaderEnc sf v1 = some (slot, v1.IsNil) ∧
          ((v1.IsNil = true ∧ r = none) ∨
           (v1.IsNil = false ∧ ∃ d, r = some (sf.Tag, slot, d) ∧
              ((sf.enc = none ∧ d = none) ∨
               (sf.enc ≠ none ∧ callEnc types sf v1 = some d)))))) := by
  unfold fieldItem at h
  cases hsf : st.Fields[i]? with
  | none => simp [hsf] at h
  | some sf =>
    simp only [hsf, Option.bind_eq_bind, Option.some_bind] at h
    cases hv : fs[sf.field]? with
    | none => simp [hv] at h
    | some v1 =>
      simp only [hv, Option.some_bind] at h
      refine ⟨sf, v1, rfl, hv, ?_⟩
      by_cases ht : sf.Tag < 0
      · simp only [ht, if_true, Option.pure_def, Option.some.injEq] at h
        exact Or.inl ⟨ht, h.symm⟩
      · simp only [ht, if_false] at h
        refine Or.inr ⟨by omega, ?_⟩
        cases hh : callHeaderEnc sf v1 with
        | none => simp [hh] at h
        | some hp =>
          obtain ⟨slot, isNil⟩ := hp
          have hinv := (callHeaderEnc_inv sf v1 slot isNil hh).1
          subst hinv
          refine ⟨slot, rfl, ?_⟩
          simp only [hh, Option.some_bind] at h
          cases hn : v1.IsNil with
          | true =>
            simp only [hn, if_true, Option.pure_def, Option.some.injEq] at h
            exact Or.inl ⟨rfl, h.symm⟩
          | false =>
            simp only [hn, Bool.false_eq_true, if_false] at h
            refine Or.inr ⟨rfl, ?_⟩
            cases he : sf.enc with
            | none =>
              simp only [he, Option.pure_def, Option.some.injEq] at h
              exact ⟨none, h.symm, Or.inl ⟨rfl, rfl⟩⟩
            | some e =>
              simp only [he] at h
              cases hd : callEnc types sf v1 with
              | none => simp [hd] at h
              | some d =>
                simp only [hd, Option.some_bind, Option.pure_def, Option.some.injEq] at h
                exact ⟨d, h.symm, Or.inr ⟨by simp, rfl⟩⟩

theorem collectItems_tags (types : List SprotoType) (st : SprotoType) (fs : List Value)
    (order : List Nat) (items : List Item) (htag : ∀ i ∈ order, 0 ≤ tagAt st i)
    (h : collectItems types st fs order = some items) :
    items.map (fun it => it.1) = (order.filter (present st fs)).map (tagAt st) ∧
    ∀ it ∈ items, it.2.1 % 2 = 0 ∧ it.2.1 ≤ 0xFFFE := by
  induction order generalizing items with
  | nil =>
    simp only [collectItems, Option.some.injEq] at h
    subst h
    simp
  | cons i rest ih =>
    have ht0 := htag i (List.mem_cons_self _ _)
    have htr : ∀ j ∈ rest, 0 ≤ tagAt st j := fun j hj => htag j (List.mem_cons_of_mem _ hj)
    simp only [collectItems] at h
    cases hi : fieldItem types st fs i with
    | none => simp [hi] at h
    | some r =>
      obtain ⟨sf, v1, hsf, hv, hcase⟩ := fieldItem_inv types st fs i r hi
      have htagAt : tagAt st i = sf.Tag := by simp [tagAt, hsf]
      have hpres : present st fs i = !v1.IsNil := by simp [present, hsf, hv]
      rcases hcase with ⟨hneg, _⟩ | ⟨_, slot, hh, hcase⟩
      · omega
      · rcases hcase with ⟨hn, rfl⟩ | ⟨hn, d, rfl, _⟩
        · simp only [hi] at h
          have := ih items htr h
          simpa [List.filter_cons, hpres, hn] using this
        · simp only [hi] at h
          cases hc : collectItems types st fs rest with
          | none => simp [hc] at h
          | some l =>
            simp only [hc, Option.map_some', Option.some.injEq] at h
            subst h
            have := ih l htr hc
            have hev := callHeaderEnc_inv sf v1 slot _ hh
            refine ⟨by simp [List.filter_cons, hpres, hn, htagAt, this.1], ?_⟩
            intro it hit
            rcases List.mem_cons.1 hit with rfl | hit
            · exact hev.2
            · exact this.2 it hit

theorem tagsOk_indexOk (st : SprotoType) (h : tagsOk st) : indexOk st := by
  refine ⟨?_, h.1⟩
  have hne : (st.order.map (tagAt st)).Pairwise (fun a b => a ≠ b) :=
    List.Pairwise.imp (fun {a b} (hab : a < b) => ne_of_lt hab) h.2.1
  exact List.Nodup.of_map (tagAt st) hne

/-- The emitted fields of a record over a table with ascending tags in `[0, 0x7FFF]`: their
tags are ascending and in range, and their header slots are even. -/
theorem collectItems_sorted (types : List SprotoType) (st : SprotoType) (fs : List Value)
    (items : List Item) (hst : tagsOk st)
    (h : collectItems types st fs st.order = some items) :
    (items.map (fun it => it.1)).Pairwise (fun a b => a < b) ∧
    ∀ it ∈ items, -1 < it.1 ∧ it.1 ≤ 0x7FFF ∧ it.2.1 % 2 = 0 := by
  obtain ⟨htags, hev⟩ := collectItems_tags types st fs st.order items
    (fun i hi => (hst.2.2 i hi).1) h
  constructor
  · rw [htags]
    exact (hst.2.1).sublist ((List.filter_sublist _).map _)
  · intro it hit
    have hmem : it.1 ∈ (st.order.filter (present st fs)).map (tagAt st) := by
      rw [← htags]; exact List.mem_map_of_mem _ hit
    obtain ⟨i, hi, hti⟩ := List.mem_map.1 hmem
    have := hst.2.2 i (List.mem_filter.1 hi).1
    exact ⟨by omega, by omega, (hev it hit).1⟩

theorem encodeMessageLoop_of_items (types : List SprotoType) (st : SprotoType)
    (fs : List Value) (items : List Item)
    (hitems : collectItems types st fs st.order = some items)
    (hcap : items.length ≤ st.Fields.length) :
    ∃ s, encodeMessageLoop st fs (encodeFieldValues types fs) = some s ∧
      s.headers.take s.offset = headerSlots (-1) items ∧
      s.offset = (headerSlots (-1) items).length ∧ s.buffer = dataSegment items := by
  rw [encodeFieldValues_eq, encodeMessageLoop, encodeMessageLoop_fold, hitems]
  simp only [Option.bind_eq_bind, Option.some_bind, encodeMessageInit]
  obtain ⟨tag1, d1, _, hr⟩ := emitItems_spec items [] (st.Fields.length * 2) (-1) [] (make 4)
    rfl (by omega)
  simp only [List.nil_append, List.length_nil] at hr
  have hb : List.take 0 (make EncodeBufferSize) = [] := rfl
  rw [hb, hr]
  exact ⟨_, rfl, by simp, rfl, rfl⟩

theorem collectItems_of_valid (types : List SprotoType) (htypes : ∀ t ∈ types, indexOk t)
    (st : SprotoType) (hst : indexOk st) (fs : List Value)
    (hvalid : validMsg types st (.ptrStruct fs) = true) :
    ∃ items, collectItems types st fs st.order = some items ∧
      items.length ≤ st.Fields.length := by
  rw [validMsg_ptrStruct] at hvalid
  have hitems : ∃ items, collectItems types st fs st.order = some items := by
    apply collectItems_total
    intro i hi
    have hlt := hst.2 i hi
    have hsf : st.Fields[i]? = some st.Fields[i] := List.getElem?_eq_getElem hlt
    obtain ⟨v1, hv, hok⟩ := hvalid st.Fields[i] (List.getElem_mem hlt)
    refine fieldItem_total types st fs i _ v1 hsf hv hok ?_ ?_ ?_
    · intro st1 ht hvalid1
      exact (encodeMessage_total types htypes v1).1 st1
        (htypes st1 (List.getElem?_mem ht)) hvalid1
    · intro st1 ht hvalid1
      exact (encodeMessage_total types htypes v1).2.1 st1
        (htypes st1 (List.getElem?_mem ht)) hvalid1
    · intro st1 ht hvalid1
      exact (encodeMessage_total types htypes v1).2.2 _ st1
        (htypes st1 (List.getElem?_mem ht)) hvalid1
  obtain ⟨items, hi⟩ := hitems
  exact ⟨items, hi,
    le_trans (collectItems_length types st fs st.order items hi) (indexOk_length st hst)⟩

/-! ### C1: the header slots denote the tags of the present fields -/

/-- C1. For a descriptor table whose order index lists its fields in ascending order of
unique tags in `[0, 0x7FFF]` and a non-nil valid record, `encodeMessage` returns the header
count, the header slots its loop wrote and the data buffer; the decoder's walk over those
slots, started at -1, denotes exactly the tags of the present fields, once each, in
strictly ascending order. -/
theorem encodeMessage_header_tags (types : List SprotoType) (st : SprotoType)
    (fs : List Value) (htypes : ∀ t ∈ types, indexOk t) (hst : tagsOk st)
    (hvalid : validMsg types st (.ptrStruct fs) = true) :
    ∃ s, encodeMessageLoop st fs (encodeFieldValues types fs) = some s ∧
      encodeMessage types st (.ptrStruct fs) =
        some (littleEndian 2 (uint16 s.offset) ++
          (s.headers.take s.offset).flatMap (littleEndian 2) ++ s.buffer) ∧
      decoderTags (-1) (s.headers.take s.offset) =
        (st.order.filter (present st fs)).map (tagAt st) ∧
      ((st.order.filter (present st fs)).map (tagAt st)).Pairwise (fun a b => a < b) := by
  obtain ⟨items, hi, hcap⟩ :=
    collectItems_of_valid types htypes st (tagsOk_indexOk st hst) fs hvalid
  obtain ⟨s, hs, hslots, hoff, hbuf⟩ := encodeMessageLoop_of_items types st fs items hi hcap
  obtain ⟨hsorted, hrange⟩ := collectItems_sorted types st fs items hst hi
  obtain ⟨htags, _⟩ := collectItems_tags types st fs st.order items
    (fun i hi => (hst.2.2 i hi).1) hi
  refine ⟨s, hs, ?_, ?_, ?_⟩
  · rw [encodeMessage_of_items types st fs items hi hcap, hslots, hoff, hbuf, messageBytes]
  · rw [hslots, ← htags]
    exact decoderTags_headerSlots items (-1) (le_refl _) hrange hsorted
  · rw [← htags]; exact hsorted

/-- C1 on the `Bytes` test case: the slots `0F 00`, `00 00` denote the single tag 8. -/
theorem encodeMessage_header_tags_witness :
    (∀ t ∈ testTypes, indexOk t) ∧ tagsOk dataType ∧
    validMsg testTypes dataType (.ptrStruct dataBytesRecord) = true ∧
    (dataType.order.filter (present dataType dataBytesRecord)).map (tagAt dataType) = [8] ∧
    ∃ s, encodeMessageLoop dataType dataBytesRecord
        (encodeFieldValues testTypes dataBytesRecord) = some s ∧
      encodeMessage testTypes dataType (.ptrStruct dataBytesRecord) =
        some (littleEndian 2 (uint16 s.offset) ++
          (s.headers.take s.offset).flatMap (littleEndian 2) ++ s.buffer) ∧
      decoderTags (-1) (s.headers.take s.offset) =
        (dataType.order.filter (present dataType dataBytesRecord)).map (tagAt dataType) ∧
      ((dataType.order.filter (present dataType dataBytesRecord)).map
        (tagAt dataType)).Pairwise (fun a b => a < b) :=
  ⟨by decide, by decide, by decide, by decide,
    encodeMessage_header_tags testTypes dataType dataBytesRecord (by decide) (by decide)
      (by decide)⟩

/-! ### C4: data entries and zero slots -/

/-- C4, at the failing input. A record whose only field is a present `uint32` of value
100000 is encoded as `01 00 00 00`: one header slot, equal to 0, and an empty data
segment, so the zero slot has no data entry. With the host kind `int` the same value gives
`01 00 00 00 04 00 00 00 A0 86 01 00`, the zero slot followed by its entry. -/
theorem encodeMessage_uint32_slot_without_entry :
    tagsOk uint32Type ∧
    validMsg [] uint32Type (.ptrStruct [.ptrInt .Uint32 100000]) = true ∧
    encodeMessage [] uint32Type (.ptrStruct [.ptrInt .Uint32 100000]) = some [1, 0, 0, 0] ∧
    collectItems [] uint32Type [.ptrInt .Uint32 100000] uint32Type.order =
      some [(0, 0, none)] ∧
    encodeMessage [] ⟨[integerField 0 0 .Int], [0], [.nilable]⟩
      (.ptrStruct [.ptrInt .Int 100000]) =
      some [1, 0, 0, 0, 4, 0, 0, 0, 0xA0, 0x86, 0x01, 0x00] := by
  refine ⟨by decide, by decide, by decide, by decide, by decide⟩

/-! ### C6: layout of a message -/

theorem flags_fieldItem (types : List SprotoType) (n i : Nat) (h : i < n) :
    fieldItem types (flagsType n) (flagsRecord n) i = some (some ((i : Int), 4, none)) := by
  have h1 : (flagsType n).Fields[i]? = some (booleanField (i : Int) i) := by
    simp [flagsType, List.getElem?_map, List.getElem?_range h]
  have h2 : (flagsRecord n)[i]? = some (.ptrBool true) := by
    simp [flagsRecord, List.getElem?_replicate, h]
  have h3 : ¬ ((i : Int) < 0) := by omega
  simp [fieldItem, h1, h2, h3, booleanField, callHeaderEnc, headerEncodeBool, Value.IsNil,
    uint16]

theorem flags_collectItems (types : List SprotoType) (n : Nat) (order : List Nat)
    (h : ∀ i ∈ order, i < n) :
    collectItems types (flagsType n) (flagsRecord n) order =
      some (order.map (fun i : Nat => ((i : Int), 4, none))) := by
  induction order with
  | nil => rfl
  | cons i rest ih =>
    simp [collectItems, flags_fieldItem types n i (h i (List.mem_cons_self _ _)),
      ih (fun j hj => h j (List.mem_cons_of_mem _ hj))]

theorem flags_headerSlots (s m : Nat) (h : s + m < 2 ^ 63) :
    headerSlots ((s : Int) - 1)
      ((List.range' s m).map (fun i : Nat => ((i : Int), 4, (none : Option Bytes)))) =
      List.replicate m 4 := by
  induction m generalizing s with
  | zero => simp [headerSlots]
  | succ m ih =>
    have hz : skipTag ((s : Int) - 1) (s : Int) = 0 :=
      skipTag_eq_zero _ _ (by omega) (by omega)
    have hrest := ih (s + 1) (by omega)
    have e : (((s + 1 : Nat) : Int) - 1) = (s : Int) := by push_cast; ring
    rw [e] at hrest
    simp only [List.range', List.map_cons, headerSlots, hz, gt_iff_lt, Nat.lt_irrefl,
      if_false, List.nil_append, List.singleton_append, hrest, List.replicate_succ]

theorem flags_dataSegment (order : List Nat) :
    dataSegment (order.map (fun i : Nat => ((i : Int), 4, (none : Option Bytes)))) = [] := by
  induction order with
  | nil => rfl
  | cons i rest ih => simp [dataSegment, ih]

theorem flags_indexOk (n : Nat) : indexOk (flagsType n) := by
  refine ⟨List.nodup_range n, ?_⟩
  intro i hi
  simpa [flagsType] using hi

theorem flags_valid (types : List SprotoType) (n : Nat) :
    validMsg types (flagsType n) (.ptrStruct (flagsRecord n)) = true := by
  rw [validMsg_ptrStruct]
  intro sf hsf
  simp only [flagsType, List.mem_map, List.mem_range] at hsf
  obtain ⟨i, hi, rfl⟩ := hsf
  refine ⟨.ptrBool true, ?_, ?_⟩
  · simp [flagsRecord, booleanField, List.getElem?_replicate, hi]
  · simp [validField, validFieldWith, booleanField]

/-- The record of `n` true booleans is encoded with `n` header slots and the header count
`uint16(n)`. -/
theorem flags_encode (types : List SprotoType) (n : Nat) (hn : n < 2 ^ 63) :
    ∃ s, encodeMessageLoop (flagsType n) (flagsRecord n)
        (encodeFieldValues types (flagsRecord n)) = some s ∧
      s.offset = n ∧ s.headers.take s.offset = List.replicate n 4 ∧
      encodeMessage types (flagsType n) (.ptrStruct (flagsRecord n)) =
        some (littleEndian 2 (uint16 n) ++ (List.replicate n 4).flatMap (littleEndian 2)) := by
  have hitems := flags_collectItems types n (List.range n) (fun i hi => List.mem_range.1 hi)
  have hcap : ((List.range n).map (fun i : Nat => ((i : Int), 4, (none : Option Bytes)))).length ≤
      (flagsType n).Fields.length := by simp [flagsType]
  have hslots : headerSlots (-1)
      ((List.range n).map (fun i : Nat => ((i : Int), 4, (none : Option Bytes)))) =
      List.replicate n 4 := by
    have := flags_headerSlots 0 n (by omega)
    rw [List.range_eq_range']
    simpa using this
  obtain ⟨s, hs, htake, hoff, _⟩ := encodeMessageLoop_of_items types (flagsType n)
    (flagsRecord n) _ hitems hcap
  refine ⟨s, hs, by rw [hoff, hslots]; simp, by rw [htake, hslots], ?_⟩
  rw [encodeMessage_of_items types (flagsType n) (flagsRecord n) _ hitems hcap, messageBytes,
    hslots, flags_dataSegment]
  simp

/-- C6 as stated fails: a record of 65536 boolean fields, all set, emits 65536 header
slots, and the 16-bit header count wraps to 0, so the first two bytes are `00 00` while the
output has `2 + 2 * 65536` bytes. -/
theorem encodeMessage_count_wraps :
    indexOk (flagsType 65536) ∧
    validMsg [] (flagsType 65536) (.ptrStruct (flagsRecord 65536)) = true ∧
    ∃ (s : EncState) (out : Bytes),
      encodeMessageLoop (flagsType 65536) (flagsRecord 65536)
        (encodeFieldValues [] (flagsRecord 65536)) = some s ∧
      s.offset = 65536 ∧
      encodeMessage [] (flagsType 65536) (.ptrStruct (flagsRecord 65536)) = some out ∧
      out.take 2 = [0, 0] ∧ out.length = 2 + 2 * 65536 := by
  obtain ⟨s, hs, hoff, _, hout⟩ := flags_encode [] 65536 (by norm_num)
  refine ⟨flags_indexOk _, flags_valid _ _, s, _, hs, hoff, hout, ?_, ?_⟩
  · have h0 : littleEndian 2 (uint16 65536) = [0, 0] := by decide
    rw [h0]
    rfl
  · rw [List.length_append, littleEndian_length,
      flatMap_length_const (littleEndian 2) 2 (fun x => littleEndian_length 2 x),
      List.length_replicate]

/-- C6, amended. For every valid record (nil or not) over tables with duplicate-free order
indices, `encodeMessage` returns the 16-bit little-endian header count, then the emitted
header slots as 16-bit little-endian integers, then the data segment, and the output has
`2 + 2 * (number of slots) + length data` bytes. The header count is the number of emitted
slots, skip markers included, modulo `2^16`: it is that number whenever fewer than `2^16`
slots are emitted, which is the case for every table with fewer than `2^15` fields and for
every table with ascending unique tags in `[0, 0x7FFF]`. For a non-nil record the slots
and the data are the slots `headers[:offset]` and the buffer that the loop built. -/
theorem encodeMessage_layout (types : List SprotoType) (st : SprotoType) (v : Value)
    (htypes : ∀ t ∈ types, indexOk t) (hst : indexOk st)
    (hvalid : validMsg types st v = true) :
    ∃ (slots : List Nat) (data : Bytes) (out : Bytes),
      encodeMessage types st v = some out ∧
      out = littleEndian 2 (uint16 slots.length) ++ slots.flatMap (littleEndian 2) ++ data ∧
      out.length = 2 + 2 * slots.length + data.length ∧
      (slots.length < 2 ^ 16 →
        out = littleEndian 2 slots.length ++ slots.flatMap (littleEndian 2) ++ data) ∧
      (st.Fields.length < 2 ^ 15 → slots.length < 2 ^ 16) ∧
      (tagsOk st → slots.length < 2 ^ 16) ∧
      (v = .nil → slots = [] ∧ data = []) ∧
      (∀ fs, v = .ptrStruct fs →
        ∃ s, encodeMessageLoop st fs (encodeFieldValues types fs) = some s ∧
          s.headers.take s.offset = slots ∧ s.offset = slots.length ∧ s.buffer = data) := by
  have hlen : ∀ (n : Nat) (slots : List Nat) (data : Bytes),
      (littleEndian 2 n ++ slots.flatMap (littleEndian 2) ++ data).length =
        2 + 2 * slots.length + data.length := by
    intro n slots data
    simp only [List.length_append, littleEndian_length,
      flatMap_length_const (littleEndian 2) 2 (fun x => littleEndian_length 2 x)]
  have hmod : ∀ slots : List Nat, slots.length < 2 ^ 16 →
      uint16 slots.length = slots.length := by
    intro slots h
    simp only [uint16]
    exact Nat.mod_eq_of_lt h
  cases v with
  | nil =>
    refine ⟨[], [], _, encodeMessage_nil_eq types st, by decide, by decide, fun _ => by decide,
      fun _ => by decide, fun _ => by decide, fun _ => ⟨rfl, rfl⟩, fun fs h => by simp at h⟩
  | ptrStruct fs =>
    obtain ⟨items, hi, hcap⟩ := collectItems_of_valid types htypes st hst fs hvalid
    obtain ⟨s, hs, hslots, hoff, hbuf⟩ := encodeMessageLoop_of_items types st fs items hi hcap
    have hle := headerSlots_length_le (-1) items
    refine ⟨headerSlots (-1) items, dataSegment items, _,
      encodeMessage_of_items types st fs items hi hcap, rfl, hlen _ _ _, ?_, ?_, ?_,
      fun h => by simp at h, ?_⟩
    · intro hlt
      rw [messageBytes, hmod _ hlt]
    · intro hf
      omega
    · intro htags
      obtain ⟨hsorted, hrange⟩ := collectItems_sorted types st fs items htags hi
      have hbound := headerSlots_length_bound items (-1) (by decide)
        (fun it hit => ⟨(hrange it hit).1, (hrange it hit).2.1⟩) hsorted
      norm_num at hbound ⊢
      omega
    · intro fs1 h
      simp only [Value.ptrStruct.injEq] at h
      subst h
      exact ⟨s, hs, hslots, hoff, hbuf⟩
  | _ => simp [validMsg] at hvalid

/-- C6 (amended) on the `StructArray` test case: 4 slots (one of them the skip marker
`01 00`) and a 49-byte data segment give 2 + 8 + 49 = 59 bytes. -/
theorem encodeMessage_layout_witness :
    (∀ t ∈ testTypes, indexOk t) ∧ indexOk humanType ∧
    validMsg testTypes humanType (.ptrStruct humanBobRecord) = true ∧
    (encodeMessage testTypes humanType (.ptrStruct humanBobRecord)).map List.length =
      some 59 ∧
    ∃ (slots : List Nat) (data : Bytes) (out : Bytes),
      encodeMessage testTypes humanType (.ptrStruct humanBobRecord) = some out ∧
      out = littleEndian 2 (uint16 slots.length) ++ slots.flatMap (littleEndian 2) ++ data ∧
      out.length = 2 + 2 * slots.length + data.length ∧
      (slots.length < 2 ^ 16 →
        out = littleEndian 2 slots.length ++ slots.flatMap (littleEndian 2) ++ data) ∧
      (humanType.Fields.length < 2 ^ 15 → slots.length < 2 ^ 16) ∧
      (tagsOk humanType → slots.length < 2 ^ 16) ∧
      (Value.ptrStruct humanBobRecord = .nil → slots = [] ∧ data = []) ∧
      (∀ fs, Value.ptrStruct humanBobRecord = .ptrStruct fs →
        ∃ s, encodeMessageLoop humanType fs (encodeFieldValues testTypes fs) = some s ∧
          s.headers.take s.offset = slots ∧ s.offset = slots.length ∧ s.buffer = data) :=
  ⟨by decide, by decide, by decide, by decide,
    encodeMessage_layout testTypes humanType (.ptrStruct humanBobRecord) (by decide)
      (by decide) (by decide)⟩

/-! ### C9: struct arrays -/

theorem encodeStructSliceVals_map (types : List SprotoType) (st : SprotoType)
    (xs : List Value) (vals : List Bytes)
    (h : encodeStructSliceVals types st xs = some vals) :
    xs.map (encodeMessage types st) = vals.map some := by
  induction xs generalizing vals with
  | nil =>
    simp only [encodeStructSliceVals_nil, Option.some.injEq] at h
    subst h; rfl
  | cons x xs ih =>
    rw [encodeStructSliceVals_cons] at h
    cases hx : encodeMessage types st x with
    | none => simp [hx] at h
    | some val =>
      cases hr : encodeStructSliceVals types st xs with
      | none => simp [hx, hr] at h
      | some rest =>
        simp only [hx, hr, Option.bind_eq_bind, Option.some_bind, Option.map_some',
          Option.some.injEq] at h
        subst h
        simp [hx, ih rest hr]

/-- C9. For every struct array of valid elements, `encodeStructSlice` returns the
concatenation, in input order, of each element's encoded length as a 32-bit little-endian
integer followed by `encodeMessage` of the element; a nil element is encoded as the empty
message `00 00` and so contributes the six bytes `02 00 00 00 00 00`. -/
theorem encodeStructSlice_concat (types : List SprotoType) (sf : SprotoField)
    (st : SprotoType) (xs : List Value) (htypes : ∀ t ∈ types, indexOk t)
    (hst : types[sf.st]? = some st) (hvalid : validElems types st xs = true) :
    ∃ vals : List Bytes, xs.map (encodeMessage types st) = vals.map some ∧
      encodeStructSlice types sf (.structSlice xs) =
        some (some (vals.flatMap (fun val => littleEndian 4 (uint32 val.length) ++ val))) ∧
      (∀ i : Nat, xs[i]? = some Value.nil → vals[i]? = some [0, 0]) ∧
      littleEndian 4 (uint32 ([0, 0] : Bytes).length) ++ [0, 0] = [2, 0, 0, 0, 0, 0] := by
  have hidx := htypes st (List.getElem?_mem hst)
  obtain ⟨vals, hv⟩ := (encodeMessage_total types htypes (.structSlice xs)).2.1 st hidx
    (by simpa [validElemsOf] using hvalid)
  simp only [encodeElems] at hv
  have hmap := encodeStructSliceVals_map types st xs vals hv
  refine ⟨vals, hmap, ?_, ?_, by decide⟩
  · simp [encodeStructSlice, hst, hv, encodeStructSliceBuf_eq, lengthPrefixed]
  · intro i hi
    have h1 : (xs.map (encodeMessage types st))[i]? = some (some [0, 0]) := by
      simp [hi, encodeMessage_nil_eq]
    rw [hmap, List.getElem?_map] at h1
    cases hvi : vals[i]? with
    | none => simp [hvi] at h1
    | some val => simpa [hvi] using h1

/-- C9 on an array of `Human` with a nil element before Alice: the nil element gives
`02 00 00 00 00 00`, Alice the 15-byte message of the `StructArray` vector. -/
theorem encodeStructSlice_concat_witness :
    (∀ t ∈ testTypes, indexOk t) ∧
    testTypes[(arrayField 3 3 .Int .encodeStructSlice 3).st]? = some humanType ∧
    validElems testTypes humanType
      [.nil, .ptrStruct [.ptrString (ascii "Alice"), .ptrInt .Int 13, .nil, .nil]] = true ∧
    encodeStructSlice testTypes (arrayField 3 3 .Int .encodeStructSlice 3)
      (.structSlice [.nil, .ptrStruct [.ptrString (ascii "Alice"), .ptrInt .Int 13, .nil, .nil]])
      = some (some [0x02, 0, 0, 0, 0, 0,
          0x0F, 0, 0, 0, 0x02, 0, 0, 0, 0x1C, 0, 0x05, 0, 0, 0, 0x41, 0x6C, 0x69, 0x63, 0x65]) ∧
    ∃ vals : List Bytes,
      [Value.nil, .ptrStruct [.ptrString (ascii "Alice"), .ptrInt .Int 13, .nil, .nil]].map
        (encodeMessage testTypes humanType) = vals.map some ∧
      encodeStructSlice testTypes (arrayField 3 3 .Int .encodeStructSlice 3)
        (.structSlice [.nil, .ptrStruct [.ptrString (ascii "Alice"), .ptrInt .Int 13, .nil, .nil]])
        = some (some (vals.flatMap (fun val => littleEndian 4 (uint32 val.length) ++ val))) ∧
      (∀ i : Nat, [Value.nil, .ptrStruct [.ptrString (ascii "Alice"), .ptrInt .Int 13, .nil,
        .nil]][i]? = some Value.nil → vals[i]? = some [0, 0]) ∧
      littleEndian 4 (uint32 ([0, 0] : Bytes).length) ++ [0, 0] = [2, 0, 0, 0, 0, 0] :=
  ⟨by decide, by decide, by decide, by decide,
    encodeStructSlice_concat testTypes (arrayField 3 3 .Int .encodeStructSlice 3) humanType
      [.nil, .ptrStruct [.ptrString (ascii "Alice"), .ptrInt .Int 13, .nil, .nil]]
      (by decide) (by decide) (by decide)⟩

/-! ### C10: absent fields -/

theorem fieldItem_congr (types : List SprotoType) (st st1 : SprotoType) (fs : List Value)
    (i j : Nat) (h : st.Fields[i]? = st1.Fields[j]?) :
    fieldItem types st fs i = fieldItem types st1 fs j := by
  simp only [fieldItem, h]

theorem collectItems_congr (types : List SprotoType) (st st1 : SprotoType) (fs : List Value)
    (order order1 : List Nat)
    (h : order.map (fun i => st.Fields[i]?) = order1.map (fun i => st1.Fields[i]?)) :
    collectItems types st fs order = collectItems types st1 fs order1 := by
  induction order generalizing order1 with
  | nil =>
    cases order1 with
    | nil => rfl
    | cons j rest1 => simp at h
  | cons i rest ih =>
    cases order1 with
    | nil => simp at h
    | cons j rest1 =>
      simp only [List.map_cons, List.cons.injEq] at h
      simp only [collectItems, fieldItem_congr types st st1 fs i j h.1, ih rest1 h.2]

theorem collectItems_filter_present (types : List SprotoType) (st : SprotoType)
    (fs : List Value) (order : List Nat) (items : List Item)
    (h : collectItems types st fs order = some items) :
    collectItems types st fs (order.filter (present st fs)) = some items := by
  induction order generalizing items with
  | nil => simpa using h
  | cons i rest ih =>
    simp only [collectItems] at h
    cases hi : fieldItem types st fs i with
    | none => simp [hi] at h
    | some r =>
      obtain ⟨sf, v1, hsf, hv, hcase⟩ := fieldItem_inv types st fs i r hi
      have hpres : present st fs i = !v1.IsNil := by simp [present, hsf, hv]
      cases hn : v1.IsNil with
      | true =>
        have hr : r = none := by
          rcases hcase with ⟨_, hr⟩ | ⟨_, _, _, ⟨_, hr⟩ | ⟨hn1, _⟩⟩
          · exact hr
          · exact hr
          · rw [hn] at hn1; exact absurd hn1 (by simp)
        subst hr
        simp only [hi] at h
        simpa [List.filter_cons, hpres, hn] using ih items h
      | false =>
        cases r with
        | none =>
          simp only [hi] at h
          simp only [List.filter_cons, hpres, hn, Bool.not_false, if_true, collectItems, hi]
          exact ih items h
        | some it =>
          simp only [hi] at h
          cases hc : collectItems types st fs rest with
          | none => simp [hc] at h
          | some l =>
            simp only [hc, Option.map_some', Option.some.injEq] at h
            subst h
            simp only [List.filter_cons, hpres, hn, Bool.not_false, if_true, collectItems, hi,
              ih l hc, Option.map_some']

/-- C10. An absent field contributes nothing. For every valid record, `encodeMessage`
returns the same bytes over every descriptor table whose order index visits the
descriptors of the present fields only (the table with every absent field removed); and
a non-nil record with every field absent is encoded as `00 00`. -/
theorem encodeMessage_absent_removed (types : List SprotoType) (st st1 : SprotoType)
    (fs : List Value) (htypes : ∀ t ∈ types, indexOk t) (hst : indexOk st)
    (hst1 : indexOk st1) (hvalid : validMsg types st (.ptrStruct fs) = true)
    (hrem : st1.order.map (fun i => st1.Fields[i]?) =
      (st.order.filter (present st fs)).map (fun i => st.Fields[i]?)) :
    (∃ out, encodeMessage types st (.ptrStruct fs) = some out ∧
      encodeMessage types st1 (.ptrStruct fs) = some out) ∧
    ((∀ i ∈ st.order, present st fs i = false) →
      encodeMessage types st (.ptrStruct fs) = some [0, 0]) := by
  obtain ⟨items, hi, hcap⟩ := collectItems_of_valid types htypes st hst fs hvalid
  have hf := collectItems_filter_present types st fs st.order items hi
  have h1 : collectItems types st1 fs st1.order = some items := by
    rw [collectItems_congr types st1 st fs st1.order _ hrem, hf]
  have hcap1 : items.length ≤ st1.Fields.length :=
    le_trans (collectItems_length types st1 fs st1.order items h1) (indexOk_length st1 hst1)
  refine ⟨⟨messageBytes items, encodeMessage_of_items types st fs items hi hcap,
    encodeMessage_of_items types st1 fs items h1 hcap1⟩, ?_⟩
  intro habs
  have hnil : st.order.filter (present st fs) = [] := by
    rw [List.filter_eq_nil_iff]
    intro i hi1
    simp [habs i hi1]
  rw [hnil] at hf
  simp only [collectItems, Option.some.injEq] at hf
  subst hf
  rw [encodeMessage_of_items types st fs [] hi hcap]
  rfl

/-- C10 on the first child of the `StructArray` test case: Alice with `Marital` and
`Children` absent is encoded over the table of `Human` as over the table with only `Name`
and `Age`. -/
theorem encodeMessage_absent_removed_witness :
    (∀ t ∈ testTypes, indexOk t) ∧ indexOk humanType ∧ indexOk humanNameAgeType ∧
    validMsg testTypes humanType
      (.ptrStruct [.ptrString (ascii "Alice"), .ptrInt .Int 13, .nil, .nil]) = true ∧
    ((∃ out, encodeMessage testTypes humanType
        (.ptrStruct [.ptrString (ascii "Alice"), .ptrInt .Int 13, .nil, .nil]) = some out ∧
      encodeMessage testTypes humanNameAgeType
        (.ptrStruct [.ptrString (ascii "Alice"), .ptrInt .Int 13, .nil, .nil]) = some out) ∧
    ((∀ i ∈ humanType.order,
        present humanType [.ptrString (ascii "Alice"), .ptrInt .Int 13, .nil, .nil] i = false) →
      encodeMessage testTypes humanType
        (.ptrStruct [.ptrString (ascii "Alice"), .ptrInt .Int 13, .nil, .nil]) = some [0, 0])) ∧
    validMsg testTypes humanType (.ptrStruct humanEmptyRecord) = true ∧
    (∀ i ∈ humanType.order, present humanType humanEmptyRecord i = false) ∧
    encodeMessage testTypes humanType (.ptrStruct humanEmptyRecord) = some [0, 0] :=
  ⟨by decide, by decide, by decide, by decide,
    encodeMessage_absent_removed testTypes humanType humanNameAgeType
      [.ptrString (ascii "Alice"), .ptrInt .Int 13, .nil, .nil] (by decide) (by decide)
      (by decide) (by decide) (by decide),
    by decide, by decide,
    (encodeMessage_absent_removed testTypes humanType ⟨humanType.Fields, [], []⟩
      humanEmptyRecord (by decide) (by decide) (by decide) (by decide) (by decide)).2
      (by decide)⟩

/-! ### Injectivity of the byte-level encodings -/

theorem littleEndian_inj (w a b : Nat) (h : littleEndian w a = littleEndian w b) :
    a % 256 ^ w = b % 256 ^ w := by
  induction w generalizing a b with
  | zero => simp [Nat.mod_one]
  | succ w ih =>
    simp only [littleEndian, List.cons.injEq] at h
    have h2 := ih _ _ h.2
    rw [pow_succ', Nat.mod_mul, Nat.mod_mul, h.1, h2]

theorem littleEndian_inj_lt (w a b : Nat) (ha : a < 256 ^ w) (hb : b < 256 ^ w)
    (h : littleEndian w a = littleEndian w b) : a = b := by
  have := littleEndian_inj w a b h
  rwa [Nat.mod_eq_of_lt ha, Nat.mod_eq_of_lt hb] at this

theorem flatMap_inj_of_length {α : Type} (f : α → Bytes) (c : Nat) (hc : 0 < c)
    (hlen : ∀ x, (f x).length = c) (xs ys : List α)
    (hinj : ∀ x ∈ xs, ∀ y ∈ ys, f x = f y → x = y)
    (h : xs.flatMap f = ys.flatMap f) : xs = ys := by
  induction xs generalizing ys with
  | nil =>
    cases ys with
    | nil => rfl
    | cons y ys =>
      have := congrArg List.length h
      simp only [List.flatMap_nil, List.length_nil, List.flatMap_cons, List.length_append,
        hlen] at this
      omega
  | cons x xs ih =>
    cases ys with
    | nil =>
      have := congrArg List.length h
      simp only [List.flatMap_nil, List.length_nil, List.flatMap_cons, List.length_append,
        hlen] at this
      omega
    | cons y ys =>
      simp only [List.flatMap_cons] at h
      obtain ⟨h1, h2⟩ := List.append_inj h (by rw [hlen, hlen])
      have hxy := hinj x (List.mem_cons_self _ _) y (List.mem_cons_self _ _) h1
      rw [hxy, ih ys (fun a ha b hb => hinj a (List.mem_cons_of_mem _ ha) b
        (List.mem_cons_of_mem _ hb)) h2]

/-- Two length-prefixed entries that start equal byte sequences are equal, and so are the
rests. -/
theorem prefixed_cancel (a b r1 r2 : Bytes) (ha : a.length < 2 ^ 32) (hb : b.length < 2 ^ 32)
    (h : littleEndian 4 (uint32 a.length) ++ a ++ r1 =
      littleEndian 4 (uint32 b.length) ++ b ++ r2) : a = b ∧ r1 = r2 := by
  rw [List.append_assoc, List.append_assoc] at h
  obtain ⟨h1, h2⟩ := List.append_inj h (by rw [littleEndian_length, littleEndian_length])
  have hlen : a.length = b.length := by
    have := littleEndian_inj 4 _ _ h1
    simp only [uint32] at this
    norm_num at this
    omega
  exact List.append_inj h2 hlen

theorem lengthPrefixed_cons (x : Bytes) (xs : List Bytes) :
    lengthPrefixed (x :: xs) = littleEndian 4 (uint32 x.length) ++ x ++ lengthPrefixed xs := by
  simp [lengthPrefixed]

theorem lengthPrefixed_inj (xs ys : List Bytes) (hx : ∀ x ∈ xs, x.length < 2 ^ 32)
    (hy : ∀ y ∈ ys, y.length < 2 ^ 32) (h : lengthPrefixed xs = lengthPrefixed ys) :
    xs = ys := by
  induction xs generalizing ys with
  | nil =>
    cases ys with
    | nil => rfl
    | cons y ys =>
      have := congrArg List.length h
      rw [lengthPrefixed_cons] at this
      simp only [show lengthPrefixed ([] : List Bytes) = [] from rfl, List.length_nil,
        List.length_append, littleEndian_length] at this
      omega
  | cons x xs ih =>
    cases ys with
    | nil =>
      have := congrArg List.length h
      rw [lengthPrefixed_cons] at this
      simp only [show lengthPrefixed ([] : List Bytes) = [] from rfl, List.length_nil,
        List.length_append, littleEndian_length] at this
      omega
    | cons y ys =>
      rw [lengthPrefixed_cons, lengthPrefixed_cons] at h
      obtain ⟨h1, h2⟩ := prefixed_cancel x y _ _ (hx x (List.mem_cons_self _ _))
        (hy y (List.mem_cons_self _ _)) h
      rw [h1, ih ys (fun a ha => hx a (List.mem_cons_of_mem _ ha))
        (fun a ha => hy a (List.mem_cons_of_mem _ ha)) h2]

theorem lengthPrefixed_elem_lt (xs : List Bytes) (h : (lengthPrefixed xs).length < 2 ^ 32) :
    ∀ x ∈ xs, x.length < 2 ^ 32 := by
  induction xs with
  | nil => simp
  | cons x xs ih =>
    rw [lengthPrefixed_cons] at h
    simp only [List.length_append, littleEndian_length] at h
    intro y hy
    rcases List.mem_cons.1 hy with rfl | hy
    · omega
    · exact ih (by omega) y hy

theorem twosComplement_inj (w : Nat) (x y : Int)
    (hx : -2 ^ (8 * w - 1) ≤ x ∧ x < 2 ^ (8 * w - 1))
    (hy : -2 ^ (8 * w - 1) ≤ y ∧ y < 2 ^ (8 * w - 1)) (hw : 0 < w)
    (h : twosComplement w x = twosComplement w y) : x = y := by
  unfold twosComplement at h
  have hp : (2 : Int) ^ (8 * w) = 2 * 2 ^ (8 * w - 1) := by
    rw [← pow_succ']; congr 1; omega
  have hpos : (0 : Int) < 2 ^ (8 * w - 1) := by positivity
  have h1 : x % 2 ^ (8 * w) = y % 2 ^ (8 * w) := by
    have hx0 : 0 ≤ x % 2 ^ (8 * w) := Int.emod_nonneg _ (by positivity)
    have hy0 : 0 ≤ y % 2 ^ (8 * w) := Int.emod_nonneg _ (by positivity)
    omega
  have h2 := Int.emod_emod_of_dvd
  have hd : (2 : Int) ^ (8 * w) ∣ x - y := Int.ModEq.dvd (h1.symm)
  obtain ⟨k, hk⟩ := hd
  rw [hp] at hk
  have : k = 0 := by
    by_contra hne
    rcases Int.lt_or_gt_of_ne hne with hlt | hgt
    · have : 2 * 2 ^ (8 * w - 1) * k ≤ 2 * 2 ^ (8 * w - 1) * (-1) :=
        Int.mul_le_mul_of_nonneg_left (by omega) (by omega)
      omega
    · have : 2 * 2 ^ (8 * w - 1) * 1 ≤ 2 * 2 ^ (8 * w - 1) * k :=
        Int.mul_le_mul_of_nonneg_left (by omega) (by omega)
      omega
  subst this
  omega

/-! ### What a field of a strict record puts on the wire -/

theorem headerEncodeInt_eq (k : Kind) (x : Int) (hx : inRange k x) :
    headerEncodeInt (.ptrInt k x) =
      some (if 0 ≤ x ∧ x ≤ 0x7FFE then 2 * (x.toNat + 1) else 0, false) := by
  have hiff := embedded_iff k x hx
  have hn : headerEncodeInt (.ptrInt k x) =
      if uint64OfInt x ≤ MaxEmbeddedInt then
        some (uint16 (uint64 (2 * (uint64OfInt x + 1))), false) else some (0, false) := by
    cases k <;> simp [headerEncodeInt, Value.IsNil]
  rw [hn]
  by_cases h : 0 ≤ x ∧ x ≤ 0x7FFE
  · rw [if_pos (hiff.2 h), if_pos h, uint64OfInt_nonneg x h.1 (by omega)]
    have e1 : uint16 (uint64 (2 * (x.toNat + 1))) = 2 * (x.toNat + 1) := by
      simp only [uint16, uint64]; omega
    rw [e1]
  · rw [if_neg (fun hh => h (hiff.1 hh)), if_neg h]

theorem twosComplement_lt (w : Nat) (x : Int) : twosComplement w x < 256 ^ w := by
  unfold twosComplement
  have h1 : (0 : Int) < 2 ^ (8 * w) := by positivity
  have h2 := Int.emod_lt_of_pos x h1
  have h3 := Int.emod_nonneg x (ne_of_gt h1)
  have e : (256 : Nat) ^ w = 2 ^ (8 * w) := by
    rw [show (256 : Nat) = 2 ^ 8 by norm_num, ← pow_mul]
  rw [e]
  have : ((x % 2 ^ (8 * w)).toNat : Int) < ((2 ^ (8 * w) : Nat) : Int) := by
    rw [Int.toNat_of_nonneg h3]; push_cast; exact h2
  exact_mod_cast this

theorem inRange_signed64 (k : Kind) (x : Int) (hk : inDefaultCase k = false)
    (hx : inRange k x) : -2 ^ 63 ≤ x ∧ x < 2 ^ 63 := by
  cases k <;> simp only [inRange] at hx <;> simp [inDefaultCase] at hk <;> omega

theorem littleEndian_twosComplement_inj (w : Nat) (hw : 0 < w) (x y : Int)
    (hx : -2 ^ (8 * w - 1) ≤ x ∧ x < 2 ^ (8 * w - 1))
    (hy : -2 ^ (8 * w - 1) ≤ y ∧ y < 2 ^ (8 * w - 1))
    (h : littleEndian w (twosComplement w x) = littleEndian w (twosComplement w y)) :
    x = y :=
  twosComplement_inj w x y hx hy hw
    (littleEndian_inj_lt w _ _ (twosComplement_lt w x) (twosComplement_lt w y) h)

/-- A present integer of a host kind outside the `default` case of `extractInt` is
determined by its header slot and its data payload. -/
theorem int_field_inj (k : Kind) (x y : Int) (hk : inDefaultCase k = false)
    (hx : inRange k x) (hy : inRange k y)
    (hh : headerEncodeInt (.ptrInt k x) = headerEncodeInt (.ptrInt k y))
    (hd : encodeInt (.ptrInt k x) = encodeInt (.ptrInt k y)) : x = y := by
  rw [headerEncodeInt_eq k x hx, headerEncodeInt_eq k y hy] at hh
  rw [encodeInt_spec k x hk hx, encodeInt_spec k y hk hy] at hd
  simp only [Option.some.injEq, Prod.mk.injEq, and_true] at hh hd
  have hx64 := inRange_signed64 k x hk hx
  have hy64 := inRange_signed64 k y hk hy
  by_cases ex : 0 ≤ x ∧ x ≤ 0x7FFE
  · by_cases ey : 0 ≤ y ∧ y ≤ 0x7FFE
    · rw [if_pos ex, if_pos ey] at hh; omega
    · rw [if_pos ex, if_neg ey] at hh; omega
  · by_cases ey : 0 ≤ y ∧ y ≤ 0x7FFE
    · rw [if_neg ex, if_pos ey] at hh; omega
    · rw [if_neg ex, if_neg ey] at hd
      by_cases fx : fitsInt32 x
      · by_cases fy : fitsInt32 y
        · rw [if_pos fx, if_pos fy] at hd
          simp only [Option.some.injEq] at hd
          unfold fitsInt32 at fx fy
          exact littleEndian_twosComplement_inj 4 (by decide) x y
            (by norm_num; omega) (by norm_num; omega) hd
        · rw [if_pos fx, if_neg fy] at hd
          simp only [Option.some.injEq] at hd
          have := congrArg List.length hd
          simp [littleEndian_length] at this
      · by_cases fy : fitsInt32 y
        · rw [if_neg fx, if_pos fy] at hd
          simp only [Option.some.injEq] at hd
          have := congrArg List.length hd
          simp [littleEndian_length] at this
        · rw [if_neg fx, if_neg fy] at hd
          simp only [Option.some.injEq] at hd
          exact littleEndian_twosComplement_inj 8 (by decide) x y
            (by norm_num; omega) (by norm_num; omega) hd

theorem intSlice_inj (k : Kind) (xs ys : List Int) (hk : inDefaultCase k = false)
    (hx : ∀ x ∈ xs, inRange k x) (hy : ∀ y ∈ ys, inRange k y)
    (hd : encodeIntSlice (.intSlice k xs) = encodeIntSlice (.intSlice k ys)) : xs = ys := by
  rw [encodeIntSlice_spec k xs hk hx, encodeIntSlice_spec k ys hk hy] at hd
  simp only [Option.some.injEq, List.cons.injEq] at hd
  obtain ⟨hw, hf⟩ := hd
  rw [← hw] at hf
  have hw4 : intSliceWidth xs = 4 ∨ intSliceWidth xs = 8 := by
    unfold intSliceWidth; split <;> simp
  apply flatMap_inj_of_length _ (intSliceWidth xs) (by omega)
    (fun x => littleEndian_length _ _) xs ys _ hf
  intro x hxm y hym hxy
  rcases hw4 with h4 | h8
  · have fx : ∀ x ∈ xs, fitsInt32 x := by
      by_contra hne
      simp [intSliceWidth, hne] at h4
    have fy : ∀ y ∈ ys, fitsInt32 y := by
      by_contra hne
      rw [h4] at hw
      simp [intSliceWidth, hne] at hw
    rw [h4] at hxy
    have f1 := fx x hxm
    have f2 := fy y hym
    unfold fitsInt32 at f1 f2
    exact littleEndian_twosComplement_inj 4 (by decide) x y
      (by norm_num; omega) (by norm_num; omega) hxy
  · rw [h8] at hxy
    have f1 := inRange_signed64 k x hk (hx x hxm)
    have f2 := inRange_signed64 k y hk (hy y hym)
    exact littleEndian_twosComplement_inj 8 (by decide) x y
      (by norm_num; omega) (by norm_num; omega) hxy

theorem doubleSlice_inj (xs ys : List Nat) (hx : ∀ x ∈ xs, x < 2 ^ 64)
    (hy : ∀ y ∈ ys, y < 2 ^ 64)
    (hd : encodeDoubleSlice (.doubleSlice xs) = encodeDoubleSlice (.doubleSlice ys)) :
    xs = ys := by
  rw [encodeDoubleSlice_eq, encodeDoubleSlice_eq] at hd
  simp only [Option.some.injEq, List.cons.injEq, true_and] at hd
  apply flatMap_inj_of_length _ 8 (by decide) (fun x => littleEndian_length _ _) xs ys _ hd
  intro x hxm y hym hxy
  exact littleEndian_inj_lt 8 x y (by have := hx x hxm; norm_num at this ⊢; omega)
    (by have := hy y hym; norm_num at this ⊢; omega) hxy

theorem boolSlice_inj (xs ys : List Bool)
    (hd : encodeBoolSlice (.boolSlice xs) = encodeBoolSlice (.boolSlice ys)) : xs = ys := by
  rw [encodeBoolSlice_eq, encodeBoolSlice_eq] at hd
  simp only [Option.some.injEq] at hd
  have hinj : Function.Injective (fun x : Bool => if x then (1 : Nat) else 0) := by
    intro a b hab
    cases a <;> cases b <;> simp at hab ⊢
  exact List.map_injective_iff.2 hinj hd

theorem strictFields_eq (types : List SprotoType) (fs : List Value) :
    strictFields types fs = fs.map (fun v1 sf => strictField types sf v1) := by
  induction fs with
  | nil => simp [strictFields]
  | cons v1 vs ih => simp only [strictFields, List.map_cons, ih, strictField]

theorem strictMsg_ptrStruct (types : List SprotoType) (st : SprotoType) (fs : List Value) :
    strictMsg types st (.ptrStruct fs) = true ↔
      fs.length = st.Fields.length ∧
      ∀ sf ∈ st.Fields, ∃ v1, fs[sf.field]? = some v1 ∧ strictField types sf v1 = true := by
  simp only [strictMsg, strictFields_eq, Bool.and_eq_true, decide_eq_true_eq,
    List.all_eq_true, List.getElem?_map]
  constructor
  · rintro ⟨hl, h⟩
    refine ⟨hl, fun sf hsf => ?_⟩
    have := h sf hsf
    cases hv : fs[sf.field]? with
    | none => simp [hv] at this
    | some v1 => exact ⟨v1, rfl, by simpa [hv] using this⟩
  · rintro ⟨hl, h⟩
    refine ⟨hl, fun sf hsf => ?_⟩
    obtain ⟨v1, hv, hok⟩ := h sf hsf
    simp [hv, hok]

theorem strictElems_iff (types : List SprotoType) (st : SprotoType) (xs : List Value) :
    strictElems types st xs = true ↔
      ∀ x ∈ xs, x.IsNil = true ∨ (strictMsg types st x = true ∧ hasPresentField x = true) := by
  induction xs with
  | nil => simp [strictElems]
  | cons x xs ih => simp [strictElems, ih]

theorem payloadFits_inv (types : List SprotoType) (sf : SprotoField) (v1 : Value)
    (h : payloadFits types sf v1 = true) (hn : v1.IsNil = false) (e : EncFn)
    (he : sf.enc = some e) :
    ∃ d, callEnc types sf v1 = some d ∧ ∀ p, d = some p → p.length < 2 ^ 32 := by
  simp only [payloadFits, hn, he, Option.isNone_some, Bool.false_or] at h
  cases hc : callEnc types sf v1 with
  | none => simp [hc] at h
  | some d =>
    refine ⟨d, rfl, ?_⟩
    intro p hp
    subst hp
    simpa [hc] using h

/-- The header slot and the data of a present field of a strict record: the header encoder
returns a slot, the encoder (if the descriptor has one) returns without a panic, the field
has data exactly when its slot is 0, and the data is shorter than `2^32` bytes. -/
theorem strictField_item (types : List SprotoType) (sf : SprotoField) (v1 : Value)
    (h : strictField types sf v1 = true) (hn : v1.IsNil = false) :
    ∃ slot d, callHeaderEnc sf v1 = some (slot, false) ∧
      ((sf.enc = none ∧ d = none) ∨ (sf.enc ≠ none ∧ callEnc types sf v1 = some d)) ∧
      (d = none ↔ slot ≠ 0) ∧ (∀ p, d = some p → p.length < 2 ^ 32) := by
  unfold strictField at h
  simp only [Bool.and_eq_true] at h
  obtain ⟨hs, hp⟩ := h
  unfold strictFieldWith at hs
  split at hs
  case h_1 => simp [Value.IsNil] at hn
  case h_2 b hh he =>
    refine ⟨if b then 4 else 2, none, ?_, Or.inl ⟨he, rfl⟩, ?_, by simp⟩
    · cases b <;> simp [callHeaderEnc, hh, headerEncodeBool, Value.IsNil, uint16]
    · cases b <;> simp
  case h_3 k x hh he =>
    simp only [Bool.and_eq_true, decide_eq_true_eq, Bool.not_eq_true'] at hs
    obtain ⟨⟨_, hx⟩, hk⟩ := hs
    obtain ⟨d, hd, hlen⟩ := payloadFits_inv types sf _ hp hn _ he
    refine ⟨_, d, by simp only [callHeaderEnc, hh]; exact headerEncodeInt_eq k x hx,
      Or.inr ⟨by simp [he], hd⟩, ?_, hlen⟩
    simp only [callEnc, he, encodeInt_spec k x hk hx, Option.some.injEq] at hd
    subst hd
    by_cases ex : 0 ≤ x ∧ x ≤ 0x7FFE
    · simp only [ex, and_self, if_true, true_iff]; omega
    · simp only [ex, if_false]
      by_cases fx : fitsInt32 x <;> simp [fx]
  case h_14 => exact absurd hs (by simp)
  case h_8 k xs hh he =>
    simp only [Bool.and_eq_true, decide_eq_true_eq, Bool.not_eq_true', List.all_eq_true] at hs
    obtain ⟨d, hd, hlen⟩ := payloadFits_inv types sf _ hp hn _ he
    refine ⟨0, d, by simp [callHeaderEnc, hh, headerEncodeDefault, Value.IsNil],
      Or.inr ⟨by simp [he], hd⟩, ?_, hlen⟩
    simp only [ne_eq, not_true_eq_false, iff_false]
    intro hdn
    subst hdn
    simp only [callEnc, he] at hd
    rw [encodeIntSlice_eq k xs hs.2] at hd
    simp at hd
  case h_12 fs hh he =>
    obtain ⟨d, hd, hlen⟩ := payloadFits_inv types sf _ hp hn _ he
    refine ⟨0, d, by simp [callHeaderEnc, hh, headerEncodeDefault, Value.IsNil],
      Or.inr ⟨by simp [he], hd⟩, ?_, hlen⟩
    simp only [ne_eq, not_true_eq_false, iff_false]
    intro hdn
    subst hdn
    simp only [callEnc, he, encodeStruct] at hd
    cases ht : types[sf.st]? with
    | none => simp [ht] at hd
    | some st1 =>
      simp only [ht] at hd
      cases hm : encodeMessage types st1 (Value.ptrStruct fs) <;> simp [hm] at hd
  case h_13 xs hh he =>
    obtain ⟨d, hd, hlen⟩ := payloadFits_inv types sf _ hp hn _ he
    refine ⟨0, d, by simp [callHeaderEnc, hh, headerEncodeDefault, Value.IsNil],
      Or.inr ⟨by simp [he], hd⟩, ?_, hlen⟩
    simp only [ne_eq, not_true_eq_false, iff_false]
    intro hdn
    subst hdn
    simp only [callEnc, he, encodeStructSlice] at hd
    cases ht : types[sf.st]? with
    | none => simp [ht] at hd
    | some st1 =>
      simp only [ht] at hd
      cases hm : encodeStructSliceVals types st1 xs with
      | none => simp [hm] at hd
      | some vals => simp [hm, encodeStructSliceBuf_eq] at hd
  all_goals
    rename_i hh he
    obtain ⟨d, hd, hlen⟩ := payloadFits_inv types sf _ hp hn _ he
    refine ⟨0, d, by simp [callHeaderEnc, hh, headerEncodeDefault, Value.IsNil],
      Or.inr ⟨by simp [he], hd⟩, ?_, hlen⟩
    simp only [ne_eq, not_true_eq_false, iff_false]
    intro hdn
    subst hdn
    simp only [callEnc, he] at hd
    first
      | (rw [encodeDouble_eq] at hd; simp at hd)
      | (rw [encodeString_eq] at hd; simp at hd)
      | (rw [encodeBytes_eq] at hd; simp at hd)
      | (rw [encodeBoolSlice_eq] at hd; simp at hd)
      | (rw [encodeDoubleSlice_eq] at hd; simp at hd)
      | (rw [encodeStringSlice_eq] at hd; simp at hd)
      | (rw [encodeBytesSlice_eq] at hd; simp at hd)

theorem strictField_shape (types : List SprotoType) (sf : SprotoField) (v : Value)
    (m e : SprotoType → Bool) (h : strictFieldWith types sf v m e = true)
    (hn : v.IsNil = false) :
    (sf.enc = none ∧ sf.headerEnc = .headerEncodeBool ∧ ∃ b, v = .ptrBool b) ∨
    (∃ f, sf.enc = some f ∧
      ((f = .encodeInt ∧ sf.headerEnc = .headerEncodeInt ∧
          ∃ k x, v = .ptrInt k x ∧ inRange k x ∧ k = sf.hostKind ∧
          inDefaultCase k = false) ∨
       (f = .encodeDouble ∧ ∃ b, v = .ptrDouble b ∧ b < 2 ^ 64) ∨
       (f = .encodeString ∧ ∃ s, v = .ptrString s) ∨
       (f = .encodeBytes ∧ ∃ s, v = .bytes s) ∨
       (f = .encodeBoolSlice ∧ ∃ xs, v = .boolSlice xs) ∨
       (f = .encodeIntSlice ∧ ∃ k xs, v = .intSlice k xs ∧ (∀ x ∈ xs, inRange k x) ∧
          k = sf.hostKind ∧ inDefaultCase k = false) ∨
       (f = .encodeDoubleSlice ∧ ∃ xs, v = .doubleSlice xs ∧ ∀ x ∈ xs, x < 2 ^ 64) ∨
       (f = .encodeStringSlice ∧ ∃ xs, v = .stringSlice xs) ∨
       (f = .encodeBytesSlice ∧ ∃ xs, v = .bytesSlice xs) ∨
       (f = .encodeStruct ∧ ∃ fs st, v = .ptrStruct fs ∧ types[sf.st]? = some st ∧
          m st = true) ∨
       (f = .encodeStructSlice ∧ ∃ xs st, v = .structSlice xs ∧ types[sf.st]? = some st ∧
          e st = true))) := by
  unfold strictFieldWith at h
  split at h
  case h_1 => simp [Value.IsNil] at hn
  case h_2 b hh he => exact Or.inl ⟨he, hh, b, rfl⟩
  case h_3 k x hh he =>
    simp only [Bool.and_eq_true, decide_eq_true_eq, Bool.not_eq_true'] at h
    exact Or.inr ⟨_, he, Or.inl ⟨rfl, hh, k, x, rfl, h.1.2, h.1.1, h.2⟩⟩
  case h_4 b hh he =>
    simp only [decide_eq_true_eq] at h
    exact Or.inr ⟨_, he, Or.inr (Or.inl ⟨rfl, b, rfl, h⟩)⟩
  case h_5 s hh he => exact Or.inr ⟨_, he, Or.inr (Or.inr (Or.inl ⟨rfl, s, rfl⟩))⟩
  case h_6 s hh he => exact Or.inr ⟨_, he, Or.inr (Or.inr (Or.inr (Or.inl ⟨rfl, s, rfl⟩)))⟩
  case h_7 xs hh he =>
    exact Or.inr ⟨_, he, Or.inr (Or.inr (Or.inr (Or.inr (Or.inl ⟨rfl, xs, rfl⟩))))⟩
  case h_8 k xs hh he =>
    simp only [Bool.and_eq_true, decide_eq_true_eq, Bool.not_eq_true', List.all_eq_true] at h
    exact Or.inr ⟨_, he, Or.inr (Or.inr (Or.inr (Or.inr (Or.inr (Or.inl
      ⟨rfl, k, xs, rfl, h.2, h.1.1, h.1.2⟩)))))⟩
  case h_9 xs hh he =>
    simp only [List.all_eq_true, decide_eq_true_eq] at h
    exact Or.inr ⟨_, he, Or.inr (Or.inr (Or.inr (Or.inr (Or.inr (Or.inr (Or.inl
      ⟨rfl, xs, rfl, h⟩))))))⟩
  case h_10 xs hh he =>
    exact Or.inr ⟨_, he, Or.inr (Or.inr (Or.inr (Or.inr (Or.inr (Or.inr (Or.inr (Or.inl
      ⟨rfl, xs, rfl⟩)))))))⟩
  case h_11 xs hh he =>
    exact Or.inr ⟨_, he, Or.inr (Or.inr (Or.inr (Or.inr (Or.inr (Or.inr (Or.inr (Or.inr
      (Or.inl ⟨rfl, xs, rfl⟩))))))))⟩
  case h_12 fs hh he =>
    cases ht : types[sf.st]? with
    | none => simp [ht] at h
    | some st =>
      simp only [ht] at h
      exact Or.inr ⟨_, he, Or.inr (Or.inr (Or.inr (Or.inr (Or.inr (Or.inr (Or.inr (Or.inr
        (Or.inr (Or.inl ⟨rfl, fs, st, rfl, rfl, h⟩)))))))))⟩
  case h_13 xs hh he =>
    cases ht : types[sf.st]? with
    | none => simp [ht] at h
    | some st =>
      simp only [ht] at h
      exact Or.inr ⟨_, he, Or.inr (Or.inr (Or.inr (Or.inr (Or.inr (Or.inr (Or.inr (Or.inr
        (Or.inr (Or.inr ⟨rfl, xs, st, rfl, rfl, h⟩)))))))))⟩
  case h_14 => exact absurd h (by simp)

/-- A present field of a strict record is determined by its header slot and its data,
given that the nested records and the struct-array elements are. -/
theorem strictField_inj (types : List SprotoType) (sf : SprotoField) (v1 v2 : Value)
    (h1 : strictField types sf v1 = true) (h2 : strictField types sf v2 = true)
    (hn1 : v1.IsNil = false) (hn2 : v2.IsNil = false)
    (hh : callHeaderEnc sf v1 = callHeaderEnc sf v2)
    (hd : sf.enc ≠ none → callEnc types sf v1 = callEnc types sf v2)
    (hmsg : ∀ st, types[sf.st]? = some st → strictMsg types st v1 = true →
      strictMsg types st v2 = true →
      encodeMessage types st v1 = encodeMessage types st v2 → v1 = v2)
    (helems : ∀ st xs ys vals, types[sf.st]? = some st → v1 = .structSlice xs →
      v2 = .structSlice ys → strictElems types st xs = true → strictElems types st ys = true →
      encodeStructSliceVals types st xs = some vals →
      encodeStructSliceVals types st ys = some vals → xs = ys) :
    v1 = v2 := by
  unfold strictField at h1 h2
  simp only [Bool.and_eq_true] at h1 h2
  obtain ⟨hs1, hp1⟩ := h1
  obtain ⟨hs2, hp2⟩ := h2
  rcases strictField_shape types sf v1 _ _ hs1 hn1 with ⟨he1, hb1, b1, rfl⟩ | ⟨f, he1, D1⟩
  · rcases strictField_shape types sf v2 _ _ hs2 hn2 with ⟨_, _, b2, rfl⟩ | ⟨f2, he2, _⟩
    · simp only [callHeaderEnc, hb1, headerEncodeBool, Value.IsNil, Bool.false_eq_true,
        if_false, Option.some.injEq, Prod.mk.injEq, and_true, uint16] at hh
      cases b1 <;> cases b2 <;> simp at hh ⊢
    · rw [he1] at he2; cases he2
  · rcases strictField_shape types sf v2 _ _ hs2 hn2 with ⟨he2, _⟩ | ⟨f2, he2, D2⟩
    · rw [he1] at he2; cases he2
    · have hf : f2 = f := by rw [he1] at he2; exact (Option.some.inj he2).symm
      subst hf
      have hd1 := hd (by simp [he1])
      obtain ⟨d1, hc1, hl1⟩ := payloadFits_inv types sf v1 hp1 hn1 _ he1
      obtain ⟨d2, hc2, hl2⟩ := payloadFits_inv types sf v2 hp2 hn2 _ he1
      simp only [callEnc, he1] at hd1 hc1 hc2
      rcases D1 with ⟨rfl, hi, k, x, rfl, hx, hk, hdk⟩ | ⟨rfl, b, rfl, hb⟩ | ⟨rfl, s, rfl⟩ |
        ⟨rfl, s, rfl⟩ | ⟨rfl, xs, rfl⟩ | ⟨rfl, k, xs, rfl, hx, hk, hdk⟩ | ⟨rfl, xs, rfl, hx⟩ |
        ⟨rfl, xs, rfl⟩ | ⟨rfl, xs, rfl⟩ | ⟨rfl, fs, st, rfl, ht, hm⟩ |
        ⟨rfl, xs, st, rfl, ht, hm⟩ <;>
        simp only [reduceCtorEq, false_and, false_or, or_false, true_and] at D2
      · obtain ⟨_, k2, y, rfl, hy, hk2, _⟩ := D2
        have : k2 = k := by rw [hk, hk2]
        subst this
        simp only [callHeaderEnc, hi] at hh
        rw [int_field_inj k2 x y hdk hx hy hh hd1]
      · obtain ⟨b2, rfl, hb2⟩ := D2
        rw [encodeDouble_eq, encodeDouble_eq] at hd1
        simp only [Option.some.injEq] at hd1
        rw [littleEndian_inj_lt 8 b b2 (by norm_num at hb ⊢; omega)
          (by norm_num at hb2 ⊢; omega) hd1]
      · obtain ⟨s2, rfl⟩ := D2
        rw [encodeString_eq, encodeString_eq] at hd1
        simp only [Option.some.injEq] at hd1
        rw [hd1]
      · obtain ⟨s2, rfl⟩ := D2
        rw [encodeBytes_eq, encodeBytes_eq] at hd1
        simp only [Option.some.injEq] at hd1
        rw [hd1]
      · obtain ⟨ys, rfl⟩ := D2
        rw [boolSlice_inj xs ys hd1]
      · obtain ⟨k2, ys, rfl, hy, hk2, _⟩ := D2
        have : k2 = k := by rw [hk, hk2]
        subst this
        rw [intSlice_inj k2 xs ys hdk hx hy hd1]
      · obtain ⟨ys, rfl, hy⟩ := D2
        rw [doubleSlice_inj xs ys hx hy hd1]
      · obtain ⟨ys, rfl⟩ := D2
        rw [encodeStringSlice_eq] at hc1 hd1
        rw [encodeStringSlice_eq] at hc2 hd1
        simp only [Option.some.injEq] at hd1 hc1 hc2
        rw [lengthPrefixed_inj xs ys
          (lengthPrefixed_elem_lt xs (hl1 _ hc1.symm))
          (lengthPrefixed_elem_lt ys (hl2 _ hc2.symm)) hd1]
      · obtain ⟨ys, rfl⟩ := D2
        rw [encodeBytesSlice_eq] at hc1 hd1
        rw [encodeBytesSlice_eq] at hc2 hd1
        simp only [Option.some.injEq] at hd1 hc1 hc2
        rw [lengthPrefixed_inj xs ys
          (lengthPrefixed_elem_lt xs (hl1 _ hc1.symm))
          (lengthPrefixed_elem_lt ys (hl2 _ hc2.symm)) hd1]
      · obtain ⟨fs2, st2, rfl, ht2, hm2⟩ := D2
        have : st2 = st := by rw [ht] at ht2; exact (Option.some.inj ht2).symm
        subst this
        simp only [encodeStruct, ht] at hd1 hc1 hc2
        cases e1 : encodeMessage types st2 (Value.ptrStruct fs) with
        | none => simp [e1] at hc1
        | some o1 =>
          cases e2 : encodeMessage types st2 (Value.ptrStruct fs2) with
          | none => simp [e2] at hc2
          | some o2 =>
            simp only [e1, e2, Option.map_some', Option.some.injEq] at hd1
            exact hmsg st2 ht hm hm2 (by rw [e1, e2, hd1])
      · obtain ⟨ys, st2, rfl, ht2, hm2⟩ := D2
        have : st2 = st := by rw [ht] at ht2; exact (Option.some.inj ht2).symm
        subst this
        simp only [encodeStructSlice, ht] at hd1 hc1 hc2
        simp only [strictElemsOf] at hm hm2
        cases e1 : encodeStructSliceVals types st2 xs with
        | none => simp [e1] at hc1
        | some vals1 =>
          cases e2 : encodeStructSliceVals types st2 ys with
          | none => simp [e2] at hc2
          | some vals2 =>
            simp only [e1, e2, Option.bind_eq_bind, Option.some_bind, encodeStructSliceBuf_eq,
              Option.map_some', Option.some.injEq] at hd1 hc1 hc2
            have hv : vals1 = vals2 := lengthPrefixed_inj vals1 vals2
              (lengthPrefixed_elem_lt vals1 (hl1 _ hc1.symm))
              (lengthPrefixed_elem_lt vals2 (hl2 _ hc2.symm)) hd1
            rw [helems st2 xs ys vals2 ht rfl rfl hm hm2 (by rw [e1, hv]) e2]

/-! ### The emitted fields of a strict record -/

theorem callHeaderEnc_nil (sf : SprotoField) : callHeaderEnc sf .nil = some (0, true) := by
  unfold callHeaderEnc
  cases sf.headerEnc <;> simp [headerEncodeDefault, headerEncodeBool, headerEncodeInt,
    Value.IsNil]

theorem IsNil_eq_true (v : Value) (h : v.IsNil = true) : v = .nil := by
  cases v <;> simp [Value.IsNil] at h ⊢

theorem strict_fieldItem (types : List SprotoType) (st : SprotoType) (fs : List Value)
    (i : Nat) (sf : SprotoField) (v1 : Value) (hsf : st.Fields[i]? = some sf)
    (hv : fs[sf.field]? = some v1) (ht : 0 ≤ sf.Tag)
    (hs : strictField types sf v1 = true) :
    (v1.IsNil = true ∧ fieldItem types st fs i = some none) ∨
    (v1.IsNil = false ∧ ∃ slot d, fieldItem types st fs i = some (some (sf.Tag, slot, d)) ∧
      callHeaderEnc sf v1 = some (slot, false) ∧
      ((sf.enc = none ∧ d = none) ∨ (sf.enc ≠ none ∧ callEnc types sf v1 = some d)) ∧
      (d = none ↔ slot ≠ 0) ∧ (∀ p, d = some p → p.length < 2 ^ 32)) := by
  have htn : ¬ sf.Tag < 0 := by omega
  cases hn : v1.IsNil with
  | true =>
    left
    have := IsNil_eq_true v1 hn
    subst this
    simp [fieldItem, hsf, hv, htn, callHeaderEnc_nil]
  | false =>
    right
    obtain ⟨slot, d, hh, hd, hiff, hlen⟩ := strictField_item types sf v1 hs hn
    refine ⟨rfl, slot, d, ?_, hh, hd, hiff, hlen⟩
    rcases hd with ⟨he, rfl⟩ | ⟨he, hc⟩
    · simp [fieldItem, hsf, hv, htn, hh, he]
    · cases he2 : sf.enc with
      | none => exact absurd he2 he
      | some e => simp [fieldItem, hsf, hv, htn, hh, he2, hc]

theorem collectItems_forall (types : List SprotoType) (st : SprotoType) (fs : List Value)
    (order : List Nat) (items : List Item) (Q : Item → Prop)
    (hQ : ∀ i ∈ order, ∀ it, fieldItem types st fs i = some (some it) → Q it)
    (h : collectItems types st fs order = some items) : ∀ it ∈ items, Q it := by
  induction order generalizing items with
  | nil =>
    simp only [collectItems, Option.some.injEq] at h
    subst h; simp
  | cons i rest ih =>
    simp only [collectItems] at h
    have hrest : ∀ j ∈ rest, ∀ it, fieldItem types st fs j = some (some it) → Q it :=
      fun j hj => hQ j (List.mem_cons_of_mem _ hj)
    cases hi : fieldItem types st fs i with
    | none => simp [hi] at h
    | some r =>
      cases r with
      | none => simp only [hi] at h; exact ih items hrest h
      | some it =>
        simp only [hi] at h
        cases hc : collectItems types st fs rest with
        | none => simp [hc] at h
        | some l =>
          simp only [hc, Option.map_some', Option.some.injEq] at h
          subst h
          intro x hx
          rcases List.mem_cons.1 hx with rfl | hx
          · exact hQ i (List.mem_cons_self _ _) _ hi
          · exact ih l hrest hc x hx

/-- The field of a strict record at an index of the order index: its descriptor, its host
value, and what the loop body computes for it. -/
theorem strict_field_at (types : List SprotoType) (st : SprotoType) (fs : List Value)
    (hst : tableOk st) (h : strictMsg types st (.ptrStruct fs) = true) (i : Nat)
    (hi : i < st.Fields.length) :
    ∃ sf v1, st.Fields[i]? = some sf ∧ sf.field = i ∧ fs[i]? = some v1 ∧ 0 ≤ sf.Tag ∧
      tagAt st i = sf.Tag ∧ strictField types sf v1 = true := by
  obtain ⟨_, hfields⟩ := (strictMsg_ptrStruct types st fs).1 h
  have hsf : st.Fields[i]? = some st.Fields[i] := List.getElem?_eq_getElem hi
  have hb := hst.2.2 i hi
  rw [hsf] at hb
  simp only [Option.map_some', Option.some.injEq] at hb
  obtain ⟨v1, hv, hs⟩ := hfields st.Fields[i] (List.getElem_mem hi)
  rw [hb] at hv
  have htag : tagAt st i = st.Fields[i].Tag := by simp [tagAt, hsf]
  have h0 := (hst.1.2.2 i (hst.2.1 i hi)).1
  exact ⟨_, v1, hsf, hb, hv, by rw [← htag]; exact h0, htag, hs⟩

theorem strict_items (types : List SprotoType) (st : SprotoType) (fs : List Value)
    (hst : tableOk st) (h : strictMsg types st (.ptrStruct fs) = true) :
    ∃ items, collectItems types st fs st.order = some items ∧
      encodeMessage types st (.ptrStruct fs) = some (messageBytes items) ∧
      (items.map (fun it => it.1)).Pairwise (fun a b => a < b) ∧
      ∀ it ∈ items, -1 < it.1 ∧ it.1 ≤ 0x7FFF ∧ it.2.1 % 2 = 0 ∧ it.2.1 ≤ 0xFFFE ∧
        (it.2.2 = none ↔ it.2.1 ≠ 0) ∧ ∀ p, it.2.2 = some p → p.length < 2 ^ 32 := by
  have hidx := tagsOk_indexOk st hst.1
  have hfi : ∀ i ∈ st.order, ∃ r, fieldItem types st fs i = some r ∧
      ∀ it, r = some it → (it.2.2 = none ↔ it.2.1 ≠ 0) ∧
        ∀ p, it.2.2 = some p → p.length < 2 ^ 32 := by
    intro i hi
    obtain ⟨sf, v1, hsf, hb, hv, ht, _, hs⟩ :=
      strict_field_at types st fs hst h i (hidx.2 i hi)
    rw [← hb] at hv
    rcases strict_fieldItem types st fs i sf v1 hsf hv ht hs with ⟨_, hr⟩ |
      ⟨_, slot, d, hr, _, _, hiff, hlen⟩
    · exact ⟨none, hr, by simp⟩
    · refine ⟨_, hr, ?_⟩
      intro it hit
      simp only [Option.some.injEq] at hit
      subst hit
      exact ⟨hiff, hlen⟩
  obtain ⟨items, hitems⟩ := collectItems_total types st fs st.order
    (fun i hi => ⟨_, (hfi i hi).choose_spec.1⟩)
  have hcap : items.length ≤ st.Fields.length :=
    le_trans (collectItems_length types st fs st.order items hitems) (indexOk_length st hidx)
  obtain ⟨hsorted, hrange⟩ := collectItems_sorted types st fs items hst.1 hitems
  obtain ⟨_, hev⟩ := collectItems_tags types st fs st.order items
    (fun i hi => (hst.1.2.2 i hi).1) hitems
  have hdata := collectItems_forall types st fs st.order items
    (fun it => (it.2.2 = none ↔ it.2.1 ≠ 0) ∧ ∀ p, it.2.2 = some p → p.length < 2 ^ 32)
    (fun i hi it hit => by
      obtain ⟨r, hr, hq⟩ := hfi i hi
      rw [hit] at hr
      exact hq it (Option.some.inj hr).symm) hitems
  refine ⟨items, hitems, encodeMessage_of_items types st fs items hitems hcap, hsorted, ?_⟩
  intro it hit
  exact ⟨(hrange it hit).1, (hrange it hit).2.1, (hrange it hit).2.2, (hev it hit).2,
    (hdata it hit).1, (hdata it hit).2⟩

/-! ### A message determines its emitted fields -/

theorem skipTag_lt (prev t : Int) : skipTag prev t < 2 ^ 16 := by
  rw [skipTag_eq]
  split
  · simp only [uint16OfInt]
    omega
  · norm_num

theorem skipTag_pos_gap (prev t : Int) (hp : prev + 1 < 2 ^ 63) (h : 0 < skipTag prev t) :
    prev + 1 < t := by
  have hw := le_wrapInt (prev + 1) hp
  rw [skipTag_eq] at h
  split at h
  · omega
  · simp at h

theorem headerSlots_lt (items : List Item) (prev : Int)
    (h : ∀ it ∈ items, it.2.1 ≤ 0xFFFE) : ∀ v ∈ headerSlots prev items, v < 2 ^ 16 := by
  induction items generalizing prev with
  | nil => simp [headerSlots]
  | cons it rest ih =>
    intro v hv
    simp only [headerSlots, List.append_assoc, List.mem_append, List.mem_singleton] at hv
    rcases hv with hv | hv | hv
    · split at hv
      · simp only [List.mem_singleton] at hv
        rw [hv]; exact skipTag_lt prev it.1
      · simp at hv
    · have := h it (List.mem_cons_self _ _)
      rw [hv]; norm_num; omega
    · exact ih it.1 (fun x hx => h x (List.mem_cons_of_mem _ hx)) v hv

theorem headerSlots_even (items : List Item) (prev : Int) (h0 : -1 ≤ prev)
    (hlt : ∀ it ∈ items, prev < it.1 ∧ it.1 ≤ 0x7FFF ∧ it.2.1 % 2 = 0)
    (hsorted : (items.map (fun it => it.1)).Pairwise (fun a b => a < b)) :
    (headerSlots prev items).filter (fun v => decide (v % 2 = 0)) =
      items.map (fun it => it.2.1) := by
  induction items generalizing prev with
  | nil => simp [headerSlots]
  | cons it rest ih =>
    obtain ⟨hp, hmax, heven⟩ := hlt it (List.mem_cons_self _ _)
    simp only [List.map_cons, List.pairwise_cons, List.mem_map, forall_exists_index,
      and_imp, forall_apply_eq_imp_iff₂] at hsorted
    have hrest := ih it.1 (by omega)
      (fun x hx => ⟨hsorted.1 x hx, (hlt x (List.mem_cons_of_mem _ hx)).2⟩) hsorted.2
    simp only [headerSlots, List.map_cons, List.filter_append, hrest]
    by_cases hpos : 0 < skipTag prev it.1
    · have hodd := (skipTag_of_gap prev it.1 h0
        (skipTag_pos_gap prev it.1 (by omega) hpos) hmax).1
      simp [hpos, hodd, heven]
    · simp [hpos, heven]

theorem messageBytes_split (items1 items2 : List Item)
    (h1 : ∀ it ∈ items1, -1 < it.1 ∧ it.1 ≤ 0x7FFF ∧ it.2.1 ≤ 0xFFFE)
    (h2 : ∀ it ∈ items2, -1 < it.1 ∧ it.1 ≤ 0x7FFF ∧ it.2.1 ≤ 0xFFFE)
    (s1 : (items1.map (fun it => it.1)).Pairwise (fun a b => a < b))
    (s2 : (items2.map (fun it => it.1)).Pairwise (fun a b => a < b))
    (h : messageBytes items1 = messageBytes items2) :
    headerSlots (-1) items1 = headerSlots (-1) items2 ∧
      dataSegment items1 = dataSegment items2 := by
  have b1 := headerSlots_length_bound items1 (-1) (by decide)
    (fun it hit => ⟨(h1 it hit).1, (h1 it hit).2.1⟩) s1
  have b2 := headerSlots_length_bound items2 (-1) (by decide)
    (fun it hit => ⟨(h2 it hit).1, (h2 it hit).2.1⟩) s2
  unfold messageBytes at h
  rw [List.append_assoc, List.append_assoc] at h
  obtain ⟨hc, hrest⟩ := List.append_inj h (by rw [littleEndian_length, littleEndian_length])
  have hn : (headerSlots (-1) items1).length = (headerSlots (-1) items2).length := by
    have := littleEndian_inj 2 _ _ hc
    simp only [uint16] at this
    norm_num at this b1 b2
    omega
  obtain ⟨hs, hd⟩ := List.append_inj hrest (by
    rw [flatMap_length_const (littleEndian 2) 2 (fun x => littleEndian_length 2 x),
      flatMap_length_const (littleEndian 2) 2 (fun x => littleEndian_length 2 x), hn])
  refine ⟨?_, hd⟩
  apply flatMap_inj_of_length (littleEndian 2) 2 (by decide)
    (fun x => littleEndian_length 2 x) _ _ _ hs
  intro x hx y hy hxy
  have lx := headerSlots_lt items1 (-1) (fun it hit => (h1 it hit).2.2) x hx
  have ly := headerSlots_lt items2 (-1) (fun it hit => (h2 it hit).2.2) y hy
  exact littleEndian_inj_lt 2 x y (by norm_num at lx ⊢; omega) (by norm_num at ly ⊢; omega) hxy

theorem items_eq_of_parts (items1 items2 : List Item)
    (ht : items1.map (fun it => it.1) = items2.map (fun it => it.1))
    (hs : items1.map (fun it => it.2.1) = items2.map (fun it => it.2.1))
    (h1 : ∀ it ∈ items1, (it.2.2 = none ↔ it.2.1 ≠ 0) ∧
      ∀ p, it.2.2 = some p → p.length < 2 ^ 32)
    (h2 : ∀ it ∈ items2, (it.2.2 = none ↔ it.2.1 ≠ 0) ∧
      ∀ p, it.2.2 = some p → p.length < 2 ^ 32)
    (hd : dataSegment items1 = dataSegment items2) : items1 = items2 := by
  induction items1 generalizing items2 with
  | nil =>
    cases items2 with
    | nil => rfl
    | cons b r => simp at ht
  | cons a r1 ih =>
    cases items2 with
    | nil => simp at ht
    | cons b r2 =>
      simp only [List.map_cons, List.cons.injEq] at ht hs
      obtain ⟨t1, sl1, d1⟩ := a
      obtain ⟨t2, sl2, d2⟩ := b
      simp only at ht hs
      obtain ⟨rfl, htr⟩ := ht
      obtain ⟨rfl, hsr⟩ := hs
      have q1 := h1 _ (List.mem_cons_self _ _)
      have q2 := h2 _ (List.mem_cons_self _ _)
      simp only at q1 q2
      have r1' : ∀ it ∈ r1, (it.2.2 = none ↔ it.2.1 ≠ 0) ∧
          ∀ p, it.2.2 = some p → p.length < 2 ^ 32 :=
        fun it hit => h1 it (List.mem_cons_of_mem _ hit)
      have r2' : ∀ it ∈ r2, (it.2.2 = none ↔ it.2.1 ≠ 0) ∧
          ∀ p, it.2.2 = some p → p.length < 2 ^ 32 :=
        fun it hit => h2 it (List.mem_cons_of_mem _ hit)
      rw [dataSegment_cons (t1, sl1, d1) r1, dataSegment_cons (t1, sl1, d2) r2] at hd
      cases d1 with
      | none =>
        have hne : sl1 ≠ 0 := q1.1.1 rfl
        have hd2 : d2 = none := q2.1.2 hne
        subst hd2
        simp only [dataSegment, List.nil_append, List.append_nil] at hd
        rw [ih r2 htr hsr r1' r2' hd]
      | some p1 =>
        cases d2 with
        | none =>
          have hne : sl1 ≠ 0 := q2.1.1 rfl
          have := q1.1.2 hne
          simp at this
        | some p2 =>
          simp only [dataSegment, List.append_nil] at hd
          obtain ⟨hp, hr⟩ := prefixed_cancel p1 p2 _ _ (q1.2 p1 rfl) (q2.2 p2 rfl) hd
          rw [hp, ih r2 htr hsr r1' r2' hr]

/-- Two item lists of strict records with the same message bytes are equal. -/
theorem messageBytes_inj (items1 items2 : List Item)
    (h1 : ∀ it ∈ items1, -1 < it.1 ∧ it.1 ≤ 0x7FFF ∧ it.2.1 % 2 = 0 ∧ it.2.1 ≤ 0xFFFE ∧
        (it.2.2 = none ↔ it.2.1 ≠ 0) ∧ ∀ p, it.2.2 = some p → p.length < 2 ^ 32)
    (h2 : ∀ it ∈ items2, -1 < it.1 ∧ it.1 ≤ 0x7FFF ∧ it.2.1 % 2 = 0 ∧ it.2.1 ≤ 0xFFFE ∧
        (it.2.2 = none ↔ it.2.1 ≠ 0) ∧ ∀ p, it.2.2 = some p → p.length < 2 ^ 32)
    (s1 : (items1.map (fun it => it.1)).Pairwise (fun a b => a < b))
    (s2 : (items2.map (fun it => it.1)).Pairwise (fun a b => a < b))
    (h : messageBytes items1 = messageBytes items2) : items1 = items2 := by
  obtain ⟨hslots, hdata⟩ := messageBytes_split items1 items2
    (fun it hit => ⟨(h1 it hit).1, (h1 it hit).2.1, (h1 it hit).2.2.2.1⟩)
    (fun it hit => ⟨(h2 it hit).1, (h2 it hit).2.1, (h2 it hit).2.2.2.1⟩) s1 s2 h
  have t1 := decoderTags_headerSlots items1 (-1) (le_refl _)
    (fun it hit => ⟨(h1 it hit).1, (h1 it hit).2.1, (h1 it hit).2.2.1⟩) s1
  have t2 := decoderTags_headerSlots items2 (-1) (le_refl _)
    (fun it hit => ⟨(h2 it hit).1, (h2 it hit).2.1, (h2 it hit).2.2.1⟩) s2
  have e1 := headerSlots_even items1 (-1) (le_refl _)
    (fun it hit => ⟨(h1 it hit).1, (h1 it hit).2.1, (h1 it hit).2.2.1⟩) s1
  have e2 := headerSlots_even items2 (-1) (le_refl _)
    (fun it hit => ⟨(h2 it hit).1, (h2 it hit).2.1, (h2 it hit).2.2.1⟩) s2
  rw [hslots] at t1 e1
  exact items_eq_of_parts items1 items2 (t1.symm.trans t2) (e1.symm.trans e2)
    (fun it hit => ⟨(h1 it hit).2.2.2.2.1, (h1 it hit).2.2.2.2.2⟩)
    (fun it hit => ⟨(h2 it hit).2.2.2.2.1, (h2 it hit).2.2.2.2.2⟩) hdata

/-! ### Equal messages have equal fields -/

theorem collectItems_tag_mem (types : List SprotoType) (st : SprotoType) (fs : List Value)
    (order : List Nat) (items : List Item) (htag : ∀ i ∈ order, 0 ≤ tagAt st i)
    (h : collectItems types st fs order = some items) :
    ∀ it ∈ items, it.1 ∈ order.map (tagAt st) := by
  intro it hit
  have := (collectItems_tags types st fs order items htag h).1
  have hm : it.1 ∈ items.map (fun it => it.1) := List.mem_map_of_mem _ hit
  rw [this] at hm
  obtain ⟨i, hi, hti⟩ := List.mem_map.1 hm
  exact List.mem_map.2 ⟨i, (List.mem_filter.1 hi).1, hti⟩

theorem collectItems_pointwise (types : List SprotoType) (st : SprotoType)
    (fs1 fs2 : List Value) (order : List Nat) (items : List Item)
    (hsorted : (order.map (tagAt st)).Pairwise (fun a b => a < b))
    (htag : ∀ i ∈ order, 0 ≤ tagAt st i)
    (h1 : collectItems types st fs1 order = some items)
    (h2 : collectItems types st fs2 order = some items) :
    ∀ i ∈ order, fieldItem types st fs1 i = fieldItem types st fs2 i := by
  induction order generalizing items with
  | nil => simp
  | cons i rest ih =>
    simp only [List.map_cons, List.pairwise_cons, List.mem_map, forall_exists_index,
      and_imp, forall_apply_eq_imp_iff₂] at hsorted
    have htr : ∀ j ∈ rest, 0 ≤ tagAt st j := fun j hj => htag j (List.mem_cons_of_mem _ hj)
    have hnot : ∀ (fs : List Value) (l : List Item) (it : Item),
        collectItems types st fs rest = some l → it ∈ l → it.1 ≠ tagAt st i := by
      intro fs l it hl hit heq
      obtain ⟨j, hj, hjt⟩ := List.mem_map.1 (collectItems_tag_mem types st fs rest l htr hl it hit)
      have := hsorted.1 j hj
      omega
    have hitag : ∀ (fs : List Value) (it : Item),
        fieldItem types st fs i = some (some it) → it.1 = tagAt st i := by
      intro fs it hfi
      obtain ⟨sf, v1, hsf, _, hcase⟩ := fieldItem_inv types st fs i _ hfi
      have htagAt : tagAt st i = sf.Tag := by simp [tagAt, hsf]
      rcases hcase with ⟨_, hr⟩ | ⟨_, slot, _, ⟨_, hr⟩ | ⟨_, d, hr, _⟩⟩
      · cases hr
      · cases hr
      · simp only [Option.some.injEq] at hr
        rw [hr, htagAt]
    simp only [collectItems] at h1 h2
    cases e1 : fieldItem types st fs1 i with
    | none => simp [e1] at h1
    | some r1 =>
      cases e2 : fieldItem types st fs2 i with
      | none => simp [e2] at h2
      | some r2 =>
        simp only [e1] at h1
        simp only [e2] at h2
        have key : r1 = r2 ∧ ∃ l, collectItems types st fs1 rest = some l ∧
            collectItems types st fs2 rest = some l := by
          cases r1 with
          | none =>
            cases r2 with
            | none => exact ⟨rfl, items, h1, h2⟩
            | some it2 =>
              exfalso
              simp only at h1 h2
              cases c2 : collectItems types st fs2 rest with
              | none => simp [c2] at h2
              | some l2 =>
                simp only [c2, Option.map_some', Option.some.injEq] at h2
                have hmem : it2 ∈ items := by rw [← h2]; exact List.mem_cons_self _ _
                exact hnot fs1 items it2 h1 hmem (hitag fs2 it2 e2)
          | some it1 =>
            simp only at h1
            cases c1 : collectItems types st fs1 rest with
            | none => simp [c1] at h1
            | some l1 =>
              simp only [c1, Option.map_some', Option.some.injEq] at h1
              cases r2 with
              | none =>
                exfalso
                simp only at h2
                have hmem : it1 ∈ items := by rw [← h1]; exact List.mem_cons_self _ _
                exact hnot fs2 items it1 h2 hmem (hitag fs1 it1 e1)
              | some it2 =>
                simp only at h2
                cases c2 : collectItems types st fs2 rest with
                | none => simp [c2] at h2
                | some l2 =>
                  simp only [c2, Option.map_some', Option.some.injEq] at h2
                  rw [← h1] at h2
                  simp only [List.cons.injEq] at h2
                  exact ⟨by rw [h2.1], l1, rfl, by rw [h2.2]⟩
        obtain ⟨hr, l, hl1, hl2⟩ := key
        intro j hj
        rcases List.mem_cons.1 hj with rfl | hj
        · rw [e1, e2, hr]
        · exact ih l hsorted.2 htr hl1 hl2 j hj

/-- A strict record with a field that is not nil is not encoded as the empty message. -/
theorem strict_present_ne_empty (types : List SprotoType) (st : SprotoType) (x : Value)
    (hst : tableOk st) (h : strictMsg types st x = true) (hp : hasPresentField x = true) :
    encodeMessage types st x ≠ some [0, 0] := by
  cases x with
  | ptrStruct fs =>
    obtain ⟨items, hitems, henc, _, _⟩ := strict_items types st fs hst h
    obtain ⟨hlen, _⟩ := (strictMsg_ptrStruct types st fs).1 h
    simp only [hasPresentField, List.any_eq_true, Bool.not_eq_true'] at hp
    obtain ⟨f, hf, hfn⟩ := hp
    obtain ⟨j, hj⟩ := List.getElem?_of_mem hf
    have hjlt : j < st.Fields.length := by
      rw [← hlen]
      by_contra hge
      rw [List.getElem?_eq_none (by omega)] at hj
      cases hj
    obtain ⟨sf, v1, hsf, hb, hv, _, _, _⟩ := strict_field_at types st fs hst h j hjlt
    have hvf : v1 = f := by rw [hj] at hv; exact (Option.some.inj hv).symm
    have hpres : present st fs j = true := by
      simp [present, hsf, hb, hj, hfn]
    have htags := (collectItems_tags types st fs st.order items
      (fun i hi => (hst.1.2.2 i hi).1) hitems).1
    have hne : items ≠ [] := by
      intro hnil
      rw [hnil] at htags
      have hmem : j ∈ st.order.filter (present st fs) :=
        List.mem_filter.2 ⟨hst.2.1 j hjlt, hpres⟩
      have : (st.order.filter (present st fs)).map (tagAt st) ≠ [] := by
        intro hm
        rw [List.map_eq_nil_iff] at hm
        rw [hm] at hmem
        simp at hmem
      exact this htags.symm
    rw [henc]
    intro heq
    have hl := congrArg List.length (Option.some.inj heq)
    cases items with
    | nil => exact hne rfl
    | cons it rest =>
      simp only [messageBytes, List.length_append, littleEndian_length, headerSlots,
        List.flatMap_append, List.flatMap_cons, List.flatMap_nil, List.append_nil,
        List.length_cons, List.length_nil] at hl
      omega
  | _ => simp [strictMsg] at h

theorem strictElems_inj (types : List SprotoType) (st : SprotoType) (hst : tableOk st)
    (xs ys : List Value) (vals : List Bytes)
    (hinj : ∀ x ∈ xs, ∀ v2, strictMsg types st x = true → strictMsg types st v2 = true →
      encodeMessage types st x = encodeMessage types st v2 → x = v2)
    (hx : strictElems types st xs = true) (hy : strictElems types st ys = true)
    (e1 : encodeStructSliceVals types st xs = some vals)
    (e2 : encodeStructSliceVals types st ys = some vals) : xs = ys := by
  induction xs generalizing ys vals with
  | nil =>
    cases ys with
    | nil => rfl
    | cons y ys =>
      rw [encodeStructSliceVals_nil] at e1
      rw [encodeStructSliceVals_cons] at e2
      simp only [Option.some.injEq] at e1
      subst e1
      cases hm : encodeMessage types st y with
      | none => simp [hm] at e2
      | some o =>
        cases hr : encodeStructSliceVals types st ys with
        | none => simp [hm, hr] at e2
        | some r => simp [hm, hr] at e2
  | cons x xs ih =>
    cases ys with
    | nil =>
      rw [encodeStructSliceVals_nil] at e2
      rw [encodeStructSliceVals_cons] at e1
      simp only [Option.some.injEq] at e2
      subst e2
      cases hm : encodeMessage types st x with
      | none => simp [hm] at e1
      | some o =>
        cases hr : encodeStructSliceVals types st xs with
        | none => simp [hm, hr] at e1
        | some r => simp [hm, hr] at e1
    | cons y ys =>
      rw [encodeStructSliceVals_cons] at e1 e2
      cases hm1 : encodeMessage types st x with
      | none => simp [hm1] at e1
      | some o1 =>
        cases hr1 : encodeStructSliceVals types st xs with
        | none => simp [hm1, hr1] at e1
        | some r1 =>
          cases hm2 : encodeMessage types st y with
          | none => simp [hm2] at e2
          | some o2 =>
            cases hr2 : encodeStructSliceVals types st ys with
            | none => simp [hm2, hr2] at e2
            | some r2 =>
              simp only [hm1, hr1, hm2, hr2, Option.bind_eq_bind, Option.some_bind,
                Option.map_some', Option.some.injEq] at e1 e2
              rw [← e1] at e2
              simp only [List.cons.injEq] at e2
              obtain ⟨ho, hr⟩ := e2
              subst ho hr
              simp only [strictElems, Bool.and_eq_true, Bool.or_eq_true] at hx hy
              have htail := ih ys r2 (fun a ha => hinj a (List.mem_cons_of_mem _ ha))
                hx.2 hy.2 hr1 hr2
              have hhead : x = y := by
                rcases hx.1 with hxn | ⟨hxs, hxp⟩
                · have hxnil := IsNil_eq_true x hxn
                  subst hxnil
                  rcases hy.1 with hyn | ⟨hys, hyp⟩
                  · exact (IsNil_eq_true y hyn).symm
                  · exfalso
                    rw [encodeMessage_nil_eq] at hm1
                    exact strict_present_ne_empty types st y hst hys hyp
                      (by rw [hm2, ← hm1])
                · rcases hy.1 with hyn | ⟨hys, hyp⟩
                  · exfalso
                    have hynil := IsNil_eq_true y hyn
                    subst hynil
                    rw [encodeMessage_nil_eq] at hm2
                    exact strict_present_ne_empty types st x hst hxs hxp
                      (by rw [hm1, ← hm2])
                  · exact hinj x (List.mem_cons_self _ _) y hxs hys (by rw [hm1, hm2])
              rw [hhead, htail]

/-- The fields of two strict records with equal message bytes are equal, given that their
nested records and struct-array elements are determined by their bytes. -/
theorem strict_fields_eq (types : List SprotoType) (htypes : ∀ t ∈ types, tableOk t)
    (st : SprotoType) (hst : tableOk st) (fs1 fs2 : List Value)
    (h1 : strictMsg types st (.ptrStruct fs1) = true)
    (h2 : strictMsg types st (.ptrStruct fs2) = true)
    (henc : encodeMessage types st (.ptrStruct fs1) = encodeMessage types st (.ptrStruct fs2))
    (ih : ∀ f ∈ fs1,
      (∀ st v2, tableOk st → strictMsg types st f = true → strictMsg types st v2 = true →
        encodeMessage types st f = encodeMessage types st v2 → f = v2) ∧
      (∀ xs, f = .structSlice xs → ∀ x ∈ xs, ∀ st v2, tableOk st →
        strictMsg types st x = true → strictMsg types st v2 = true →
        encodeMessage types st x = encodeMessage types st v2 → x = v2)) :
    fs1 = fs2 := by
  obtain ⟨items1, hi1, he1, s1, q1⟩ := strict_items types st fs1 hst h1
  obtain ⟨items2, hi2, he2, s2, q2⟩ := strict_items types st fs2 hst h2
  rw [he1, he2] at henc
  have hitems : items1 = items2 :=
    messageBytes_inj items1 items2 q1 q2 s1 s2 (Option.some.inj henc)
  subst hitems
  have hpt := collectItems_pointwise types st fs1 fs2 st.order items1 hst.1.2.1
    (fun i hi => (hst.1.2.2 i hi).1) hi1 hi2
  obtain ⟨hl1, _⟩ := (strictMsg_ptrStruct types st fs1).1 h1
  obtain ⟨hl2, _⟩ := (strictMsg_ptrStruct types st fs2).1 h2
  apply List.ext_getElem?
  intro i
  by_cases hlt : i < st.Fields.length
  · obtain ⟨sf, v1, hsf, hb, hv1, ht, _, hs1⟩ := strict_field_at types st fs1 hst h1 i hlt
    obtain ⟨sf2, v2, hsf2, _, hv2, _, _, hs2⟩ := strict_field_at types st fs2 hst h2 i hlt
    have hsame : sf2 = sf := by rw [hsf] at hsf2; exact (Option.some.inj hsf2).symm
    subst hsame
    rw [hv1, hv2]
    congr 1
    have hfi := hpt i (hst.2.1 i hlt)
    have hv1' : fs1[sf2.field]? = some v1 := by rw [hb]; exact hv1
    have hv2' : fs2[sf2.field]? = some v2 := by rw [hb]; exact hv2
    rcases strict_fieldItem types st fs1 i sf2 v1 hsf hv1' ht hs1 with ⟨hn1, hr1⟩ |
      ⟨hn1, slot1, d1, hr1, hh1, hd1, _, _⟩
    · rcases strict_fieldItem types st fs2 i sf2 v2 hsf hv2' ht hs2 with ⟨hn2, hr2⟩ |
        ⟨hn2, slot2, d2, hr2, _⟩
      · rw [IsNil_eq_true v1 hn1, IsNil_eq_true v2 hn2]
      · rw [hr1, hr2] at hfi
        simp at hfi
    · rcases strict_fieldItem types st fs2 i sf2 v2 hsf hv2' ht hs2 with ⟨hn2, hr2⟩ |
        ⟨hn2, slot2, d2, hr2, hh2, hd2, _, _⟩
      · rw [hr1, hr2] at hfi
        simp at hfi
      · rw [hr1, hr2] at hfi
        simp only [Option.some.injEq, Prod.mk.injEq, true_and] at hfi
        obtain ⟨hslot, hdd⟩ := hfi
        subst hslot hdd
        have hmem : v1 ∈ fs1 := List.getElem?_mem hv1
        refine strictField_inj types sf2 v1 v2 hs1 hs2 hn1 hn2 (by rw [hh1, hh2]) ?_ ?_ ?_
        · intro hne
          rcases hd1 with ⟨he, _⟩ | ⟨_, hc1⟩
          · exact absurd he hne
          · rcases hd2 with ⟨he, _⟩ | ⟨_, hc2⟩
            · exact absurd he hne
            · rw [hc1, hc2]
        · intro st1 hst1 hm1 hm2 hmenc
          exact (ih v1 hmem).1 st1 v2 (htypes st1 (List.getElem?_mem hst1)) hm1 hm2 hmenc
        · intro st1 xs ys vals hst1 hx hy hsx hsy ex ey
          exact strictElems_inj types st1 (htypes st1 (List.getElem?_mem hst1)) xs ys vals
            (fun x hxm w2 a b c => (ih v1 hmem).2 xs hx x hxm st1 w2
              (htypes st1 (List.getElem?_mem hst1)) a b c) hsx hsy ex ey
  · rw [List.getElem?_eq_none (by omega), List.getElem?_eq_none (by omega)]

/-- Strict records are determined by their message bytes. -/
theorem strictMsg_inj (types : List SprotoType) (htypes : ∀ t ∈ types, tableOk t)
    (v : Value) :
    (∀ st v2, tableOk st → strictMsg types st v = true → strictMsg types st v2 = true →
      encodeMessage types st v = encodeMessage types st v2 → v = v2) ∧
    (∀ xs, v = .structSlice xs → ∀ x ∈ xs, ∀ st v2, tableOk st →
      strictMsg types st x = true → strictMsg types st v2 = true →
      encodeMessage types st x = encodeMessage types st v2 → x = v2) := by
  induction v using Value.ind with
  | hstruct fs ih =>
    refine ⟨?_, fun xs h => by cases h⟩
    intro st v2 hst h1 h2 henc
    cases v2 with
    | ptrStruct fs2 =>
      rw [strict_fields_eq types htypes st hst fs fs2 h1 h2 henc ih]
    | _ => simp [strictMsg] at h2
  | hslice xs ih =>
    refine ⟨fun st v2 _ h => by simp [strictMsg] at h, ?_⟩
    intro ys hy x hx
    simp only [Value.structSlice.injEq] at hy
    subst hy
    exact (ih x hx).1
  | _ =>
    exact ⟨fun st v2 _ h => by simp [strictMsg] at h, fun xs h => by cases h⟩

/-! ### C7: the encoder tells records apart -/

/-- C7 as stated fails: a `Human` whose `Children` array holds one nil pointer and a
`Human` whose `Children` array holds one `Human` with no field set are both valid records
of the same type, they differ, and `encodeMessage` returns the same bytes for them, because
a nil struct-array element is encoded as the empty message. -/
theorem encodeMessage_nil_element_collision :
    (∀ t ∈ testTypes, tableOk t) ∧
    validMsg testTypes humanType humanNilChild = true ∧
    validMsg testTypes humanType humanEmptyChild = true ∧
    encodeMessage testTypes humanType humanNilChild =
      some [2, 0, 5, 0, 0, 0, 6, 0, 0, 0, 2, 0, 0, 0, 0, 0] ∧
    encodeMessage testTypes humanType humanNilChild =
      encodeMessage testTypes humanType humanEmptyChild ∧
    humanNilChild ≠ humanEmptyChild := by
  refine ⟨by decide, by decide, by decide, by decide, by decide, ?_⟩
  simp [humanNilChild, humanEmptyChild]

/-- C7, amended. Let every descriptor table list all its fields in ascending order of
unique tags in `[0, 0x7FFF]`, each bound to its own host field. Let `r1` and `r2` be
non-nil records of the same type in which every field is absent or of the kind of its
descriptor, at every depth, where: struct-array elements may be nil, but an element that
is not nil has at least one field set; there are no maps; integers and integer arrays have
a host kind among `int8`, `int16`, `int32`, `int64`, `int`, `uint8`, `uint16`; and every
data payload is shorter than `2^32` bytes. Then `encodeMessage` returns bytes for `r1`, and
if it returns the same bytes for `r1` and `r2`, then `r1 = r2`. -/
theorem encodeMessage_injective (types : List SprotoType) (st : SprotoType) (r1 r2 : Value)
    (htypes : ∀ t ∈ types, tableOk t) (hst : tableOk st)
    (h1 : strictMsg types st r1 = true) (h2 : strictMsg types st r2 = true) :
    (∃ out, encodeMessage types st r1 = some out) ∧
    (encodeMessage types st r1 = encodeMessage types st r2 → r1 = r2) := by
  constructor
  · cases r1 with
    | ptrStruct fs =>
      obtain ⟨items, _, henc, _⟩ := strict_items types st fs hst h1
      exact ⟨_, henc⟩
    | _ => simp [strictMsg] at h1
  · exact (strictMsg_inj types htypes r1).1 st r2 hst h1 h2

/-- C7 (amended) on the `StructArray` test case. -/
theorem encodeMessage_injective_witness :
    (∀ t ∈ testTypes, tableOk t) ∧ tableOk humanType ∧
    strictMsg testTypes humanType (.ptrStruct humanBobRecord) = true ∧
    ((∃ out, encodeMessage testTypes humanType (.ptrStruct humanBobRecord) = some out) ∧
    (encodeMessage testTypes humanType (.ptrStruct humanBobRecord) =
        encodeMessage testTypes humanType (.ptrStruct humanBobRecord) →
      Value.ptrStruct humanBobRecord = Value.ptrStruct humanBobRecord)) :=
  ⟨by decide, by decide, by decide,
    encodeMessage_injective testTypes humanType (.ptrStruct humanBobRecord)
      (.ptrStruct humanBobRecord) (by decide) (by decide) (by decide) (by decide)⟩

/-! ### C11: boolean arrays -/

/-- C11. For every boolean array `bs`, `encodeBoolSlice` returns exactly `len(bs)` bytes,
and byte `i` is 1 if `bs[i]` is true and 0 if it is false. -/
theorem encodeBoolSlice_bytes (bs : List Bool) :
    ∃ out : Bytes, encodeBoolSlice (.boolSlice bs) = some (some out) ∧
      out.length = bs.length ∧
      ∀ i : Nat, out[i]? = bs[i]?.map (fun b => if b then 1 else 0) := by
  refine ⟨bs.map (fun b => if b then 1 else 0), encodeBoolSlice_eq bs, by simp, ?_⟩
  intro i
  simp [List.getElem?_map]

/-! ### C12: doubles -/

theorem littleEndian_getElem (w v i : Nat) :
    (littleEndian w v)[i]? = if i < w then some (v / 256 ^ i % 256) else none := by
  induction w generalizing v i with
  | zero => simp [littleEndian]
  | succ w ih =>
    cases i with
    | zero => simp [littleEndian]
    | succ i =>
      simp only [littleEndian, List.getElem?_cons_succ, ih, Nat.add_lt_add_iff_right]
      rw [Nat.div_div_eq_div_mul, pow_succ']

/-- C12. With a double given by its 64-bit IEEE 754 pattern `bits`, `encodeDouble` returns
exactly the 8 little-endian bytes of the pattern (byte `i` is `bits / 256^i mod 256`), and
for every double array `encodeDoubleSlice` returns `1 + 8 * len` bytes: the byte 8, then
the 8 little-endian bytes of every element's pattern in input order. -/
theorem encodeDouble_encodeDoubleSlice_bytes (bits : Nat) (ds : List Nat) :
    encodeDouble (.ptrDouble bits) = some (some (littleEndian 8 bits)) ∧
    (littleEndian 8 bits).length = 8 ∧
    (∀ i : Nat, (littleEndian 8 bits)[i]? =
      if i < 8 then some (bits / 256 ^ i % 256) else none) ∧
    encodeDoubleSlice (.doubleSlice ds) = some (some (8 :: ds.flatMap (littleEndian 8))) ∧
    (8 :: ds.flatMap (littleEndian 8)).length = 1 + 8 * ds.length := by
  refine ⟨encodeDouble_eq bits, littleEndian_length 8 bits, littleEndian_getElem 8 bits,
    encodeDoubleSlice_eq ds, ?_⟩
  rw [List.length_cons,
    flatMap_length_const (littleEndian 8) 8 (fun x => littleEndian_length 8 x)]
  omega

/-! ### C13: the AddressBook vector -/

set_option maxRecDepth 100000 in
/-- C13 as stated fails: encoding the reference value `ab` gives the 130 bytes of `abData`,
not 122 bytes. -/
theorem encodeMessage_ab_not_122 :
    validMsg testTypes addressBookType (.ptrStruct abRecord) = true ∧
    encodeMessage testTypes addressBookType (.ptrStruct abRecord) = some abData ∧
    abData.length = 130 ∧ abData.length ≠ 122 := by
  refine ⟨by decide, by decide, by decide, by decide⟩

set_option maxRecDepth 100000 in
/-- C13, amended. Encoding the reference value `ab` yields the 130-byte sequence `abData`:
the header count 1 and the slot 0 (4 bytes), the 32-bit length 122, and the 122-byte
payload of the `Person` array. -/
theorem encodeMessage_ab :
    encodeMessage testTypes addressBookType (.ptrStruct abRecord) = some abData ∧
    abData.length = 130 ∧
    abData = [1, 0, 0, 0] ++ littleEndian 4 122 ++ abData.drop 8 ∧
    (abData.drop 8).length = 122 := by
  refine ⟨by decide, by decide, by decide, by decide⟩

/-! ### C14: skip slots -/

/-- C14 as stated fails, in two ways. For `prev = -1` and `t = 32769` the gap is 32769
tags, the value `(span - 1) * 2 + 1 = 65537` does not fit the 16-bit slot, and `skipTag`
returns 1, which encodes a gap of one tag. For `prev = 2^63 - 1`, the largest `int`, and
`t = 0 ≤ prev + 1`, the sum `prev + 1` wraps to `-2^63` in the comparison and `skipTag`
returns 65535 instead of 0. -/
theorem skipTag_wraps :
    (-1 : Int) ≤ -1 ∧ (-1 : Int) + 1 < 32769 ∧ skipTag (-1) 32769 = 1 ∧
    ¬ ((((skipTag (-1) 32769 - 1) >>> 1 : Nat) : Int) + 1 = 32769 - (-1) - 1) ∧
    (-1 : Int) ≤ 2 ^ 63 - 1 ∧ (0 : Int) ≤ (2 ^ 63 - 1) + 1 ∧
    skipTag (2 ^ 63 - 1) 0 = 65535 := by
  refine ⟨by decide, by decide, by decide, by decide, by decide, by decide, by decide⟩

/-- C14, amended. For every previous tag `prev` with `-1 ≤ prev < 2^63 - 1` (so that
`prev + 1` does not overflow the 64-bit `int`) and every next tag `t > prev + 1` with a gap
`t - prev - 1` of at most `0x8000` tags, the slot `skipTag prev t` is odd, below `2^16`,
and `((v - 1) >> 1) + 1 = t - prev - 1`; and for `t ≤ prev + 1`, `skipTag` returns 0. -/
theorem skipTag_spec (prev t : Int) (hprev : -1 ≤ prev) (hmax : prev < 2 ^ 63 - 1) :
    (prev + 1 < t → t - prev - 1 ≤ 0x8000 →
      skipTag prev t % 2 = 1 ∧ skipTag prev t < 2 ^ 16 ∧
      (((skipTag prev t - 1) >>> 1 : Nat) : Int) + 1 = t - prev - 1) ∧
    (t ≤ prev + 1 → skipTag prev t = 0) := by
  constructor
  · intro h1 h2
    have hs : skipTag prev t = (2 * (t - prev - 1) - 1).toNat := by
      rw [skipTag_eq, wrapInt_of_range (prev + 1) (by omega) (by omega)]
      simp only [gt_iff_lt, h1, if_true, uint16OfInt]
      congr 1
      norm_num
      omega
    rw [hs, Nat.shiftRight_eq_div_pow]
    norm_num
    omega
  · intro h
    exact skipTag_eq_zero prev t h (by omega)

/-- C14 (amended) at `prev = -1`, `t = 8` (the skip slot `0F 00` of the `Bytes` vector
skips tags 0 to 7), and at `prev = 3`, `t = 4`. -/
theorem skipTag_spec_witness :
    (-1 : Int) ≤ -1 ∧ (-1 : Int) < 2 ^ 63 - 1 ∧ (-1 : Int) + 1 < 8 ∧
    (8 : Int) - (-1) - 1 ≤ 0x8000 ∧
    skipTag (-1) 8 = 15 ∧
    (skipTag (-1) 8 % 2 = 1 ∧ skipTag (-1) 8 < 2 ^ 16 ∧
      (((skipTag (-1) 8 - 1) >>> 1 : Nat) : Int) + 1 = 8 - (-1) - 1) ∧
    skipTag 3 4 = 0 :=
  ⟨by decide, by decide, by decide, by decide, by decide,
    (skipTag_spec (-1) 8 (by decide) (by decide)).1 (by decide) (by decide),
    (skipTag_spec 3 4 (by decide) (by decide)).2 (by decide)⟩

/-! ### C15: empty integer arrays -/

/-- C15. A present integer array with zero elements still emits its width byte:
`encodeIntSlice` of an empty array returns the single byte `04`, for every host integer
kind, and a record whose only present field is such an array at tag 0 encodes to
`01 00 00 00 01 00 00 00 04` (for the one-field record type of every kind, and for `Data`
of the test file with only `Numbers` set). -/
theorem encodeIntSlice_empty (k : Kind) (types : List SprotoType) :
    encodeIntSlice (.intSlice k []) = some (some [4]) ∧
    encodeMessage types (numbersType k) (.ptrStruct [.intSlice k []]) =
      some [1, 0, 0, 0, 1, 0, 0, 0, 4] ∧
    encodeMessage types dataType
      (.ptrStruct [.intSlice .Int64 [], .nil, .nil, .nil, .nil, .nil, .nil, .nil]) =
      some [1, 0, 0, 0, 1, 0, 0, 0, 4] := by
  have h1 : encodeIntSlice (.intSlice k []) = some (some [4]) := by
    cases k <;> decide
  have h2 : encodeIntSlice (.intSlice .Int64 []) = some (some [4]) := by decide
  refine ⟨h1, ?_, ?_⟩
  · apply encodeMessage_of_items types (numbersType k) [.intSlice k []]
      [(0, 0, some [4])]
    · simp [collectItems, fieldItem, numbersType, arrayField, callHeaderEnc,
        headerEncodeDefault, Value.IsNil, callEnc, h1]
    · simp [numbersType]
  · apply encodeMessage_of_items types dataType
      [.intSlice .Int64 [], .nil, .nil, .nil, .nil, .nil, .nil, .nil] [(0, 0, some [4])]
    · simp [collectItems, fieldItem, dataType, arrayField, integerField, doubleField,
        bytesField, callHeaderEnc, headerEncodeDefault, headerEncodeInt, Value.IsNil,
        callEnc, h2]
    · simp [dataType]

/-! ### C16: normal maps -/

theorem encodeMap_eq_structSlice (types : List SprotoType) (sf : SprotoField)
    (keys vals : List Value) (hvt : sf.ValueTag = -1) :
    encodeMap types sf (.map keys vals) = encodeStructSlice types sf (.structSlice vals) := by
  cases hst : types[sf.st]? with
  | none => simp [encodeMap, encodeStructSlice, hst]
  | some st => simp [encodeMap, hst, hvt]

theorem encodeStructSliceVals_getD (types : List SprotoType) (st : SprotoType)
    (xs : List Value) (vals : List Bytes)
    (h : encodeStructSliceVals types st xs = some vals) :
    vals = xs.map (fun x => (encodeMessage types st x).getD []) := by
  have hmap := encodeStructSliceVals_map types st xs vals h
  have := congrArg (List.map (fun o : Option Bytes => o.getD [])) hmap
  simp only [List.map_map] at this
  rw [show ((fun o : Option Bytes => o.getD []) ∘ some) = id from rfl, List.map_id] at this
  rw [← this]
  rfl

/-- C16. For a normal map (value tag -1) whose values are valid records, `encodeMap`
returns the struct-array encoding of the map's values taken in the map's iteration order:
for every iteration order `perm` of the values (whatever the keys), the payload is
`encodeStructSlice` of that ordering, and its length is the sum over the values of
`4 + length(encodeMessage(value))`, the same for every order. -/
theorem encodeMap_normal (types : List SprotoType) (sf : SprotoField) (st : SprotoType)
    (vals : List Value) (htypes : ∀ t ∈ types, indexOk t)
    (hst : types[sf.st]? = some st) (hvt : sf.ValueTag = -1)
    (hvalid : validElems types st vals = true) :
    ∃ msgs : List Bytes, vals.map (encodeMessage types st) = msgs.map some ∧
      ∀ keys perm : List Value, perm.Perm vals →
        ∃ out : Bytes, encodeMap types sf (.map keys perm) = some (some out) ∧
          encodeStructSlice types sf (.structSlice perm) = some (some out) ∧
          out.length = (msgs.map (fun m => 4 + m.length)).sum := by
  have hidx := htypes st (List.getElem?_mem hst)
  obtain ⟨msgs, hm⟩ := (encodeMessage_total types htypes (.structSlice vals)).2.1 st hidx
    (by simpa [validElemsOf] using hvalid)
  simp only [encodeElems] at hm
  refine ⟨msgs, encodeStructSliceVals_map types st vals msgs hm, ?_⟩
  intro keys perm hperm
  have hvalid1 : validElems types st perm = true := by
    rw [validElems_iff] at hvalid ⊢
    intro x hx
    exact hvalid x (hperm.mem_iff.1 hx)
  obtain ⟨msgs1, hm1⟩ := (encodeMessage_total types htypes (.structSlice perm)).2.1 st hidx
    (by simpa [validElemsOf] using hvalid1)
  simp only [encodeElems] at hm1
  have hs : encodeStructSlice types sf (.structSlice perm) =
      some (some (lengthPrefixed msgs1)) := by
    simp [encodeStructSlice, hst, hm1, encodeStructSliceBuf_eq]
  refine ⟨lengthPrefixed msgs1, ?_, hs, ?_⟩
  · rw [encodeMap_eq_structSlice types sf keys perm hvt, hs]
  · rw [lengthPrefixed_length, encodeStructSliceVals_getD types st vals msgs hm,
      encodeStructSliceVals_getD types st perm msgs1 hm1]
    exact ((hperm.map _).map _).sum_eq

/-- C16 on a map of two `PhoneNumber` values (table 0) keyed by `Type` (tag 1), in both
iteration orders: 23 bytes for `123456789`, 22 bytes for `87654321`. -/
theorem encodeMap_normal_witness :
    (∀ t ∈ testTypes, indexOk t) ∧
    testTypes[(mapField 0 0 1 0).st]? = some phoneNumberType ∧
    (mapField 0 0 1 0).ValueTag = -1 ∧
    validElems testTypes phoneNumberType
      [.ptrStruct [.ptrString (ascii "123456789"), .ptrInt .Int 1],
       .ptrStruct [.ptrString (ascii "87654321"), .ptrInt .Int 2]] = true ∧
    (encodeMap testTypes (mapField 0 0 1 0)
      (.map [.ptrInt .Int 1, .ptrInt .Int 2]
        [.ptrStruct [.ptrString (ascii "123456789"), .ptrInt .Int 1],
         .ptrStruct [.ptrString (ascii "87654321"), .ptrInt .Int 2]])).map
      (Option.map List.length) = some (some 45) ∧
    (encodeMap testTypes (mapField 0 0 1 0)
      (.map [.ptrInt .Int 2, .ptrInt .Int 1]
        [.ptrStruct [.ptrString (ascii "87654321"), .ptrInt .Int 2],
         .ptrStruct [.ptrString (ascii "123456789"), .ptrInt .Int 1]])).map
      (Option.map List.length) = some (some 45) ∧
    ∃ msgs : List Bytes,
      [Value.ptrStruct [.ptrString (ascii "123456789"), .ptrInt .Int 1],
        .ptrStruct [.ptrString (ascii "87654321"), .ptrInt .Int 2]].map
        (encodeMessage testTypes phoneNumberType) = msgs.map some ∧
      ∀ keys perm : List Value, perm.Perm
          [.ptrStruct [.ptrString (ascii "123456789"), .ptrInt .Int 1],
           .ptrStruct [.ptrString (ascii "87654321"), .ptrInt .Int 2]] →
        ∃ out : Bytes,
          encodeMap testTypes (mapField 0 0 1 0) (.map keys perm) = some (some out) ∧
          encodeStructSlice testTypes (mapField 0 0 1 0) (.structSlice perm) =
            some (some out) ∧
          out.length = (msgs.map (fun m => 4 + m.length)).sum :=
  ⟨by decide, by decide, by decide, by decide, by decide, by decide,
    encodeMap_normal testTypes (mapField 0 0 1 0) phoneNumberType
      [.ptrStruct [.ptrString (ascii "123456789"), .ptrInt .Int 1],
       .ptrStruct [.ptrString (ascii "87654321"), .ptrInt .Int 2]]
      (by decide) (by decide) (by decide) (by decide)⟩

/-- A simple map on the model: the record `PhoneBook{Numbers: map[string]int{"a": 5}}`
is valid, `encodeMap` builds the element `PhoneNumber{Number: "a", Type: 5}` from the
entry, and the field is encoded as the struct array of that element. -/
theorem encodeMap_simple_example :
    validMsg testTypes phoneBookType
      (.ptrStruct [.map [.ptrString (ascii "a")] [.ptrInt .Int 5]]) = true ∧
    encodeMapElems phoneNumberType (simpleMapField 0 0 0 1 0) (zeroStruct phoneNumberType)
      [.ptrString (ascii "a")] [.ptrInt .Int 5] =
      some [[.ptrString (ascii "a"), .ptrInt .Int 5]] ∧
    encodeMap testTypes (simpleMapField 0 0 0 1 0)
      (.map [.ptrString (ascii "a")] [.ptrInt .Int 5]) =
      encodeStructSlice testTypes (simpleMapField 0 0 0 1 0)
        (.structSlice [.ptrStruct [.ptrString (ascii "a"), .ptrInt .Int 5]]) ∧
    encodeMessage testTypes phoneBookType
      (.ptrStruct [.map [.ptrString (ascii "a")] [.ptrInt .Int 5]]) =
      some [1, 0, 0, 0, 15, 0, 0, 0, 11, 0, 0, 0, 2, 0, 0, 0, 12, 0, 1, 0, 0, 0, 0x61] := by
  refine ⟨by decide, rfl, by decide, by decide⟩

/-- A simple map whose element struct `Entry` has plain scalar fields: the element built
from the entry `"a": 5` is `Entry{Key: "a", Value: 5, Seq: 0}`, and the field `Seq`, which
the entry does not set, is encoded with its zero value (slot `02 00`). -/
theorem encodeMap_simple_plain_example :
    validMsg entryTypes entryBookType
      (.ptrStruct [.map [.ptrString (ascii "a")] [.ptrInt .Int 5]]) = true ∧
    encodeMapElems entryType (simpleMapField 0 0 0 1 5) (zeroStruct entryType)
      [.ptrString (ascii "a")] [.ptrInt .Int 5] =
      some [[.ptrString (ascii "a"), .ptrInt .Int 5, .ptrInt .Int 0]] ∧
    encodeMessage entryTypes entryType
      (.ptrStruct [.ptrString (ascii "a"), .ptrInt .Int 5, .ptrInt .Int 0]) =
      some [3, 0, 0, 0, 12, 0, 2, 0, 1, 0, 0, 0, 0x61] ∧
    encodeMessage entryTypes entryBookType
      (.ptrStruct [.map [.ptrString (ascii "a")] [.ptrInt .Int 5]]) =
      some [1, 0, 0, 0, 17, 0, 0, 0, 13, 0, 0, 0,
        3, 0, 0, 0, 12, 0, 2, 0, 1, 0, 0, 0, 0x61] := by
  refine ⟨by decide, rfl, by decide, by decide⟩

/-! ### C17: buffer bounds of `encodeMessage` -/

theorem indexOk_take (st : SprotoType) (h : indexOk st) (n : Nat) :
    (st.order.take n).length ≤ st.Fields.length :=
  le_trans (by simp) (indexOk_length st h)

theorem collectItems_length_present (types : List SprotoType) (st : SprotoType)
    (fs : List Value) (order : List Nat) (items : List Item)
    (h : collectItems types st fs order = some items) :
    items.length ≤ (order.filter (present st fs)).length :=
  collectItems_length types st fs _ items (collectItems_filter_present types st fs order items h)

theorem emitItems_bounds (st : SprotoType) (items : List Item)
    (hcap : items.length ≤ st.Fields.length) :
    ∃ s, items.foldlM emitItem (encodeMessageInit st) = some s ∧
      s.headers.length = 2 * st.Fields.length ∧
      s.offset = (headerSlots (-1) items).length ∧ s.dataLen.length = 4 := by
  obtain ⟨tag1, dataLen1, hd, hfold⟩ := emitItems_spec items [] (st.Fields.length * 2) (-1)
    ((make EncodeBufferSize).take 0) (make 4) (by simp [make]) (by omega)
  have hle := headerSlots_length_le (-1) items
  refine ⟨_, by simpa [encodeMessageInit] using hfold, ?_, ?_, hd⟩
  · simp only [List.nil_append, List.length_append, List.length_replicate]
    omega
  · simp

/-- C17. For every descriptor table whose order index is a duplicate-free list of valid
indices into `Fields`, `encodeMessage` never indexes outside its buffers. Every access
`st.Fields[i]` is in bounds. After any number `n` of iterations whose field computations
return, the writes to `headers` and to the 4-byte length buffer have succeeded, `headers`
still has its `2 * len(Fields)` slots, and the number of slots written is at most twice the
number of present fields among the first `n`, hence at most `2 * len(Fields)`, so the final
slice `headers[:offset]` is in bounds. For a valid record of tables with such order
indices, all field computations return and `encodeMessage` returns. -/
theorem encodeMessage_in_bounds (types : List SprotoType) (st : SprotoType)
    (fs : List Value) (hst : indexOk st) :
    (∀ i ∈ st.order, ∃ sf, st.Fields[i]? = some sf) ∧
    (∀ (n : Nat) (items : List Item),
      collectItems types st fs (st.order.take n) = some items →
      ∃ s, (st.order.take n).foldlM (encodeMessageStep st fs (encodeFieldValues types fs))
          (encodeMessageInit st) = some s ∧
        s.headers.length = 2 * st.Fields.length ∧
        s.dataLen.length = 4 ∧
        s.offset ≤ 2 * ((st.order.take n).filter (present st fs)).length ∧
        s.offset ≤ s.headers.length) ∧
    ((∀ t ∈ types, indexOk t) → validMsg types st (.ptrStruct fs) = true →
      ∃ items s out, collectItems types st fs st.order = some items ∧
        encodeMessageLoop st fs (encodeFieldValues types fs) = some s ∧
        s.offset ≤ s.headers.length ∧
        encodeMessageEnd s = some out ∧
        encodeMessage types st (.ptrStruct fs) = some out) := by
  refine ⟨?_, ?_, ?_⟩
  · intro i hi
    have hlt := hst.2 i hi
    exact ⟨st.Fields[i], List.getElem?_eq_getElem hlt⟩
  · intro n items hitems
    have hlen := collectItems_length_present types st fs _ items hitems
    have hcap : items.length ≤ st.Fields.length :=
      le_trans (collectItems_length types st fs _ items hitems) (indexOk_take st hst n)
    obtain ⟨s, hs, hh, ho, hd⟩ := emitItems_bounds st items hcap
    have hslots := headerSlots_length_le (-1) items
    refine ⟨s, ?_, hh, hd, by omega, by omega⟩
    rw [encodeFieldValues_eq, encodeMessageLoop_fold, hitems]
    exact hs
  · intro htypes hvalid
    obtain ⟨items, hitems, hcap⟩ := collectItems_of_valid types htypes st hst fs hvalid
    obtain ⟨s, hs, hh, ho, hd⟩ := emitItems_bounds st items hcap
    have hslots := headerSlots_length_le (-1) items
    have hloop : encodeMessageLoop st fs (encodeFieldValues types fs) = some s := by
      rw [encodeMessageLoop, encodeFieldValues_eq, encodeMessageLoop_fold, hitems]
      exact hs
    have hout := encodeMessage_of_items types st fs items hitems hcap
    have hend : encodeMessageEnd s = some (messageBytes items) := by
      rw [encodeMessage_ptrStruct, ← encodeFieldValues_eq, hloop] at hout
      exact hout
    exact ⟨items, s, _, hitems, hloop, by omega, hend, hout⟩

/-- C17 on the `StructArray` record (Bob with two children) of the table of `Human`: three
of the four fields are present, and the loop leaves four of the eight header slots written
(a skip slot precedes `Children`). -/
theorem encodeMessage_in_bounds_witness :
    indexOk humanType ∧ (∀ t ∈ testTypes, indexOk t) ∧
    validMsg testTypes humanType (.ptrStruct humanBobRecord) = true ∧
    (encodeMessageLoop humanType humanBobRecord
      (encodeFieldValues testTypes humanBobRecord)).map
      (fun s => (s.headers.length, s.offset)) = some (8, 4) ∧
    ((∀ i ∈ humanType.order, ∃ sf, humanType.Fields[i]? = some sf) ∧
    (∀ (n : Nat) (items : List Item),
      collectItems testTypes humanType humanBobRecord (humanType.order.take n) = some items →
      ∃ s, (humanType.order.take n).foldlM
          (encodeMessageStep humanType humanBobRecord
            (encodeFieldValues testTypes humanBobRecord))
          (encodeMessageInit humanType) = some s ∧
        s.headers.length = 2 * humanType.Fields.length ∧
        s.dataLen.length = 4 ∧
        s.offset ≤ 2 * ((humanType.order.take n).filter
          (present humanType humanBobRecord)).length ∧
        s.offset ≤ s.headers.length) ∧
    ((∀ t ∈ testTypes, indexOk t) →
      validMsg testTypes humanType (.ptrStruct humanBobRecord) = true →
      ∃ items s out, collectItems testTypes humanType humanBobRecord humanType.order =
          some items ∧
        encodeMessageLoop humanType humanBobRecord
          (encodeFieldValues testTypes humanBobRecord) = some s ∧
        s.offset ≤ s.headers.length ∧
        encodeMessageEnd s = some out ∧
        encodeMessage testTypes humanType (.ptrStruct humanBobRecord) = some out)) :=
  ⟨by decide, by decide, by decide, by decide,
    encodeMessage_in_bounds testTypes humanType humanBobRecord (by decide)⟩

/-! ### C18: little-endian writers -/

theorem writeUint16_drop (buf : Bytes) (v : Nat) (h : 2 ≤ buf.length) :
    writeUint16 buf v = some (littleEndian 2 v ++ buf.drop 2) := by
  match buf, h with
  | a :: b :: rest, _ => exact writeUint16_cons a b rest v

theorem writeUint32_drop (buf : Bytes) (v : Nat) (h : 4 ≤ buf.length) :
    writeUint32 buf v = some (littleEndian 4 v ++ buf.drop 4) := by
  match buf, h with
  | a :: b :: c :: d :: rest, _ => exact writeUint32_cons a b c d rest v

theorem writeUint64_drop (buf : Bytes) (v : Nat) (h : 8 ≤ buf.length) :
    writeUint64 buf v = some (littleEndian 8 v ++ buf.drop 8) := by
  match buf, h with
  | a :: b :: c :: d :: e :: f :: g :: k :: rest, _ =>
    exact writeUint64_cons a b c d e f g k rest v

theorem littleEndian_sum (w v : Nat) (rest : Bytes) :
    ∑ i in Finset.range w, (littleEndian w v ++ rest).getD i 0 * 256 ^ i = v % 256 ^ w := by
  induction w generalizing v with
  | zero => simp [Nat.mod_one]
  | succ w ih =>
    rw [Finset.sum_range_succ']
    simp only [littleEndian, List.cons_append, List.getD_cons_succ, List.getD_cons_zero,
      pow_zero, mul_one]
    have hstep : ∀ i ∈ Finset.range w,
        (littleEndian w (v / 256) ++ rest).getD i 0 * 256 ^ (i + 1) =
          256 * ((littleEndian w (v / 256) ++ rest).getD i 0 * 256 ^ i) := by
      intro i _
      ring
    rw [Finset.sum_congr rfl hstep, ← Finset.mul_sum, ih, pow_succ, Nat.mul_comm (256 ^ w) 256,
      Nat.mod_mul]
    omega

/-- What the three writers have in common: the written buffer is the `w` little-endian bytes
of `v` followed by the old bytes past `w`. -/
theorem littleEndian_written (w v : Nat) (buf : Bytes) (hlen : w ≤ buf.length)
    (hv : v < 256 ^ w) :
    (littleEndian w v ++ buf.drop w).length = buf.length ∧
    (∀ i : Nat, i < w → (littleEndian w v ++ buf.drop w)[i]? = some ((v >>> (8 * i)) % 256)) ∧
    ∑ i in Finset.range w, (littleEndian w v ++ buf.drop w).getD i 0 * 256 ^ i = v ∧
    (∀ i : Nat, w ≤ i → (littleEndian w v ++ buf.drop w)[i]? = buf[i]?) := by
  refine ⟨?_, ?_, ?_, ?_⟩
  · simp [littleEndian_length]; omega
  · intro i hi
    rw [List.getElem?_append_left (by rw [littleEndian_length]; exact hi),
      littleEndian_getElem, if_pos hi, Nat.shiftRight_eq_div_pow, pow_mul]
    norm_num
  · rw [littleEndian_sum, Nat.mod_eq_of_lt hv]
  · intro i hi
    rw [List.getElem?_append_right (by rw [littleEndian_length]; exact hi),
      littleEndian_length, List.getElem?_drop]
    congr 1
    omega

/-- C18. `writeUint16`, `writeUint32` and `writeUint64` store their argument little-endian:
on a buffer of at least 2, 4, 8 bytes and for every `v` below `2^16`, `2^32`, `2^64`, the
call returns a buffer of the same length in which byte `i` is `(v >> 8 * i) mod 256` for
each `i` below the width, the sum of `buf[i] * 256^i` over those `i` equals `v`, and every
byte at or past the width is unchanged. -/
theorem writeUint_little_endian (buf : Bytes) (v : Nat) :
    (2 ≤ buf.length → v < 2 ^ 16 → ∃ out : Bytes, writeUint16 buf v = some out ∧
      out.length = buf.length ∧
      (∀ i : Nat, i < 2 → out[i]? = some ((v >>> (8 * i)) % 256)) ∧
      ∑ i in Finset.range 2, out.getD i 0 * 256 ^ i = v ∧
      (∀ i : Nat, 2 ≤ i → out[i]? = buf[i]?)) ∧
    (4 ≤ buf.length → v < 2 ^ 32 → ∃ out : Bytes, writeUint32 buf v = some out ∧
      out.length = buf.length ∧
      (∀ i : Nat, i < 4 → out[i]? = some ((v >>> (8 * i)) % 256)) ∧
      ∑ i in Finset.range 4, out.getD i 0 * 256 ^ i = v ∧
      (∀ i : Nat, 4 ≤ i → out[i]? = buf[i]?)) ∧
    (8 ≤ buf.length → v < 2 ^ 64 → ∃ out : Bytes, writeUint64 buf v = some out ∧
      out.length = buf.length ∧
      (∀ i : Nat, i < 8 → out[i]? = some ((v >>> (8 * i)) % 256)) ∧
      ∑ i in Finset.range 8, out.getD i 0 * 256 ^ i = v ∧
      (∀ i : Nat, 8 ≤ i → out[i]? = buf[i]?)) := by
  refine ⟨?_, ?_, ?_⟩
  · intro hlen hv
    exact ⟨_, writeUint16_drop buf v hlen, littleEndian_written 2 v buf hlen (by norm_num; exact hv)⟩
  · intro hlen hv
    exact ⟨_, writeUint32_drop buf v hlen, littleEndian_written 4 v buf hlen (by norm_num; exact hv)⟩
  · intro hlen hv
    exact ⟨_, writeUint64_drop buf v hlen, littleEndian_written 8 v buf hlen (by norm_num; exact hv)⟩

/-- C18 on a ten-byte buffer of `0xAA` bytes: `writeUint16` of `0x1234`, `writeUint32` of
`0x12345678` and `writeUint64` of `0x0102030405060708`. -/
theorem writeUint_little_endian_witness :
    writeUint16 (List.replicate 10 0xAA) 0x1234 =
      some [0x34, 0x12, 0xAA, 0xAA, 0xAA, 0xAA, 0xAA, 0xAA, 0xAA, 0xAA] ∧
    (∃ out : Bytes, writeUint32 (List.replicate 10 0xAA) 0x12345678 = some out ∧
      out.length = (List.replicate 10 0xAA).length ∧
      (∀ i : Nat, i < 4 → out[i]? = some ((0x12345678 >>> (8 * i)) % 256)) ∧
      ∑ i in Finset.range 4, out.getD i 0 * 256 ^ i = 0x12345678 ∧
      (∀ i : Nat, 4 ≤ i → out[i]? = (List.replicate 10 0xAA)[i]?)) ∧
    writeUint64 (List.replicate 10 0xAA) 0x0102030405060708 =
      some [8, 7, 6, 5, 4, 3, 2, 1, 0xAA, 0xAA] :=
  ⟨by decide,
    (writeUint_little_endian (List.replicate 10 0xAA) 0x12345678).2.1 (by decide) (by decide),
    by decide⟩

end Sproto
